import Mathlib

/-!
Verification of the user-space control plane of the `ebpf-firewall` repository.

The development shallowly embeds the Go sources:
* `internal/threatintel/iptrie/network.go` and `iptrie.go` — the path-compressed
  binary trie over IPv4/IPv6 (word-level model, one `Nat` per `uint32` word);
* `internal/utils/utils.go` — `ParseValueToBytes`, `ParseStringToIPType` and the
  Go standard-library parsers (`net.ParseIP`, `net.ParseCIDR`, `net.ParseMAC`)
  they call (byte-level model);
* `internal/processor/processor.go` and `config.go` — the block-rule engine and
  the threat-intel match handler (kernel map updates are recorded as an explicit
  operation trace; fallible kernel calls take a failure oracle);
* `internal/threatintel/aggregator.go` — the feed-metadata state machine.

Go `uint32` values are modelled as `Nat` (all stored words are `< 2^32`, which the
well-formedness predicates record); Go `int`/`int64` appear as `Int` where they can
be negative (`getTargetBitPos`, the trie's `nodeCount`).  Mutation is modelled by
explicit state passing.
-/

namespace EbpfFirewall

/-! ## Word-level addresses (`internal/threatintel/iptrie/network.go`) -/

/-- Go `iptrie.IPAddress` (`[]uint32`): most-significant-first list of 32-bit words
(one word for IPv4, four for IPv6, produced by `NewIPAddress` via `To4`/`To16`). -/
abbrev IPAddress := List Nat

/-- `BitsPerWord` from network.go. -/
def BitsPerWord : Nat := 32

/-- `IPAddress.Bit` from network.go:
`wordIdx := len(n) - 1 - int(position>>5)` (Go `int` arithmetic, hence `Int` here);
out-of-range indices return the error `"bit position not valid"` (modelled as `none`);
otherwise the result is `(n[wordIdx] >> (position & 31)) & 1`. -/
def IPAddress.bit (n : IPAddress) (position : Nat) : Option Nat :=
  let wordIdx : Int := (n.length : Int) - 1 - ((position >>> 5 : Nat) : Int)
  if wordIdx < 0 ∨ (n.length : Int) ≤ wordIdx then none
  else some ((n.getD wordIdx.toNat 0 >>> (position &&& 31)) &&& 1)

/-- The inner loop of `IPAddress.LeastCommonBitPosition` on one word pair: scan the
bit positions `pos, pos-1, …, 0` (Go scans masks `1<<31` down) and return the first
position where `a` and `b` differ, if any. -/
def diffBitInWord (a b : Nat) : Nat → Option Nat
  | 0 => if (a >>> 0) &&& 1 ≠ (b >>> 0) &&& 1 then some 0 else none
  | pos + 1 =>
    if (a >>> (pos + 1)) &&& 1 ≠ (b >>> (pos + 1)) &&& 1 then some (pos + 1)
    else diffBitInWord a b pos

/-- The word loop of `IPAddress.LeastCommonBitPosition`: words are scanned
most-significant first; on the first differing bit at in-word position `pos` of word
`i` the result is `(pos+1) + 32*(len-i-1)` (`rest.length = len-i-1`), except that a
difference in the very first bit (`i == 0 && pos == 31`) is the error
`"no greatest common bit"`.  If all words agree the result is `0`. -/
def lcbGo : List (Nat × Nat) → Bool → Except String Nat
  | [], _ => .ok 0
  | (a, b) :: rest, isFirst =>
    match diffBitInWord a b 31 with
    | some pos =>
      if isFirst ∧ pos = 31 then .error "no greatest common bit"
      else .ok ((pos + 1) + BitsPerWord * rest.length)
    | none => lcbGo rest false

/-- `IPAddress.LeastCommonBitPosition` from network.go. -/
def IPAddress.leastCommonBitPosition (n n1 : IPAddress) : Except String Nat :=
  if n.length ≠ n1.length then .error "network input version mismatch"
  else lcbGo (n.zip n1) true

/-- One word of a CIDR mask with `ones` leading one bits (clamped to 32). -/
def maskWord (ones : Nat) : Nat := (2 ^ min ones 32 - 1) * 2 ^ (32 - min ones 32)

/-- `net.CIDRMask(ones, 32*w)` coerced to words by `NewIPAddress`: `w` words,
the leading `ones` bits set.  (Go returns `nil` for `ones > bits`; that case is
unreachable in the flows modelled here and the model clamps instead.) -/
def cidrMask (ones : Nat) : Nat → IPAddress
  | 0 => []
  | w + 1 => maskWord ones :: cidrMask (ones - 32) w

/-- Go `iptrie.IPNetwork`.  The Go struct stores the `*net.IPNet` plus the derived
`Address`/`Netmask` word views and `PrefixLen`; within one trie every network is of
a single family, so the word views and the prefix length determine the `net.IPNet`
and the model keeps only them. -/
structure IPNetwork where
  addr : IPAddress
  netmask : IPAddress
  prefixLen : Nat
deriving Repr, DecidableEq

/-- `IPNetwork.Contains` from network.go: length guard on the netmask, then the
masked word comparisons (word 0 always, words 1–3 when the address has 4 words). -/
def IPNetwork.containsA (n : IPNetwork) (nn : IPAddress) : Bool :=
  if n.netmask.length ≠ nn.length then false
  else if (nn.getD 0 0 &&& n.netmask.getD 0 0) ≠ n.addr.getD 0 0 then false
  else if nn.length = 4 then
    decide ((nn.getD 1 0 &&& n.netmask.getD 1 0) = n.addr.getD 1 0 ∧
      (nn.getD 2 0 &&& n.netmask.getD 2 0) = n.addr.getD 2 0 ∧
      (nn.getD 3 0 &&& n.netmask.getD 3 0) = n.addr.getD 3 0)
  else true

/-- `IPNetwork.LeastCommonBitPosition` from network.go:
`maskSize = min(PrefixLen, n1.PrefixLen)`, `maskPosition = len(n1.Address)*32 - maskSize`,
result `max(maskPosition, addressLCB)`. -/
def IPNetwork.leastCommonBitPosition (n n1 : IPNetwork) : Except String Nat :=
  let maskSize := min n.prefixLen n1.prefixLen
  let maskPosition := n1.addr.length * BitsPerWord - maskSize
  match IPAddress.leastCommonBitPosition n.addr n1.addr with
  | .error e => .error e
  | .ok lcb => .ok (max maskPosition lcb)

/-- `IPNetwork.Equal` from network.go: `CIDR.IP.Equal` plus `bytes.Equal` on the
masks.  On the same-family networks reachable in a trie, `IP.Equal` (which
normalises 4-byte and 16-byte IPv4 forms, exactly as the word view does) is word
equality and equal masks of the family's fixed length are equal prefix lengths. -/
def IPNetwork.equal (n n1 : IPNetwork) : Bool :=
  decide (n.addr = n1.addr ∧ n.prefixLen = n1.prefixLen)

/-- `IPNetwork.Masked` from network.go: mask the base address with
`net.CIDRMask(ones, len(Address)*32)` and rebuild the network (whose `PrefixLen` is
then `Mask.Size() = ones`). -/
def IPNetwork.masked (n : IPNetwork) (ones : Nat) : IPNetwork :=
  let mask := cidrMask ones n.addr.length
  { addr := List.zipWith (fun a b => a &&& b) n.addr mask
    netmask := mask
    prefixLen := ones }

/-! ## Trie nodes (`internal/threatintel/iptrie/iptrie.go`) -/

/-- Go `iptrie.prefixNode`.  The Go node stores `children []*prefixNode` of length 2
(slots 0 and 1), `skipBits uint`, `network IPNetwork`, `isLeaf bool`.  The `parent`
pointer exists only to let `compressPath` walk upward; the functional model performs
that walk in the recursion instead.  The root's `nodeCount` is kept on the trie
record. -/
inductive PrefixNode where
  | mk (child0 child1 : Option PrefixNode) (skipBits : Nat) (network : IPNetwork)
      (isLeaf : Bool)

def PrefixNode.child0 : PrefixNode → Option PrefixNode
  | .mk c0 _ _ _ _ => c0

def PrefixNode.child1 : PrefixNode → Option PrefixNode
  | .mk _ c1 _ _ _ => c1

def PrefixNode.skipBits : PrefixNode → Nat
  | .mk _ _ s _ _ => s

def PrefixNode.network : PrefixNode → IPNetwork
  | .mk _ _ _ n _ => n

def PrefixNode.isLeaf : PrefixNode → Bool
  | .mk _ _ _ _ l => l

/-- `p.children[bit]` (the bit values produced by `IPAddress.Bit` are 0 or 1). -/
def PrefixNode.child (p : PrefixNode) (bit : Nat) : Option PrefixNode :=
  if bit = 0 then p.child0 else p.child1

/-- Assignment `p.children[bit] = c`. -/
def PrefixNode.setChild (p : PrefixNode) (bit : Nat) (c : Option PrefixNode) :
    PrefixNode :=
  match p with
  | .mk c0 c1 s n l => if bit = 0 then .mk c c1 s n l else .mk c0 c s n l

/-- Assignment `p.isLeaf = b`. -/
def PrefixNode.setLeaf (p : PrefixNode) (b : Bool) : PrefixNode :=
  match p with
  | .mk c0 c1 s n _ => .mk c0 c1 s n b

/-- `prefixNode.getChildCount` from iptrie.go. -/
def PrefixNode.getChildCount (p : PrefixNode) : Nat :=
  (if p.child0.isSome then 1 else 0) + (if p.child1.isSome then 1 else 0)

/-- `prefixNode.getTotalBits` from iptrie.go. -/
def PrefixNode.getTotalBits (p : PrefixNode) : Nat :=
  BitsPerWord * p.network.addr.length

/-- `prefixNode.getTargetBitPos` from iptrie.go (Go `int`: can be `-1`). -/
def PrefixNode.getTargetBitPos (p : PrefixNode) : Int :=
  (p.getTotalBits : Int) - (p.skipBits : Int) - 1

/-- `prefixNode.getBitFromAddress` from iptrie.go.  A negative target position is
converted to a huge `uint` in Go and makes `Bit` fail; the model returns the same
failure directly. -/
def PrefixNode.getBitFromAddress (p : PrefixNode) (n : IPAddress) : Option Nat :=
  if p.getTargetBitPos < 0 then none else n.bit p.getTargetBitPos.toNat

/-- `newPathNode` from iptrie.go. -/
def newPathNode (network : IPNetwork) (numBitsSkipped : Nat) : PrefixNode :=
  .mk none none numBitsSkipped (network.masked numBitsSkipped) false

/-- `newLeafNode` from iptrie.go. -/
def newLeafNode (network : IPNetwork) : PrefixNode :=
  (newPathNode network network.prefixLen).setLeaf true

theorem sizeOf_child0 {p : PrefixNode} {c : PrefixNode} (h : p.child0 = some c) :
    sizeOf c < sizeOf p := by
  cases p with
  | mk c0 c1 s n l =>
    cases c0 with
    | none => simp [PrefixNode.child0] at h
    | some c' =>
      simp [PrefixNode.child0] at h
      subst h
      simp
      omega

theorem sizeOf_child1 {p : PrefixNode} {c : PrefixNode} (h : p.child1 = some c) :
    sizeOf c < sizeOf p := by
  cases p with
  | mk c0 c1 s n l =>
    cases c1 with
    | none => simp [PrefixNode.child1] at h
    | some c' =>
      simp [PrefixNode.child1] at h
      subst h
      simp
      omega

theorem sizeOf_child {p : PrefixNode} {b : Nat} {c : PrefixNode}
    (h : p.child b = some c) : sizeOf c < sizeOf p := by
  unfold PrefixNode.child at h
  by_cases hb : b = 0
  · exact sizeOf_child0 (by simpa [hb] using h)
  · exact sizeOf_child1 (by simpa [hb] using h)

/-- `prefixNode.containsAddress` from iptrie.go: fail unless the node's network
contains the query; succeed at a leaf; otherwise descend along the query's bit at
the target position (a negative target position, a `Bit` error, or a missing child
is a failure). -/
def PrefixNode.containsAddress : PrefixNode → IPAddress → Bool
  | .mk c0 c1 skip net leaf, number =>
    if ¬ net.containsA number then false
    else if leaf then true
    else if (PrefixNode.mk c0 c1 skip net leaf).getTargetBitPos < 0 then false
    else
      match number.bit (PrefixNode.mk c0 c1 skip net leaf).getTargetBitPos.toNat with
      | none => false
      | some bit =>
        if bit = 0 then
          match c0 with
          | none => false
          | some c => c.containsAddress number
        else
          match c1 with
          | none => false
          | some c => c.containsAddress number

/-- The body of the `for` loop of `prefixNode.insertNetwork` from iptrie.go, with
the loop's `current := child` / `current := pathNode` reassignments rendered as
recursion.  `fuel` bounds the number of iterations (the Go loop terminates because
`skipBits` strictly increases along the walk; the sufficiency of the fuel supplied
by callers is proved below for well-formed tries, so the `"out of fuel"` branch is
unreachable).  The result is the new subtree together with `sizeIncreased`. -/
def insertNetwork (fuel : Nat) (p : PrefixNode) (network : IPNetwork) :
    Except String (PrefixNode × Bool) :=
  match fuel with
  | 0 => .error "out of fuel"
  | fuel + 1 =>
    if p.network.equal network then
      if p.isLeaf then .ok (p, false)
      else .ok (p.setLeaf true, true)
    else
      match p.getBitFromAddress network.addr with
      | none => .error "bit position not valid"
      | some bit =>
        match p.child bit with
        | none => .ok (p.setChild bit (some (newLeafNode network)), true)
        | some child =>
          match network.leastCommonBitPosition child.network with
          | .error e => .error e
          | .ok lcb =>
            let divergingBitPos : Int := (lcb : Int) - 1
            if divergingBitPos ≤ child.getTargetBitPos then
              -- descend: `current = child`
              match insertNetwork fuel child network with
              | .error e => .error e
              | .ok (c, inc) => .ok (p.setChild bit (some c), inc)
            else
              -- split the edge: `insertPrefix(bit, pathNode, child)` links the new
              -- path node below `p` and reparents `child` below it at the bit of
              -- `child.network.Address` at the path node's target position; then
              -- `current = pathNode`
              let pathNode := newPathNode network (p.getTotalBits - lcb)
              match pathNode.getBitFromAddress child.network.addr with
              | none => .error "bit position not valid"
              | some pathPrefixBit =>
                match insertNetwork fuel (pathNode.setChild pathPrefixBit (some child))
                    network with
                | .error e => .error e
                | .ok (pn, inc) => .ok (p.setChild bit (some pn), inc)

/-- Result of `prefixNode.removeNetwork` on a subtree.  `node p` — the subtree is
now `p` and the upward `compressPath` walk has stopped; `detached` — the removed
leaf had no children and was detached from its parent (`compressPath` returns
immediately, without compressing the parent); `collapsed c` — the removed leaf had
exactly one child `c` and the walk `for parent.canCompressPath()` is still climbing:
each ancestor that is compressible *in its pre-removal state* (not a leaf, at most
one child, not the root) is dissolved, and the first non-compressible ancestor
adopts `c` in the slot that led to the removed leaf. -/
inductive RemoveRes where
  | node (p : PrefixNode)
  | detached
  | collapsed (c : PrefixNode)
  | err (e : String)

/-- `prefixNode.removeNetwork` (plus the `compressPath` walk) from iptrie.go.
At the matching leaf, `isLeaf` is unset and `compressPath` runs: with the parent
link (`isRoot` tracks `parent == nil`) the node either stays (`canCompressPath`
false: root or ≥ 2 children), is detached (0 children), or is replaced by its lone
child at the nearest non-compressible ancestor (1 child).  While descending, a
negative target position or a missing child ends the walk with no change (removing
an absent network is silent), and the slot used to re-attach a collapsed child is
the descent slot (Go recomputes it from the removed node's address at the ancestor's
target position, which is the same bit). -/
def removeNetwork : PrefixNode → IPNetwork → Bool → RemoveRes
  | .mk c0 c1 skip net leaf, network, isRoot =>
    if leaf ∧ net.equal network then
      if isRoot then .node (.mk c0 c1 skip net false)
      else
        match c0, c1 with
        | none, none => .detached
        | some c, none => .collapsed c
        | none, some c => .collapsed c
        | some _, some _ => .node (.mk c0 c1 skip net false)
    else if (PrefixNode.mk c0 c1 skip net leaf).getTargetBitPos < 0 then
      .node (.mk c0 c1 skip net leaf)
    else
      match (PrefixNode.mk c0 c1 skip net leaf).getBitFromAddress network.addr with
      | none => .err "bit position not valid"
      | some bit =>
        if bit = 0 then
          match c0 with
          | none => .node (.mk c0 c1 skip net leaf)
          | some child =>
            match removeNetwork child network false with
            | .err e => .err e
            | .node c => .node (.mk (some c) c1 skip net leaf)
            | .detached => .node (.mk none c1 skip net leaf)
            | .collapsed c =>
              if ¬ leaf ∧ (PrefixNode.mk c0 c1 skip net leaf).getChildCount ≤ 1 ∧
                  ¬ isRoot then
                .collapsed c
              else .node (.mk (some c) c1 skip net leaf)
        else
          match c1 with
          | none => .node (.mk c0 c1 skip net leaf)
          | some child =>
            match removeNetwork child network false with
            | .err e => .err e
            | .node c => .node (.mk c0 (some c) skip net leaf)
            | .detached => .node (.mk c0 none skip net leaf)
            | .collapsed c =>
              if ¬ leaf ∧ (PrefixNode.mk c0 c1 skip net leaf).getChildCount ≤ 1 ∧
                  ¬ isRoot then
                .collapsed c
              else .node (.mk c0 (some c) skip net leaf)

/-! ## The two-root trie (`iptrie.IPTrie`) -/

/-- Go `iptrie.IPTrie`: one root per family.  In Go the insertion counter
`nodeCount` is an `int32` on each root node, updated with `atomic.AddInt32`; the
model hoists the two counters into the trie record and uses `Int` (the counter can
go negative — `prefixNode.Remove` decrements unconditionally). -/
structure IPTrie where
  ipv4Root : PrefixNode
  ipv4Count : Int
  ipv6Root : PrefixNode
  ipv6Count : Int

/-- The fuel passed to `insertNetwork`: the walk visits strictly increasing
`skipBits ≤ 32·words`, so `32·words + 2` iterations always suffice. -/
def insertFuel (net : IPNetwork) : Nat := BitsPerWord * net.addr.length + 2

/-- `NewIPTrie` from iptrie.go: roots for `0.0.0.0/0` and `0::0/0` (word views
`[0]` and `[0,0,0,0]`, prefix length 0), no children, `isLeaf` false. -/
def IPTrie.new : IPTrie :=
  { ipv4Root := .mk none none 0 { addr := [0], netmask := [0], prefixLen := 0 } false
    ipv4Count := 0
    ipv6Root := .mk none none 0
      { addr := [0, 0, 0, 0], netmask := [0, 0, 0, 0], prefixLen := 0 } false
    ipv6Count := 0 }

/-- `IPTrie.Insert` after `parseIPAddrToIPNet`: dispatch on the family
(`ipNet.IP.To4() != nil` is exactly a one-word address view), run
`prefixNode.Insert`, which bumps `nodeCount` when `sizeIncreased` and otherwise
turns a silent `insertNetwork` success into the error `"network already exists"`.
On any error the trie is returned unchanged (the error paths are proved unreachable
for well-formed inserts). -/
def IPTrie.insertNetRes (t : IPTrie) (net : IPNetwork) : IPTrie × Option String :=
  if net.addr.length = 1 then
    match insertNetwork (insertFuel net) t.ipv4Root net with
    | .ok (r, true) => ({ t with ipv4Root := r, ipv4Count := t.ipv4Count + 1 }, none)
    | .ok (_, false) => (t, some "network already exists")
    | .error e => (t, some e)
  else
    match insertNetwork (insertFuel net) t.ipv6Root net with
    | .ok (r, true) => ({ t with ipv6Root := r, ipv6Count := t.ipv6Count + 1 }, none)
    | .ok (_, false) => (t, some "network already exists")
    | .error e => (t, some e)

def IPTrie.insertNet (t : IPTrie) (net : IPNetwork) : IPTrie :=
  (t.insertNetRes net).1

/-- `IPTrie.Remove` after `parseIPAddrToIPNet`: run `removeNetwork` on the family
root and then decrement `nodeCount` — `prefixNode.Remove` decrements whenever
`removeNetwork` returned no error, *whether or not a leaf was removed*.  At the root
(`parent == nil`) only the `node`/`err` results can occur; the unreachable cases are
mapped like `node`. -/
def IPTrie.removeNetRes (t : IPTrie) (net : IPNetwork) : IPTrie × Option String :=
  if net.addr.length = 1 then
    match removeNetwork t.ipv4Root net true with
    | .err e => (t, some e)
    | .node r => ({ t with ipv4Root := r, ipv4Count := t.ipv4Count - 1 }, none)
    | _ => ({ t with ipv4Count := t.ipv4Count - 1 }, none)
  else
    match removeNetwork t.ipv6Root net true with
    | .err e => (t, some e)
    | .node r => ({ t with ipv6Root := r, ipv6Count := t.ipv6Count - 1 }, none)
    | _ => ({ t with ipv6Count := t.ipv6Count - 1 }, none)

def IPTrie.removeNet (t : IPTrie) (net : IPNetwork) : IPTrie :=
  (t.removeNetRes net).1

/-- `IPTrie.Contains` after `parseIPAddrToIPNet`: the query address is
`ipNet.IP`, i.e. the (masked) base address of the parsed network, and the family
root is chosen by `To4`. -/
def IPTrie.containsAddr (t : IPTrie) (ip : IPAddress) : Bool :=
  if ip.length = 1 then t.ipv4Root.containsAddress ip
  else t.ipv6Root.containsAddress ip

/-- `IPTrie.Size` from iptrie.go: the sum of the two root counters. -/
def IPTrie.size (t : IPTrie) : Int := t.ipv4Count + t.ipv6Count

/-- The compress-path invariant claimed by the specification, as a decidable check:
some non-root, non-leaf node of the subtree has fewer than 2 children.  (`isRoot`
is true only for the top call.) -/
def hasCompressViolation : PrefixNode → Bool → Bool
  | .mk c0 c1 skip net leaf, isRoot =>
    (!isRoot && !leaf &&
      decide ((PrefixNode.mk c0 c1 skip net leaf).getChildCount < 2)) ||
    (match c0 with
     | some c => hasCompressViolation c false
     | none => false) ||
    (match c1 with
     | some c => hasCompressViolation c false
     | none => false)

/-! ## Block-rule engine (`internal/processor/config.go`, `processor.go`)

Kernel map calls (`EBPFManager.AddRule` / `DeleteRule`) are synchronous calls that
can fail; the models take a failure oracle per value and record the successful
calls as an explicit trace of `KernelOp`s.  `time.Now().Unix()` is passed in as
`now`. -/

/-- `processor.BlockRule` (config.go).  The `Extra map[string]any` field plays no
role in any modelled operation and is omitted. -/
structure BlockRule where
  id : String
  value : String
  note : String
  source : Nat
  createTime : Int
  enabled : Bool
  expireTime : Int
deriving Repr, DecidableEq

/-- `BlockSourceTypeIntel` (config.go: `BlockSourceTypeUser = 1`, then iota). -/
def BlockSourceTypeIntel : Nat := 2

/-- A kernel map update issued through `EBPFManager.AddRule`/`DeleteRule`. -/
inductive KernelOp where
  | add (value : String)
  | delete (value : String)
deriving Repr, DecidableEq

/-- The rule list of `ProcessorConfig.Blocklist.Rules`; the remaining configuration
fields are read-only in the modelled operations. -/
structure ProcessorCfg where
  rules : List BlockRule
deriving Repr, DecidableEq

/-- `Processor.updateBlockRuleToKernel` (processor.go): disabled rules do nothing;
a rule already expired at enable time is auto-disabled (mutating the caller's
`rule`, returned here) without calling the kernel; otherwise `AddRule(rule.Value)`
is issued and its failure is the closure's error. -/
def updateBlockRuleToKernel (now : Int) (addFails : String → Bool)
    (rule : BlockRule) : Except String (BlockRule × List KernelOp) :=
  if ¬ rule.enabled then .ok (rule, [])
  else if rule.expireTime > 0 ∧ rule.expireTime ≤ now then
    .ok ({ rule with enabled := false }, [])
  else if addFails rule.value then .error "failed to update block rule to kernel"
  else .ok (rule, [.add rule.value])

/-- `Processor.AddBlockRule` (processor.go) together with the
`Processor.updateConfig` closure semantics (config.go): the stored configuration is
copied, the closure first pushes the rule to the kernel and then appends it to the
copy's rule list, and the copy is published only when the closure returns nil.
On a kernel failure the closure has not yet touched the rule list, so the stored
configuration is unchanged.  `newId` stands for `utils.GenerateUUID()`.  The result
is (error?, configuration visible in the store afterwards, kernel trace). -/
def addBlockRule (cfg : ProcessorCfg) (now : Int) (addFails : String → Bool)
    (rule : BlockRule) (newId : String) :
    Option String × ProcessorCfg × List KernelOp :=
  match updateBlockRuleToKernel now addFails { rule with id := newId } with
  | .error e => (some e, cfg, [])
  | .ok (r, ops) => (none, { cfg with rules := cfg.rules ++ [r] }, ops)

/-- `Processor.UpdateBlockRule` (processor.go) with the `updateConfig` closure
semantics.  The Go copy `newConfig := *p.getConfig()` shares the backing array of
the `Rules` slice with the stored configuration, so the element write
`config.Blocklist.Rules[i] = rule` is visible through the stored configuration even
when the closure later fails and the copy is not published — `List.set` models that
shared write.  `updateBlockRuleToKernel` receives its own copy `&rule`, so its
auto-disable does not reach the stored slice element. -/
def updateBlockRule (cfg : ProcessorCfg) (now : Int) (addFails delFails : String → Bool)
    (id : String) (rule : BlockRule) :
    Option String × ProcessorCfg × List KernelOp :=
  match cfg.rules.findIdx? (fun r => r.id = id) with
  | none => (some ("rule not found: " ++ id), cfg, [])
  | some i =>
    let oldEnabled := ((cfg.rules.get? i).getD rule).enabled
    let shared := { cfg with rules := cfg.rules.set i rule }
    if oldEnabled ≠ rule.enabled then
      if rule.enabled then
        match updateBlockRuleToKernel now addFails rule with
        | .error e => (some e, shared, [])
        | .ok (_, ops) => (none, shared, ops)
      else
        if delFails rule.value then (some "failed kernel delete", shared, [])
        else (none, shared, [.delete rule.value])
    else (none, shared, [])

/-- `Processor.DeleteBlockRule` (processor.go) with the `updateConfig` closure
semantics: locate the rule by id and splice it out of the copy's rule list
(`append(rules[:i], rules[i+1:]...)`), or fail with `"rule not found"`.  The
closure makes **no** kernel calls, so the trace is always empty. -/
def deleteBlockRule (cfg : ProcessorCfg) (id : String) :
    Option String × ProcessorCfg × List KernelOp :=
  match cfg.rules.findIdx? (fun r => r.id = id) with
  | none => (some ("rule not found: " ++ id), cfg, [])
  | some i => (none, { cfg with rules := cfg.rules.eraseIdx i }, [])

/-! ## Threat-intel match handling (`Processor.handleThreatIntelMatch`) -/

/-- `processor.MatchActionMode` (config.go). -/
inductive MatchActionMode where
  | monitor
  | block
  | threshold
deriving Repr, DecidableEq

/-- The threat-intel fields of `ProcessorConfig.ThreatIntel` used by
`handleThreatIntelMatch` (durations in seconds, as the Go code compares them to
Unix timestamps). -/
structure ThreatIntelCfg where
  matchMode : MatchActionMode
  matchThreshold : Int
  matchWindow : Int
  blockDuration : Int
deriving Repr, DecidableEq

/-- `processor.WindowState`. -/
structure WindowState where
  count : Int
  firstTime : Int
deriving Repr, DecidableEq

/-- `Processor.handleThreatIntelMatch` (processor.go).  `states` is the
`windowStates sync.Map` restricted to `srcIP`; the result is the updated state for
`srcIP` together with the `BlockRule` passed to `AddBlockRule`, or `none` when the
function returns without installing any rule (the below-threshold `return`).
All `time.Now()` readings are `now`. -/
def handleThreatIntelMatch (cfg : ThreatIntelCfg) (state : Option WindowState)
    (srcIP : String) (now : Int) : Option WindowState × Option BlockRule :=
  let enable := cfg.matchMode = MatchActionMode.block
  let stateAndGo : Option WindowState × Option Bool :=
    if cfg.matchMode = MatchActionMode.threshold then
      let st :=
        match state with
        | some st =>
          if now - st.firstTime > cfg.matchWindow then
            { count := 1, firstTime := now }
          else
            { st with count := st.count + 1 }
        | none => { count := 1, firstTime := now }
      if st.count ≥ cfg.matchThreshold then (some st, some true)
      else (some st, none)
    else (state, some enable)
  match stateAndGo with
  | (st, none) => (st, none)
  | (st, some enable) =>
    let expireTime : Int := if cfg.blockDuration > 0 then now + cfg.blockDuration else 0
    (st, some
      { id := ""
        value := srcIP
        note := "Matched threat intelligence"
        source := BlockSourceTypeIntel
        createTime := now
        enabled := enable
        expireTime := expireTime })

/-! ## Go standard-library address parsing (byte-level)

`utils.ParseValueToBytes` / `utils.ParseStringToIPType` call `net.ParseCIDR`,
`net.ParseIP` and `net.ParseMAC` (Go 1.23, per the Dockerfile).  The models below
transcribe those parsers; Go `net.IP` values appear as byte lists (`List Nat`,
bytes `< 256`). -/

/-- `netip.parseIPv4Fields` (inlined into `parseIPv4`): scan decimal fields
separated by dots.  `val`/`digLen` are the running field value and digit count,
`fields` the completed fields (most recent first).  A second digit after a leading
`0`, a field value above 255, an empty field (dot at the start, after another dot,
or at the end), a fifth field, or any other character fails; at the end of the
string exactly three completed fields must precede the final one. -/
def parseIPv4Fields : List Char → Nat → Nat → List Nat → Option (List Nat)
  | [], val, _, fields =>
    if fields.length = 3 then some (fields.reverse ++ [val]) else none
  | c :: rest, val, digLen, fields =>
    if '0' ≤ c ∧ c ≤ '9' then
      if digLen = 1 ∧ val = 0 then none
      else
        let val' := val * 10 + (c.toNat - '0'.toNat)
        if val' > 255 then none
        else parseIPv4Fields rest val' (digLen + 1) fields
    else if c = '.' then
      if digLen = 0 then none
      else if rest = [] then none
      else if fields.length = 3 then none
      else parseIPv4Fields rest 0 0 (val :: fields)
    else none

/-- `netip.parseIPv4`: the four dotted-decimal bytes. -/
def parseIPv4 (s : List Char) : Option (List Nat) :=
  parseIPv4Fields s 0 0 []

/-- The hex-field scan inlined in `netip.parseIPv6`: consume leading hex digits,
accumulating `acc` (failing as soon as it exceeds `0xFFFF`), and return
`(acc, number of digits consumed, rest)`. -/
def scanHexDigits : List Char → Nat → Nat → Option (Nat × Nat × List Char)
  | [], acc, off => some (acc, off, [])
  | c :: rest, acc, off =>
    if '0' ≤ c ∧ c ≤ '9' then
      let acc' := (acc <<< 4) + (c.toNat - '0'.toNat)
      if acc' > 0xFFFF then none else scanHexDigits rest acc' (off + 1)
    else if 'a' ≤ c ∧ c ≤ 'f' then
      let acc' := (acc <<< 4) + (c.toNat - 'a'.toNat + 10)
      if acc' > 0xFFFF then none else scanHexDigits rest acc' (off + 1)
    else if 'A' ≤ c ∧ c ≤ 'F' then
      let acc' := (acc <<< 4) + (c.toNat - 'A'.toNat + 10)
      if acc' > 0xFFFF then none else scanHexDigits rest acc' (off + 1)
    else some (acc, off, c :: rest)

/-- The main loop of `netip.parseIPv6` (`for i < 16`).  `s` is the remaining
input, `ip` the bytes produced so far (`i = ip.length`), `ellipsis` the byte
position of a `::` if one was seen.  Each iteration scans a hex field (at least
one digit); a following dot switches to an embedded IPv4 (allowed only at byte 12
or after an ellipsis, parsing the whole remaining string as dotted quad); otherwise
the 16-bit chunk is appended and the field must be followed by end-of-string or by
a colon and more input, a second colon recording the single allowed ellipsis.
`fuel` bounds the iterations (each consumes at least one character; 20 suffices
for any input reaching at most 16 bytes). -/
def parseIPv6Loop (fuel : Nat) (s : List Char) (ip : List Nat) (ellipsis : Option Nat) :
    Option (List Nat × List Char × Option Nat) :=
  match fuel with
  | 0 => none
  | fuel + 1 =>
    if 16 ≤ ip.length then some (ip, s, ellipsis)
    else
      match scanHexDigits s 0 0 with
      | none => none
      | some (acc, off, rest) =>
        if off = 0 then none
        else if rest.head? = some '.' then
          if ellipsis = none ∧ ip.length ≠ 12 then none
          else if 16 < ip.length + 4 then none
          else
            match parseIPv4 s with
            | none => none
            | some ip4 => some (ip ++ ip4, [], ellipsis)
        else
          let ip := ip ++ [acc >>> 8, acc &&& 0xFF]
          if rest = [] then some (ip, [], ellipsis)
          else if rest.head? ≠ some ':' then none
          else if rest.length = 1 then none
          else
            let rest := rest.tail
            if rest.head? = some ':' then
              if ellipsis.isSome then none
              else if rest.tail = [] then some (ip, [], some ip.length)
              else parseIPv6Loop fuel rest.tail ip (some ip.length)
            else parseIPv6Loop fuel rest ip ellipsis

/-- `netip.parseIPv6`: split a `%zone` suffix (which must be non-empty if
present), handle a leading `::`, run the field loop, require the whole string to
be consumed, and expand the ellipsis with zero bytes (it must stand for at least
one zero group).  Returns the 16 bytes and the zone. -/
def parseIPv6 (inp : List Char) : Option (List Nat × String) :=
  let zoneSplit :=
    match inp.findIdx? (fun c => c = '%') with
    | none => some (inp, "")
    | some i =>
      let zone := inp.drop (i + 1)
      if zone = [] then none else some (inp.take i, String.mk zone)
  match zoneSplit with
  | none => none
  | some (s, zone) =>
    let start :
        Option ((List Char × Option Nat) ⊕ List Nat) :=
      if s.head? = some ':' ∧ s.tail.head? = some ':' then
        if s.tail.tail = [] then some (.inr (List.replicate 16 0))
        else some (.inl (s.tail.tail, some 0))
      else some (.inl (s, none))
    match start with
    | none => none
    | some (.inr ip) => some (ip, zone)
    | some (.inl (s, ellipsis0)) =>
      match parseIPv6Loop 20 s [] ellipsis0 with
      | none => none
      | some (ip, rest, ellipsis) =>
        if rest ≠ [] then none
        else if ip.length < 16 then
          match ellipsis with
          | none => none
          | some e =>
            some (ip.take e ++ List.replicate (16 - ip.length) 0 ++ ip.drop e, zone)
        else if ellipsis.isSome then none
        else some (ip, zone)

/-- The dispatch scan of `netip.ParseAddr`: the first `'.'` selects the IPv4
parser, the first `':'` the IPv6 parser, a `'%'` before either is an error, and a
string with none of them is an error. -/
def parseAddrKind : List Char → Option Bool
  | [] => none
  | c :: rest =>
    if c = '.' then some true
    else if c = ':' then some false
    else if c = '%' then none
    else parseAddrKind rest

/-- `netip.ParseAddr`, returning `(As16 bytes, Is4, zone)`.  An IPv4 address is
stored in 4-in-6 form `0…0:ffff:a.b.c.d` with `Is4` set. -/
def netipParseAddr (s : String) : Option (List Nat × Bool × String) :=
  match parseAddrKind s.data with
  | some true =>
    match parseIPv4 s.data with
    | none => none
    | some b4 => some (List.replicate 10 0 ++ [0xFF, 0xFF] ++ b4, true, "")
  | some false =>
    match parseIPv6 s.data with
    | none => none
    | some (b16, zone) => some (b16, false, zone)
  | none => none

/-- `net.ParseIP` (Go ≥ 1.18): `netip.ParseAddr`, rejecting zones, and always
returning the 16-byte `As16` form — also for IPv4 addresses. -/
def goParseIP (s : String) : Option (List Nat) :=
  match netipParseAddr s with
  | none => none
  | some (b16, _, zone) => if zone ≠ "" then none else some b16

/-- `net.IP.To4`: a 4-byte IP itself, the last 4 bytes of a 16-byte
IPv4-in-IPv6 IP (`0…0:ffff:a.b.c.d`), otherwise nil. -/
def ipTo4 (ip : List Nat) : Option (List Nat) :=
  if ip.length = 4 then some ip
  else if ip.length = 16 ∧ ip.take 10 = List.replicate 10 0 ∧
      ip.getD 10 0 = 0xFF ∧ ip.getD 11 0 = 0xFF then
    some (ip.drop 12)
  else none

/-- `net.IP.To16`: a 4-byte IP in 4-in-6 form, a 16-byte IP itself, otherwise nil. -/
def ipTo16 (ip : List Nat) : Option (List Nat) :=
  if ip.length = 4 then some (List.replicate 10 0 ++ [0xFF, 0xFF] ++ ip)
  else if ip.length = 16 then some ip
  else none

/-- The value of one hex digit, if `c` is one (`net.xtoi`). -/
def hexDigitVal (c : Char) : Option Nat :=
  if '0' ≤ c ∧ c ≤ '9' then some (c.toNat - '0'.toNat)
  else if 'a' ≤ c ∧ c ≤ 'f' then some (c.toNat - 'a'.toNat + 10)
  else if 'A' ≤ c ∧ c ≤ 'F' then some (c.toNat - 'A'.toNat + 10)
  else none

/-- `net.xtoi2`: the byte value of the two leading hex digits of `s`; when `s` has
a third character it must equal `e`. -/
def xtoi2 (s : List Char) (e : Char) : Option Nat :=
  match s with
  | a :: b :: rest =>
    match hexDigitVal a, hexDigitVal b with
    | some ha, some hb =>
      match rest with
      | [] => some (16 * ha + hb)
      | c :: _ => if c = e then some (16 * ha + hb) else none
    | _, _ => none
  | _ => none

/-- The group loop of `net.ParseMAC` for the `:`/`-` formats: `n` two-digit groups
at offsets `x, x+3, …`. -/
def macGroups2 (s : List Char) (sep : Char) : Nat → Nat → Option (List Nat)
  | 0, _ => some []
  | n + 1, x =>
    match xtoi2 (s.drop x) sep with
    | none => none
    | some b =>
      match macGroups2 s sep n (x + 3) with
      | none => none
      | some bs => some (b :: bs)

/-- The group loop of `net.ParseMAC` for the `.` format: pairs of bytes at offsets
`x, x+5, …`; the first byte of a pair is read from exactly two characters, the
second is separator-checked. -/
def macGroups4 (s : List Char) : Nat → Nat → Option (List Nat)
  | 0, _ => some []
  | n + 1, x =>
    match xtoi2 ((s.drop x).take 2) '.', xtoi2 (s.drop (x + 2)) '.' with
    | some b1, some b2 =>
      match macGroups4 s n (x + 5) with
      | none => none
      | some bs => some (b1 :: b2 :: bs)
    | _, _ => none

/-- `net.ParseMAC`: strings shorter than 14 bytes fail; `xx:xx:…`/`xx-xx-…`
(6, 8 or 20 groups) and `xxxx.xxxx.…` (3, 4 or 10 four-digit groups) succeed. -/
def parseMAC (s : List Char) : Option (List Nat) :=
  if s.length < 14 then none
  else if s.getD 2 ' ' = ':' ∨ s.getD 2 ' ' = '-' then
    if (s.length + 1) % 3 ≠ 0 then none
    else
      let n := (s.length + 1) / 3
      if ¬ (n = 6 ∨ n = 8 ∨ n = 20) then none
      else macGroups2 s (s.getD 2 ' ') n 0
  else if s.getD 4 ' ' = '.' then
    if (s.length + 1) % 5 ≠ 0 then none
    else
      let n := 2 * (s.length + 1) / 5
      if ¬ (n = 6 ∨ n = 8 ∨ n = 20) then none
      else macGroups4 s (n / 2) 0
  else none

/-- `net.dtoi`: leading decimal digits of `s`, their count, and success; values
reaching `0xFFFFFF` or an empty digit run fail. -/
def dtoi : List Char → Nat → Nat → Nat × Nat × Bool
  | [], n, i => if i = 0 then (0, 0, false) else (n, i, true)
  | c :: rest, n, i =>
    if '0' ≤ c ∧ c ≤ '9' then
      let n' := n * 10 + (c.toNat - '0'.toNat)
      if n' ≥ 0xFFFFFF then (0xFFFFFF, i + 1, false)
      else dtoi rest n' (i + 1)
    else if i = 0 then (0, 0, false)
    else (n, i, true)

/-- One byte of `net.CIDRMask`. -/
def maskByte (ones : Nat) : Nat := (2 ^ min ones 8 - 1) * 2 ^ (8 - min ones 8)

/-- `net.CIDRMask(ones, 8*w)` as bytes (callers guarantee `ones ≤ 8*w`). -/
def cidrMaskBytes (ones : Nat) : Nat → List Nat
  | 0 => []
  | w + 1 => maskByte ones :: cidrMaskBytes (ones - 8) w

/-- `net.ParseCIDR` (Go ≥ 1.18): split at the first `/`; parse the address with
`netip.ParseAddr` (no zone allowed); the mask is all-decimal via `dtoi`, consuming
the whole suffix, at most `BitLen` (32 for `Is4`, else 128); the returned
`IPNet` has the masked address (4 bytes for `Is4`, else 16) and the mask.  The
unmasked first return value is unused by the modelled callers and omitted. -/
def goParseCIDR (s : String) : Option (List Nat × List Nat) :=
  match s.data.findIdx? (fun c => c = '/') with
  | none => none
  | some i =>
    let addr := String.mk (s.data.take i)
    let maskStr := s.data.drop (i + 1)
    match netipParseAddr addr with
    | none => none
    | some (as16, is4, zone) =>
      if zone ≠ "" then none
      else
        let bitLen := if is4 then 32 else 128
        match dtoi maskStr 0 0 with
        | (n, used, ok) =>
          if ¬ ok ∨ used ≠ maskStr.length ∨ bitLen < n then none
          else
            let ip := if is4 then as16.drop 12 else as16
            let m := cidrMaskBytes n (bitLen / 8)
            some (List.zipWith (fun a b => a &&& b) ip m, m)

/-- The leading-ones count of a byte (`v & 0x80 != 0; v <<= 1` in
`net.simpleMaskLength`). -/
def byteLeadingOnes : Nat → Nat → Nat
  | _, 0 => 0
  | v, fuel + 1 =>
    if v &&& 0x80 ≠ 0 then 1 + byteLeadingOnes ((v <<< 1) &&& 0xFF) fuel else 0

/-- Whether a byte's set bits are exactly its `byteLeadingOnes` leading bits. -/
def byteContiguous (v : Nat) : Bool :=
  decide (v = maskByte (byteLeadingOnes v 8))

/-- `net.simpleMaskLength`: count `0xff` bytes, then the leading ones of the first
other byte, whose remaining bits and all following bytes must be zero. -/
def simpleMaskLength : List Nat → Option Nat
  | [] => some 0
  | v :: rest =>
    if v = 0xFF then
      match simpleMaskLength rest with
      | none => none
      | some n => some (8 + n)
    else if byteContiguous v ∧ rest.all (fun b => b = 0) then
      some (byteLeadingOnes v 8)
    else none

/-- `net.IPMask.Size` as used by `ParseValueToBytes` (`ones, _ := …`): the ones
count, or 0 for a non-contiguous mask. -/
def maskSize (mask : List Nat) : Nat :=
  (simpleMaskLength mask).getD 0

/-- `binary.LittleEndian.PutUint32`. -/
def u32le (n : Nat) : List Nat :=
  [n &&& 0xFF, (n >>> 8) &&& 0xFF, (n >>> 16) &&& 0xFF, (n >>> 24) &&& 0xFF]

/-- Whitespace as trimmed by `strings.TrimSpace` (the ASCII part of Unicode
`White_Space`; the indicator and rule strings in scope are ASCII). -/
def isSpaceGo (c : Char) : Bool :=
  c = ' ' ∨ c = '\t' ∨ c = '\n' ∨ c = (Char.ofNat 11) ∨ c = (Char.ofNat 12) ∨ c = '\r'

/-- `strings.TrimSpace`. -/
def trimSpace (s : String) : String :=
  String.mk (((s.data.dropWhile isSpaceGo).reverse.dropWhile isSpaceGo).reverse)

/-! ## `internal/utils/utils.go` -/

/-- `utils.IPType` (`IPTypeUnknown = 0 … IPTypeMAC = 5`). -/
inductive IPType where
  | unknown
  | ipv4
  | ipv4CIDR
  | ipv6
  | ipv6CIDR
  | mac
deriving Repr, DecidableEq

/-- `utils.ParseValueToBytes`: trim, then try CIDR, plain IP, MAC in that order.
All branch conditions are transcribed as written — including the length guards
`len(ip) == net.IPv4len` / `net.IPv6len` on the `net.ParseIP` result, which is
always 16 bytes in Go ≥ 1.18. -/
def ParseValueToBytes (value : String) : Except String (List Nat × IPType) :=
  let value := trimSpace value
  match goParseCIDR value with
  | none =>
    match goParseIP value with
    | none =>
      match parseMAC value.data with
      | none => .error ("invalid value: " ++ value)
      | some macAddr => .ok (macAddr, .mac)
    | some ip =>
      if (ipTo4 ip).isSome ∧ ip.length = 4 then .ok ((ipTo4 ip).getD [], .ipv4)
      else if (ipTo16 ip).isSome ∧ ip.length = 16 then .ok ((ipTo16 ip).getD [], .ipv6)
      else .error ("invalid value: " ++ value)
  | some (ipNetIP, ipNetMask) =>
    let ones := maskSize ipNetMask
    if (ipTo4 ipNetIP).isSome ∧ ipNetIP.length = 4 then
      .ok (u32le ones ++ (ipTo4 ipNetIP).getD [], .ipv4CIDR)
    else if (ipTo16 ipNetIP).isSome ∧ ipNetIP.length = 16 then
      .ok (u32le ones ++ (ipTo16 ipNetIP).getD [], .ipv6CIDR)
    else .error ("invalid value: " ++ value)

/-- `utils.ParseStringToIPType`: trim, then CIDR / IP / MAC classification — the
plain-IP branch tests only `ip.To4() != nil`, so a dotted-quad string is
`IPTypeIPv4` here even though `ParseValueToBytes` labels it `IPTypeIPv6`. -/
def ParseStringToIPType (value : String) : IPType :=
  let value := trimSpace value
  match goParseCIDR value with
  | none =>
    match goParseIP value with
    | none =>
      match parseMAC value.data with
      | none => .unknown
      | some _ => .mac
    | some ip => if (ipTo4 ip).isSome then .ipv4 else .ipv6
  | some (ipNetIP, _) =>
    if (ipTo4 ipNetIP).isSome then .ipv4CIDR
    else if (ipTo16 ipNetIP).isSome then .ipv6CIDR
    else .unknown

/-! ## Threat-intel aggregator (`internal/threatintel/aggregator.go`)

The aggregator's state is the provider map (`feeds`), the metadata `sync.Map`, the
cron entry table (`entryIDs`) and the cache files under `<data>/threatintel/`.
The cron library and the providers are external: cron validity
(`cron.ParseStandard`) and fetch results (`provider.Fetch`, already split into
lines) enter as oracles.  `aggregateIndicators` rebuilds the trie from the cache
files; the claims below concern the metadata lifecycle, for which the cache-file
map is the relevant part of its input. -/

/-- One character of `strings.ToLower` (the feed names in scope are ASCII). -/
def charToLowerGo (c : Char) : Char :=
  if 'A' ≤ c ∧ c ≤ 'Z' then Char.ofNat (c.toNat + 32) else c

/-- `strings.ToLower`. -/
def toLowerGo (s : String) : String :=
  String.mk (s.data.map charToLowerGo)

/-- The indicator filter inside `Aggregator.syncFeed`: keep the lines whose
`utils.ParseStringToIPType` is not `IPTypeUnknown`. -/
def syncFeedFilter (ips : List String) : List String :=
  ips.filter (fun ip => ParseStringToIPType ip ≠ IPType.unknown)

/-- `threatintel.FeedMetadata`. -/
structure FeedMetadata where
  name : String
  description : String
  schedule : String
  enabled : Bool
  params : List (String × String)
deriving Repr, DecidableEq

/-- The aggregator state: registered provider names (lowercased), the metadata
map, the scheduled feed names, and the per-feed cache files (name ↦ lines). -/
structure AggState where
  feeds : List String
  metadata : List (String × FeedMetadata)
  entryIDs : List String
  cacheFiles : List (String × List String)
deriving Repr, DecidableEq

def AggState.loadMeta (st : AggState) (name : String) : Option FeedMetadata :=
  (st.metadata.find? (fun kv => kv.1 = name)).map (fun kv => kv.2)

def AggState.storeMeta (st : AggState) (name : String) (m : FeedMetadata) : AggState :=
  { st with metadata :=
      if (st.metadata.find? (fun kv => kv.1 = name)).isSome then
        st.metadata.map (fun kv => if kv.1 = name then (name, m) else kv)
      else st.metadata ++ [(name, m)] }

def AggState.deleteMeta (st : AggState) (name : String) : AggState :=
  { st with metadata := st.metadata.filter (fun kv => kv.1 ≠ name) }

def AggState.removeEntry (st : AggState) (name : String) : AggState :=
  { st with entryIDs := st.entryIDs.filter (fun n => n ≠ name) }

def AggState.writeCache (st : AggState) (name : String) (lines : List String) :
    AggState :=
  { st with cacheFiles :=
      if (st.cacheFiles.find? (fun kv => kv.1 = name)).isSome then
        st.cacheFiles.map (fun kv => if kv.1 = name then (name, lines) else kv)
      else st.cacheFiles ++ [(name, lines)] }

def AggState.removeCache (st : AggState) (name : String) : AggState :=
  { st with cacheFiles := st.cacheFiles.filter (fun kv => kv.1 ≠ name) }

/-- `Aggregator.syncFeed`: no-op unless the feed is registered and its metadata is
present and enabled; a failed fetch, an empty fetch, or an all-invalid fetch
leaves the cache file untouched; otherwise the filtered indicators are written to
`<name>.txt` and `aggregateIndicators` runs (rebuilding the trie from
`cacheFiles`). -/
def syncFeed (fetch : String → Option (List String)) (name : String)
    (st : AggState) : AggState :=
  if ¬ st.feeds.contains name then st
  else
    match st.loadMeta name with
    | none => st
    | some info =>
      if ¬ info.enabled then st
      else
        match fetch name with
        | none => st
        | some ips =>
          if ips = [] then st
          else
            let valid := syncFeedFilter ips
            if valid = [] then st
            else st.writeCache name valid

/-- `Aggregator.schedule`: remove any old cron entry, add the new one
(`cron.AddFunc` fails exactly when the expression is invalid — and the old entry
stays removed), then run an immediate `syncFeed`. -/
def schedule (cronValid : String → Bool) (fetch : String → Option (List String))
    (name sched : String) (st : AggState) : AggState × Option String :=
  let st := st.removeEntry name
  if ¬ cronValid sched then (st, some "failed to schedule task")
  else (syncFeed fetch name { st with entryIDs := st.entryIDs ++ [name] }, none)

/-- `Aggregator.disableFeed`: unschedule; when the metadata entry exists, delete
the cache file and **delete the metadata entry**; re-aggregate. -/
def disableFeed (name : String) (st : AggState) : AggState :=
  let st := st.removeEntry name
  if (st.loadMeta name).isSome then (st.removeCache name).deleteMeta name
  else st

/-- `Aggregator.UpdateFeedMetadata`: lower-case the name; unknown feeds and
invalid non-empty schedules fail; **missing stored metadata fails with
`"feed metadata not found"`**; otherwise store the new metadata and dispatch on the
enable transition (off→on: schedule — restoring the old metadata if scheduling
fails; on→off: `disableFeed`; on→on: reschedule on a schedule change, else sync on
a params change).  `params` equality models `maps.Equal`. -/
def UpdateFeedMetadata (cronValid : String → Bool)
    (fetch : String → Option (List String)) (name0 : String)
    (metadata : FeedMetadata) (st : AggState) : AggState × Option String :=
  let name := toLowerGo name0
  if ¬ st.feeds.contains name then (st, some ("feed not found: " ++ name))
  else if metadata.schedule ≠ "" ∧ ¬ cronValid metadata.schedule then
    (st, some "invalid schedule expression")
  else
    match st.loadMeta name with
    | none => (st, some ("feed metadata not found: " ++ name))
    | some current =>
      let oldEnabled := current.enabled
      let st := st.storeMeta name metadata
      if ¬ oldEnabled ∧ metadata.enabled then
        match schedule cronValid fetch name metadata.schedule st with
        | (st', some e) => (st'.storeMeta name current, some e)
        | (st', none) => (st', none)
      else if oldEnabled ∧ ¬ metadata.enabled then (disableFeed name st, none)
      else if metadata.enabled then
        if current.schedule ≠ metadata.schedule then
          match schedule cronValid fetch name metadata.schedule st with
          | (st', some e) => (st'.storeMeta name current, some e)
          | (st', none) => (st', none)
        else if current.params ≠ metadata.params then (syncFeed fetch name st, none)
        else (st, none)
      else (st, none)

/-! ## Specification-level view of the trie

`wval` flattens a word list to the number it denotes; canonicality captures
exactly the networks produced by `parseIPAddrToIPNet` for ordinary addresses and
CIDRs of either family (base address masked, netmask = `CIDRMask(prefixLen)`),
and `WFNode` the structural invariants of trie nodes (each child extends its
parent's prefix and sits in the slot selected by its first bit after it). -/

/-- The number denoted by a big-endian list of 32-bit words. -/
def wval : IPAddress → Nat
  | [] => 0
  | w :: rest => w * 2 ^ (32 * rest.length) + wval rest

/-- A well-formed word list of length `W` (all words are `uint32` values). -/
def wfAddr (W : Nat) (a : IPAddress) : Prop :=
  a.length = W ∧ ∀ w ∈ a, w < 2 ^ 32

/-- A canonical network over `W` words: well-formed base address with the bits
beyond the prefix zero, prefix length within range, netmask = `CIDRMask`. -/
def IsCanonical (W : Nat) (n : IPNetwork) : Prop :=
  wfAddr W n.addr ∧ n.prefixLen ≤ 32 * W ∧ n.netmask = cidrMask n.prefixLen W ∧
    wval n.addr % 2 ^ (32 * W - n.prefixLen) = 0

/-- The parent/child relation of a well-formed trie: the child's network strictly
extends the parent's prefix, agrees with it, and its first bit after the parent's
prefix selects the slot `i`. -/
def childOk (W : Nat) (net : IPNetwork) (i : Nat) (c : PrefixNode) : Prop :=
  net.prefixLen < c.network.prefixLen ∧
  wval c.network.addr >>> (32 * W - net.prefixLen) =
    wval net.addr >>> (32 * W - net.prefixLen) ∧
  (wval c.network.addr).testBit (32 * W - net.prefixLen - 1) = decide (i = 1)

/-- Structural well-formedness of a trie node over `W` words (`W` is 1 or 4 in
every reachable trie). -/
inductive WFNode (W : Nat) : PrefixNode → Prop where
  | mk {c0 c1 : Option PrefixNode} {skip : Nat} {net : IPNetwork} {leaf : Bool} :
      IsCanonical W net →
      skip = net.prefixLen →
      (∀ c, c0 = some c → childOk W net 0 c) →
      (∀ c, c1 = some c → childOk W net 1 c) →
      (∀ c, c0 = some c → WFNode W c) →
      (∀ c, c1 = some c → WFNode W c) →
      WFNode W (.mk c0 c1 skip net leaf)

/-- The networks of the leaves of a subtree (the positive matches of
`containsAddress`). -/
def leafNets : PrefixNode → List IPNetwork
  | .mk c0 c1 _ net leaf =>
    (if leaf then [net] else []) ++
    (match c0 with | some c => leafNets c | none => []) ++
    (match c1 with | some c => leafNets c | none => [])

/-- A well-formed family root: well-formed with prefix length 0. -/
def WFRoot (W : Nat) (p : PrefixNode) : Prop :=
  WFNode W p ∧ p.skipBits = 0

def WFTrie (t : IPTrie) : Prop :=
  WFRoot 1 t.ipv4Root ∧ WFRoot 4 t.ipv6Root

/-- A network as produced by `parseIPAddrToIPNet` from a well-formed IPv4/IPv6
address or CIDR: one or four words and canonical. -/
def goodNet (n : IPNetwork) : Prop :=
  (n.addr.length = 1 ∨ n.addr.length = 4) ∧ IsCanonical n.addr.length n

/-- Tries reachable from `NewIPTrie` by `Insert` and `Remove` of well-formed
addresses and CIDRs. -/
inductive ReachableTrie : IPTrie → Prop where
  | init : ReachableTrie IPTrie.new
  | insert {t n} : ReachableTrie t → goodNet n → ReachableTrie (t.insertNet n)
  | remove {t n} : ReachableTrie t → goodNet n → ReachableTrie (t.removeNet n)

/-- A sequence of `Insert` calls. -/
def IPTrie.insertAll (t : IPTrie) (nets : List IPNetwork) : IPTrie :=
  nets.foldl IPTrie.insertNet t

/-- Membership of `x` in the network `n` (`x` shares the `prefixLen`-bit prefix of
the base address), stated on flattened values. -/
def specContains (W : Nat) (n : IPNetwork) (x : Nat) : Prop :=
  x >>> (32 * W - n.prefixLen) = wval n.addr >>> (32 * W - n.prefixLen)

/-! ## Claim theorems -/

/-- C1 (code bug, evaluation at the failing input): `ParseValueToBytes` does not
return the 4 address bytes with type IPv4 for a plain IPv4 address.  In Go ≥ 1.17
`net.ParseIP` always returns the 16-byte form, so the guard
`len(ip) == net.IPv4len` is never true and `"1.2.3.4"` comes back as the 16-byte
IPv4-in-IPv6 bytes with type `IPTypeIPv6` — `EBPFManager.updateMap` then writes it
to the `ipv6_list` kernel map, where IPv4 traffic can never match it.  The sibling
`ParseStringToIPType` classifies the same string as `IPTypeIPv4`, showing the
intended classification.  The other classes behave as the claim states, also shown
here at representative inputs. -/
theorem parseValueToBytes_ipv4_misclassified :
    ParseValueToBytes "1.2.3.4" =
      .ok ([0, 0, 0, 0, 0, 0, 0, 0, 0, 0, 0xFF, 0xFF, 1, 2, 3, 4], IPType.ipv6) ∧
    ParseStringToIPType "1.2.3.4" = IPType.ipv4 ∧
    ParseValueToBytes "10.0.0.0/8" = .ok ([8, 0, 0, 0, 10, 0, 0, 0], IPType.ipv4CIDR) ∧
    ParseValueToBytes "2001:db8::1" =
      .ok ([0x20, 0x01, 0x0D, 0xB8, 0, 0, 0, 0, 0, 0, 0, 0, 0, 0, 0, 1], IPType.ipv6) ∧
    ParseValueToBytes "2001:db8::/32" =
      .ok ([32, 0, 0, 0, 0x20, 0x01, 0x0D, 0xB8, 0, 0, 0, 0, 0, 0, 0, 0, 0, 0, 0, 0],
        IPType.ipv6CIDR) ∧
    ParseValueToBytes "aa:bb:cc:dd:ee:ff" =
      .ok ([0xAA, 0xBB, 0xCC, 0xDD, 0xEE, 0xFF], IPType.mac) ∧
    ParseValueToBytes "not-an-address" = .error "invalid value: not-an-address" := by
  exact ⟨rfl, rfl, rfl, rfl, rfl, rfl, rfl⟩

/-- C2 (code bug, evaluation at the failing input): `DeleteBlockRule` of a
present, effective (enabled, non-expiring) rule succeeds and removes the rule from
the list, but its `updateConfig` closure contains no kernel call at all — the
kernel-operation trace is empty, so no kernel map delete is issued and the rule's
value stays blocked in the kernel.  For an absent id it returns the not-found error
and leaves the list unchanged, as the claim states. -/
theorem deleteBlockRule_issues_no_kernel_delete :
    deleteBlockRule
      ⟨[{ id := "r1", value := "5.5.5.5", note := "", source := 1,
          createTime := 100, enabled := true, expireTime := 0 }]⟩ "r1" =
      (none, ⟨[]⟩, []) ∧
    deleteBlockRule
      ⟨[{ id := "r1", value := "5.5.5.5", note := "", source := 1,
          createTime := 100, enabled := true, expireTime := 0 }]⟩ "r2" =
      (some "rule not found: r2",
        ⟨[{ id := "r1", value := "5.5.5.5", note := "", source := 1,
            createTime := 100, enabled := true, expireTime := 0 }]⟩, []) := by
  exact ⟨rfl, rfl⟩

/-- C3 (counterexample): in Threshold mode a first match from a fresh source with
`match_threshold = 3` installs **no** rule at all — `handleThreatIntelMatch`
returns from the below-threshold branch before reaching `AddBlockRule` — whereas
the claim says a rule with `enabled=false` is installed on every match. -/
theorem threshold_below_installs_no_rule :
    (handleThreatIntelMatch
      { matchMode := .threshold, matchThreshold := 3, matchWindow := 3600,
        blockDuration := 0 } none "5.5.5.5" 1000).2 = none := by
  exact rfl

/-- C5 (code bug, evaluation at the failing input): after
`Insert("10.0.0.1"); Insert("10.0.0.2"); Remove("10.0.0.1")` the trie contains a
non-root, non-leaf node with exactly one child.  The removed leaf has no children,
so `compressPath` takes the detach branch, which returns without compressing the
parent — the shared `/30` path node keeps the lone `10.0.0.2` leaf as its only
child.  (Before the remove the trie has no such node, and lookups still work
afterwards.) -/
theorem iptrie_compress_violation_after_remove :
    hasCompressViolation
      (((IPTrie.new.insertNet
          { addr := [0x0A000001], netmask := [0xFFFFFFFF], prefixLen := 32 }).insertNet
          { addr := [0x0A000002], netmask := [0xFFFFFFFF], prefixLen := 32 }).ipv4Root)
      true = false ∧
    hasCompressViolation
      ((((IPTrie.new.insertNet
          { addr := [0x0A000001], netmask := [0xFFFFFFFF], prefixLen := 32 }).insertNet
          { addr := [0x0A000002], netmask := [0xFFFFFFFF], prefixLen := 32 }).removeNet
          { addr := [0x0A000001], netmask := [0xFFFFFFFF], prefixLen := 32 }).ipv4Root)
      true = true ∧
    (((IPTrie.new.insertNet
        { addr := [0x0A000001], netmask := [0xFFFFFFFF], prefixLen := 32 }).insertNet
        { addr := [0x0A000002], netmask := [0xFFFFFFFF], prefixLen := 32 }).removeNet
        { addr := [0x0A000001], netmask := [0xFFFFFFFF], prefixLen := 32 }).containsAddr
      [0x0A000002] = true := by
  exact ⟨rfl, rfl, rfl⟩

/-- C6 (code bug, evaluation at the failing input): removing the absent network
`10.0.0.1/32` from the empty trie returns no error and leaves both family roots
unchanged, but `prefixNode.Remove` decrements `nodeCount` unconditionally after
the silent no-op walk, so `Size()` drops to `-1` instead of staying `0` — the
claimed size accounting (and the spec's `Size() = number of leaves`) fails on
every successful `Remove` call whose network is not a leaf. -/
theorem iptrie_remove_absent_decrements_size :
    (IPTrie.new.removeNetRes
      { addr := [0x0A000001], netmask := [0xFFFFFFFF], prefixLen := 32 }).2 = none ∧
    (IPTrie.new.removeNet
      { addr := [0x0A000001], netmask := [0xFFFFFFFF], prefixLen := 32 }).ipv4Root =
      IPTrie.new.ipv4Root ∧
    (IPTrie.new.removeNet
      { addr := [0x0A000001], netmask := [0xFFFFFFFF], prefixLen := 32 }).ipv6Root =
      IPTrie.new.ipv6Root ∧
    (IPTrie.new.removeNet
      { addr := [0x0A000001], netmask := [0xFFFFFFFF], prefixLen := 32 }).size = -1 := by
  exact ⟨rfl, rfl, rfl, rfl⟩

/-- C7 (counterexample): a MAC-address line survives the `syncFeed` indicator
filter — `ParseStringToIPType` returns `IPTypeMAC ≠ IPTypeUnknown` for it — and is
written to the feed's cache file, whereas the claim says every line that is not an
IPv4/IPv6 address or CIDR (explicitly including MAC addresses) is excluded. -/
theorem syncFeedFilter_keeps_mac :
    syncFeedFilter ["aa:bb:cc:dd:ee:ff", "not an ip", "1.2.3.4"] =
      ["aa:bb:cc:dd:ee:ff", "1.2.3.4"] := by
  exact rfl

/-- C7 (amended): a line survives the `syncFeed` filter exactly when
`ParseStringToIPType` classifies it as IPv4, IPv4-CIDR, IPv6, IPv6-CIDR **or
MAC** — i.e. anything except `IPTypeUnknown`; lines of any other shape are
excluded from the written file. -/
theorem syncFeedFilter_spec (ips : List String) (s : String) :
    s ∈ syncFeedFilter ips ↔
      s ∈ ips ∧
        (ParseStringToIPType s = IPType.ipv4 ∨
         ParseStringToIPType s = IPType.ipv4CIDR ∨
         ParseStringToIPType s = IPType.ipv6 ∨
         ParseStringToIPType s = IPType.ipv6CIDR ∨
         ParseStringToIPType s = IPType.mac) := by
  unfold syncFeedFilter
  rw [List.mem_filter]
  constructor
  · rintro ⟨hs, hneq⟩
    refine ⟨hs, ?_⟩
    rcases h : ParseStringToIPType s <;> simp [h] at hneq ⊢
  · rintro ⟨hs, hty⟩
    refine ⟨hs, ?_⟩
    rcases hty with h | h | h | h | h <;> simp [h]

/-- C7 (witness for the amended theorem): the MAC line is in the filtered list of
a concrete feed. -/
theorem syncFeedFilter_spec_witness :
    "aa:bb:cc:dd:ee:ff" ∈ syncFeedFilter ["aa:bb:cc:dd:ee:ff"] ∧
    ¬ "nonsense" ∈ syncFeedFilter ["nonsense"] := by
  constructor
  · exact (syncFeedFilter_spec ["aa:bb:cc:dd:ee:ff"] "aa:bb:cc:dd:ee:ff").mpr
      ⟨by decide, by right; right; right; right; exact rfl⟩
  · intro h
    rcases (syncFeedFilter_spec ["nonsense"] "nonsense").mp h with ⟨-, hty⟩
    rcases hty with h' | h' | h' | h' | h' <;> exact absurd h' (by decide)

/-- C3 (amended): in Threshold mode the per-source window state is reset to
`(count=1, first_time=now)` when the window has elapsed (or the source is new) and
incremented otherwise; when the updated count reaches `match_threshold` an
**enabled** intel rule for the source is installed (with the configured
expiration), and below the threshold **no rule at all** is installed. -/
theorem handleThreatIntelMatch_threshold_spec (cfg : ThreatIntelCfg)
    (st0 : Option WindowState) (srcIP : String) (now : Int)
    (hmode : cfg.matchMode = .threshold) :
    ∃ st, (handleThreatIntelMatch cfg st0 srcIP now).1 = some st ∧
      (∀ w, st0 = some w → now - w.firstTime > cfg.matchWindow →
        st = { count := 1, firstTime := now }) ∧
      (∀ w, st0 = some w → ¬ now - w.firstTime > cfg.matchWindow →
        st = { count := w.count + 1, firstTime := w.firstTime }) ∧
      (st0 = none → st = { count := 1, firstTime := now }) ∧
      (st.count ≥ cfg.matchThreshold →
        (handleThreatIntelMatch cfg st0 srcIP now).2 = some
          { id := ""
            value := srcIP
            note := "Matched threat intelligence"
            source := BlockSourceTypeIntel
            createTime := now
            enabled := true
            expireTime := if cfg.blockDuration > 0 then now + cfg.blockDuration else 0 }) ∧
      (st.count < cfg.matchThreshold →
        (handleThreatIntelMatch cfg st0 srcIP now).2 = none) := by
  rcases st0 with - | w
  · refine ⟨{ count := 1, firstTime := now }, ?_, ?_, ?_, ?_, ?_, ?_⟩
    · by_cases hth : (1 : Int) ≥ cfg.matchThreshold <;>
        simp [handleThreatIntelMatch, hmode, hth]
    · intro w hw; exact absurd hw (by simp)
    · intro w hw; exact absurd hw (by simp)
    · intro _; rfl
    · intro hge
      simp only at hge
      by_cases hth : (1 : Int) ≥ cfg.matchThreshold
      · simp [handleThreatIntelMatch, hmode, hth]
      · exact absurd hge hth
    · intro hlt
      simp only at hlt
      by_cases hth : (1 : Int) ≥ cfg.matchThreshold
      · omega
      · simp [handleThreatIntelMatch, hmode, hth]
  · by_cases hw : now - w.firstTime > cfg.matchWindow
    · refine ⟨{ count := 1, firstTime := now }, ?_, ?_, ?_, ?_, ?_, ?_⟩
      · by_cases hth : (1 : Int) ≥ cfg.matchThreshold <;>
          simp [handleThreatIntelMatch, hmode, hth, hw]
      · intro w' hw'; cases hw'; intro _; rfl
      · intro w' hw' hnw; cases hw'; exact absurd hw hnw
      · intro h; exact absurd h (by simp)
      · intro hge
        simp only at hge
        by_cases hth : (1 : Int) ≥ cfg.matchThreshold
        · simp [handleThreatIntelMatch, hmode, hth, hw]
        · exact absurd hge hth
      · intro hlt
        simp only at hlt
        by_cases hth : (1 : Int) ≥ cfg.matchThreshold
        · omega
        · simp [handleThreatIntelMatch, hmode, hth, hw]
    · refine ⟨{ count := w.count + 1, firstTime := w.firstTime }, ?_, ?_, ?_, ?_, ?_, ?_⟩
      · by_cases hth : w.count + 1 ≥ cfg.matchThreshold <;>
          simp [handleThreatIntelMatch, hmode, hth, hw]
      · intro w' hw' hww; cases hw'; exact absurd hww hw
      · intro w' hw' _; cases hw'; rfl
      · intro h; exact absurd h (by simp)
      · intro hge
        simp only at hge
        by_cases hth : w.count + 1 ≥ cfg.matchThreshold
        · simp [handleThreatIntelMatch, hmode, hth, hw]
        · exact absurd hge hth
      · intro hlt
        simp only at hlt
        by_cases hth : w.count + 1 ≥ cfg.matchThreshold
        · omega
        · simp [handleThreatIntelMatch, hmode, hth, hw]

/-- C3 (witness): with `match_threshold = 1` and a fresh source, the match resets
the window state and installs an enabled rule. -/
theorem handleThreatIntelMatch_threshold_spec_witness :
    ∃ st,
      (handleThreatIntelMatch
          { matchMode := .threshold, matchThreshold := 1, matchWindow := 3600,
            blockDuration := 60 } none "5.5.5.5" 1000).1 = some st ∧
      (∀ w, (none : Option WindowState) = some w → 1000 - w.firstTime > 3600 →
        st = { count := 1, firstTime := 1000 }) ∧
      (∀ w, (none : Option WindowState) = some w → ¬ 1000 - w.firstTime > 3600 →
        st = { count := w.count + 1, firstTime := w.firstTime }) ∧
      ((none : Option WindowState) = none → st = { count := 1, firstTime := 1000 }) ∧
      (st.count ≥ 1 →
        (handleThreatIntelMatch
          { matchMode := .threshold, matchThreshold := 1, matchWindow := 3600,
            blockDuration := 60 } none "5.5.5.5" 1000).2 = some
          { id := ""
            value := "5.5.5.5"
            note := "Matched threat intelligence"
            source := BlockSourceTypeIntel
            createTime := 1000
            enabled := true
            expireTime := if (60 : Int) > 0 then 1000 + 60 else 0 }) ∧
      (st.count < 1 →
        (handleThreatIntelMatch
          { matchMode := .threshold, matchThreshold := 1, matchWindow := 3600,
            blockDuration := 60 } none "5.5.5.5" 1000).2 = none) :=
  handleThreatIntelMatch_threshold_spec
    { matchMode := .threshold, matchThreshold := 1, matchWindow := 3600,
      blockDuration := 60 } none "5.5.5.5" 1000 rfl

/-- C8 (code bug, evaluation at the failing input): disabling an enabled feed
succeeds, but `disableFeed` also deletes the feed's metadata entry; a later
`UpdateFeedMetadata` that re-enables the same feed then fails with
`"feed metadata not found"` instead of scheduling and syncing it — the transition
system is not closed under its own transitions. -/
theorem feed_reenable_fails_after_disable :
    (UpdateFeedMetadata (fun _ => true) (fun _ => none) "spamhaus"
      { name := "spamhaus", description := "d", schedule := "30 2 * * *",
        enabled := false, params := [] }
      { feeds := ["spamhaus"]
        metadata := [("spamhaus",
          { name := "spamhaus", description := "d", schedule := "30 2 * * *",
            enabled := true, params := [] })]
        entryIDs := ["spamhaus"]
        cacheFiles := [("spamhaus", ["1.2.3.4"])] }).2 = none ∧
    ((UpdateFeedMetadata (fun _ => true) (fun _ => none) "spamhaus"
      { name := "spamhaus", description := "d", schedule := "30 2 * * *",
        enabled := false, params := [] }
      { feeds := ["spamhaus"]
        metadata := [("spamhaus",
          { name := "spamhaus", description := "d", schedule := "30 2 * * *",
            enabled := true, params := [] })]
        entryIDs := ["spamhaus"]
        cacheFiles := [("spamhaus", ["1.2.3.4"])] }).1).loadMeta "spamhaus" = none ∧
    (UpdateFeedMetadata (fun _ => true) (fun _ => none) "spamhaus"
      { name := "spamhaus", description := "d", schedule := "30 2 * * *",
        enabled := true, params := [] }
      ((UpdateFeedMetadata (fun _ => true) (fun _ => none) "spamhaus"
        { name := "spamhaus", description := "d", schedule := "30 2 * * *",
          enabled := false, params := [] }
        { feeds := ["spamhaus"]
          metadata := [("spamhaus",
            { name := "spamhaus", description := "d", schedule := "30 2 * * *",
              enabled := true, params := [] })]
          entryIDs := ["spamhaus"]
          cacheFiles := [("spamhaus", ["1.2.3.4"])] }).1)).2 =
      some "feed metadata not found: spamhaus" := by
  exact ⟨rfl, rfl, rfl⟩

/-- C10 (counterexample): enabling a stored rule through `UpdateBlockRule` while
the kernel add fails returns the error **and** the stored rule list has already
been mutated — the copied `ProcessorConfig` shares the `Rules` backing array, and
the element write `Rules[i] = rule` happens before the failing kernel call — so
rule-list mutation is not atomic on error as claimed. -/
theorem updateBlockRule_error_mutates_stored_rules :
    updateBlockRule
      ⟨[{ id := "r1", value := "5.5.5.5", note := "", source := 1,
          createTime := 100, enabled := false, expireTime := 0 }]⟩
      200 (fun _ => true) (fun _ => false) "r1"
      { id := "r1", value := "5.5.5.5", note := "", source := 1,
        createTime := 100, enabled := true, expireTime := 0 } =
      (some "failed to update block rule to kernel",
        ⟨[{ id := "r1", value := "5.5.5.5", note := "", source := 1,
            createTime := 100, enabled := true, expireTime := 0 }]⟩, []) ∧
    ({ id := "r1", value := "5.5.5.5", note := "", source := 1,
       createTime := 100, enabled := true, expireTime := 0 } : BlockRule) ≠
      { id := "r1", value := "5.5.5.5", note := "", source := 1,
        createTime := 100, enabled := false, expireTime := 0 } := by
  exact ⟨rfl, by decide⟩

/-- C10 (amended): `updateConfig` publishes the copied configuration only when the
closure returns nil, and the closures of `AddBlockRule` and `DeleteBlockRule`
touch the rule list only after the point of last possible failure — so for those
two operations an error leaves the stored configuration exactly as before, with no
kernel operation recorded; `UpdateBlockRule`, however, writes the replacement rule
into the shared backing array before its kernel call (see the counterexample). -/
theorem updateConfig_error_atomicity :
    (∀ cfg now addFails rule newId e,
      (addBlockRule cfg now addFails rule newId).1 = some e →
        (addBlockRule cfg now addFails rule newId).2 = (cfg, [])) ∧
    (∀ cfg id e,
      (deleteBlockRule cfg id).1 = some e →
        (deleteBlockRule cfg id).2 = (cfg, [])) := by
  constructor
  · intro cfg now addFails rule newId e h
    unfold addBlockRule at h ⊢
    rcases hk : updateBlockRuleToKernel now addFails { rule with id := newId } with e' | pr
    · simp [hk]
    · rw [hk] at h; exact absurd h (by simp)
  · intro cfg id e h
    unfold deleteBlockRule at h ⊢
    rcases hf : cfg.rules.findIdx? (fun r => r.id = id) with - | i
    · simp [hf]
    · rw [hf] at h; exact absurd h (by simp)

/-- C10 (witness for the amended theorem): a failing kernel add during
`AddBlockRule` leaves a concrete one-rule configuration untouched. -/
theorem updateConfig_error_atomicity_witness :
    (addBlockRule
      ⟨[{ id := "r1", value := "5.5.5.5", note := "", source := 1,
          createTime := 100, enabled := true, expireTime := 0 }]⟩
      200 (fun _ => true)
      { id := "", value := "6.6.6.6", note := "", source := 1,
        createTime := 200, enabled := true, expireTime := 0 } "r2").2 =
      (⟨[{ id := "r1", value := "5.5.5.5", note := "", source := 1,
           createTime := 100, enabled := true, expireTime := 0 }]⟩, []) :=
  updateConfig_error_atomicity.1
    ⟨[{ id := "r1", value := "5.5.5.5", note := "", source := 1,
        createTime := 100, enabled := true, expireTime := 0 }]⟩
    200 (fun _ => true)
    { id := "", value := "6.6.6.6", note := "", source := 1,
      createTime := 200, enabled := true, expireTime := 0 } "r2"
    "failed to update block rule to kernel" rfl

/-! ## Bridge lemmas: word lists vs. flattened values -/

theorem wval_lt {a : IPAddress} (h : ∀ w ∈ a, w < 2 ^ 32) :
    wval a < 2 ^ (32 * a.length) := by
  induction a with
  | nil => simp [wval]
  | cons w rest ih =>
    have hw : w < 2 ^ 32 := h w (by simp)
    have hr : wval rest < 2 ^ (32 * rest.length) := ih (fun x hx => h x (by simp [hx]))
    have : w * 2 ^ (32 * rest.length) + wval rest + 1 ≤ 2 ^ 32 * 2 ^ (32 * rest.length) := by
      calc w * 2 ^ (32 * rest.length) + wval rest + 1
          ≤ w * 2 ^ (32 * rest.length) + 2 ^ (32 * rest.length) := by omega
        _ = (w + 1) * 2 ^ (32 * rest.length) := by ring
        _ ≤ 2 ^ 32 * 2 ^ (32 * rest.length) := Nat.mul_le_mul_right _ (by omega)
    calc wval (w :: rest) = w * 2 ^ (32 * rest.length) + wval rest := rfl
      _ < 2 ^ 32 * 2 ^ (32 * rest.length) := by omega
      _ = 2 ^ (32 * (rest.length + 1)) := by rw [← pow_add]; ring_nf
      _ = 2 ^ (32 * (w :: rest).length) := by simp

theorem testBit_concat_low {w r k pos : Nat} (hpos : pos < k) :
    (w * 2 ^ k + r).testBit pos = r.testBit pos := by
  rw [Nat.testBit_to_div_mod, Nat.testBit_to_div_mod]
  have hk : w * 2 ^ k = w * 2 ^ (k - pos - 1) * 2 * 2 ^ pos := by
    rw [Nat.mul_assoc, Nat.mul_assoc, ← pow_succ']
    rw [← pow_add]
    congr 2
    omega
  rw [hk, Nat.add_comm, Nat.add_mul_div_right _ _ (Nat.pos_pow_of_pos pos (by omega)),
    Nat.add_mul_mod_self_right]

theorem testBit_concat_high {w r k pos : Nat} (hr : r < 2 ^ k) (hpos : k ≤ pos) :
    (w * 2 ^ k + r).testBit pos = w.testBit (pos - k) := by
  rw [Nat.testBit_to_div_mod, Nat.testBit_to_div_mod]
  have h1 : (w * 2 ^ k + r) / 2 ^ pos = w / 2 ^ (pos - k) := by
    have h2 : (2 : Nat) ^ pos = 2 ^ k * 2 ^ (pos - k) := by rw [← pow_add]; congr 1; omega
    have h3 : (w * 2 ^ k + r) / 2 ^ k = w := by
      rw [Nat.add_comm, Nat.mul_comm, Nat.add_mul_div_left _ _ (Nat.pos_pow_of_pos k (by omega)),
        Nat.div_eq_of_lt hr, Nat.zero_add]
    rw [h2, ← Nat.div_div_eq_div_mul, h3]
  rw [h1]

theorem wval_cons (w : Nat) (rest : IPAddress) :
    wval (w :: rest) = w * 2 ^ (32 * rest.length) + wval rest := rfl

theorem testBit_wval_cons_low {w : Nat} {rest : IPAddress} {pos : Nat}
    (hpos : pos < 32 * rest.length) :
    (wval (w :: rest)).testBit pos = (wval rest).testBit pos := by
  rw [wval_cons]; exact testBit_concat_low hpos

theorem testBit_wval_cons_high {w : Nat} {rest : IPAddress} {pos : Nat}
    (hrest : ∀ x ∈ rest, x < 2 ^ 32) (hpos : 32 * rest.length ≤ pos) :
    (wval (w :: rest)).testBit pos = w.testBit (pos - 32 * rest.length) := by
  rw [wval_cons]; exact testBit_concat_high (wval_lt hrest) hpos

theorem shiftRight_and_one (a k : Nat) :
    (a >>> k) &&& 1 = if a.testBit k then 1 else 0 := by
  rw [Nat.and_one_is_mod, Nat.shiftRight_eq_div_pow, Nat.testBit_to_div_mod]
  rcases Nat.mod_two_eq_zero_or_one (a / 2 ^ k) with h | h <;> simp [h]

theorem shift_and_one_ne_iff {a b k : Nat} :
    ((a >>> k) &&& 1 ≠ (b >>> k) &&& 1) ↔ a.testBit k ≠ b.testBit k := by
  rw [shiftRight_and_one, shiftRight_and_one]
  cases ha : a.testBit k <;> cases hb : b.testBit k <;> simp

/-- Bridge for `IPAddress.Bit`: in range it is the `testBit` of the flattened
value (as `1`/`0`). -/
theorem bit_eq_testBit {a : IPAddress} {pos : Nat} (hw : ∀ x ∈ a, x < 2 ^ 32)
    (hpos : pos < 32 * a.length) :
    IPAddress.bit a pos = some (if (wval a).testBit pos then 1 else 0) := by
  induction a with
  | nil => simp at hpos
  | cons w rest ih =>
    have hdiv : pos >>> 5 = pos / 32 := by
      rw [Nat.shiftRight_eq_div_pow]
    have hlen : (w :: rest).length = rest.length + 1 := rfl
    by_cases hlow : pos < 32 * rest.length
    · have hbit := ih (fun x hx => hw x (by simp [hx])) hlow
      rw [testBit_wval_cons_low hlow, ← hbit]
      unfold IPAddress.bit
      have hlt : pos / 32 < rest.length := Nat.div_lt_of_lt_mul (by omega)
      have hcond1 : ¬ (((w :: rest).length : Int) - 1 - ((pos >>> 5 : Nat) : Int) < 0 ∨
          ((w :: rest).length : Int) ≤ ((w :: rest).length : Int) - 1 - ((pos >>> 5 : Nat) : Int)) := by
        rw [hdiv, hlen]; omega
      have hcond2 : ¬ ((rest.length : Int) - 1 - ((pos >>> 5 : Nat) : Int) < 0 ∨
          (rest.length : Int) ≤ (rest.length : Int) - 1 - ((pos >>> 5 : Nat) : Int)) := by
        rw [hdiv]; omega
      rw [if_neg hcond1, if_neg hcond2]
      congr 1
      have hidx : (((w :: rest).length : Int) - 1 - ((pos >>> 5 : Nat) : Int)).toNat =
          ((rest.length : Int) - 1 - ((pos >>> 5 : Nat) : Int)).toNat + 1 := by
        rw [hdiv, hlen]; omega
      rw [hidx]
      simp
    · have hhigh : 32 * rest.length ≤ pos := by omega
      unfold IPAddress.bit
      have hdiveq : pos / 32 = rest.length := by
        rw [hlen] at hpos
        omega
      have hcond1 : ¬ (((w :: rest).length : Int) - 1 - ((pos >>> 5 : Nat) : Int) < 0 ∨
          ((w :: rest).length : Int) ≤ ((w :: rest).length : Int) - 1 - ((pos >>> 5 : Nat) : Int)) := by
        rw [hdiv, hdiveq, hlen]; omega
      rw [if_neg hcond1]
      have hidx : (((w :: rest).length : Int) - 1 - ((pos >>> 5 : Nat) : Int)).toNat = 0 := by
        rw [hdiv, hdiveq, hlen]; omega
      rw [hidx]
      have hand : pos &&& 31 = pos % 32 := by
        have := Nat.and_pow_two_sub_one_eq_mod pos 5
        norm_num at this
        exact this
      have hmod : pos % 32 = pos - 32 * rest.length := by omega
      rw [testBit_wval_cons_high (fun x hx => hw x (by simp [hx])) hhigh]
      rw [hand, hmod]
      rw [show (w :: rest).getD 0 0 = w from rfl, shiftRight_and_one]

/-- `IPAddress.Bit` fails beyond the address width. -/
theorem bit_none {a : IPAddress} {pos : Nat} (h : 32 * a.length ≤ pos) :
    IPAddress.bit a pos = none := by
  unfold IPAddress.bit
  have hdiv : pos >>> 5 = pos / 32 := by rw [Nat.shiftRight_eq_div_pow]
  have hle : a.length ≤ pos / 32 := by omega
  have hcond : ((a.length : Int) - 1 - ((pos >>> 5 : Nat) : Int) < 0 ∨
      (a.length : Int) ≤ (a.length : Int) - 1 - ((pos >>> 5 : Nat) : Int)) := by
    rw [hdiv]; omega
  rw [if_pos hcond]

theorem concat_and {wa wb ra rb k : Nat} (hra : ra < 2 ^ k) (hrb : rb < 2 ^ k) :
    (wa * 2 ^ k + ra) &&& (wb * 2 ^ k + rb) = (wa &&& wb) * 2 ^ k + (ra &&& rb) := by
  have hr : ra &&& rb < 2 ^ k := Nat.and_lt_two_pow _ hrb
  apply Nat.eq_of_testBit_eq
  intro i
  rw [Nat.testBit_and]
  by_cases hi : i < k
  · rw [testBit_concat_low hi, testBit_concat_low hi, testBit_concat_low hi,
      Nat.testBit_and]
  · have hk : k ≤ i := by omega
    rw [testBit_concat_high hra hk, testBit_concat_high hrb hk,
      testBit_concat_high hr hk, Nat.testBit_and]

theorem wval_zipWith_and {a b : IPAddress} (hlen : a.length = b.length)
    (ha : ∀ w ∈ a, w < 2 ^ 32) (hb : ∀ w ∈ b, w < 2 ^ 32) :
    wval (List.zipWith (fun x y => x &&& y) a b) = wval a &&& wval b := by
  induction a generalizing b with
  | nil => cases b <;> simp_all [wval]
  | cons wa resta ih =>
    cases b with
    | nil => simp at hlen
    | cons wb restb =>
      have hlen' : resta.length = restb.length := by simpa using hlen
      have h1 := ih hlen' (fun x hx => ha x (by simp [hx]))
        (fun x hx => hb x (by simp [hx]))
      have hra : wval resta < 2 ^ (32 * resta.length) :=
        wval_lt (fun x hx => ha x (by simp [hx]))
      have hrb : wval restb < 2 ^ (32 * resta.length) := by
        rw [hlen']; exact wval_lt (fun x hx => hb x (by simp [hx]))
      calc wval (List.zipWith (fun x y => x &&& y) (wa :: resta) (wb :: restb))
          = (wa &&& wb) * 2 ^ (32 * (List.zipWith (fun x y => x &&& y) resta restb).length)
            + wval (List.zipWith (fun x y => x &&& y) resta restb) := rfl
        _ = (wa &&& wb) * 2 ^ (32 * resta.length) + (wval resta &&& wval restb) := by
            rw [List.length_zipWith, hlen', Nat.min_self, ← hlen', h1]
        _ = (wa * 2 ^ (32 * resta.length) + wval resta) &&&
            (wb * 2 ^ (32 * resta.length) + wval restb) := (concat_and hra hrb).symm
        _ = wval (wa :: resta) &&& wval (wb :: restb) := by
            rw [wval_cons, wval_cons, hlen']

theorem wval_inj {a b : IPAddress} (hlen : a.length = b.length)
    (ha : ∀ w ∈ a, w < 2 ^ 32) (hb : ∀ w ∈ b, w < 2 ^ 32)
    (h : wval a = wval b) : a = b := by
  induction a generalizing b with
  | nil => cases b <;> simp_all
  | cons wa resta ih =>
    cases b with
    | nil => simp at hlen
    | cons wb restb =>
      have hlen' : resta.length = restb.length := by simpa using hlen
      have hra : wval resta < 2 ^ (32 * resta.length) :=
        wval_lt (fun x hx => ha x (by simp [hx]))
      have hrb : wval restb < 2 ^ (32 * resta.length) := by
        rw [hlen']; exact wval_lt (fun x hx => hb x (by simp [hx]))
      rw [wval_cons, wval_cons, ← hlen'] at h
      have hwords : wa = wb ∧ wval resta = wval restb := by
        constructor
        · by_contra hne
          rcases Nat.lt_or_ge wa wb with hlt | hge
          · have : wa * 2 ^ (32 * resta.length) + wval resta <
                wb * 2 ^ (32 * resta.length) + wval restb := by
              have : (wa + 1) * 2 ^ (32 * resta.length) ≤ wb * 2 ^ (32 * resta.length) :=
                Nat.mul_le_mul_right _ hlt
              have h2 : wa * 2 ^ (32 * resta.length) + 2 ^ (32 * resta.length) ≤
                  wb * 2 ^ (32 * resta.length) := by
                calc wa * 2 ^ (32 * resta.length) + 2 ^ (32 * resta.length)
                    = (wa + 1) * 2 ^ (32 * resta.length) := by ring
                  _ ≤ wb * 2 ^ (32 * resta.length) := this
              omega
            omega
          · have hlt : wb < wa := by omega
            have : wb * 2 ^ (32 * resta.length) + wval restb <
                wa * 2 ^ (32 * resta.length) + wval resta := by
              have h2 : wb * 2 ^ (32 * resta.length) + 2 ^ (32 * resta.length) ≤
                  wa * 2 ^ (32 * resta.length) := by
                calc wb * 2 ^ (32 * resta.length) + 2 ^ (32 * resta.length)
                    = (wb + 1) * 2 ^ (32 * resta.length) := by ring
                  _ ≤ wa * 2 ^ (32 * resta.length) := Nat.mul_le_mul_right _ hlt
              omega
            omega
        · have hww : wa = wb := by
            by_contra hne
            rcases Nat.lt_or_ge wa wb with hlt | hge
            · have h2 : wa * 2 ^ (32 * resta.length) + 2 ^ (32 * resta.length) ≤
                  wb * 2 ^ (32 * resta.length) := by
                calc wa * 2 ^ (32 * resta.length) + 2 ^ (32 * resta.length)
                    = (wa + 1) * 2 ^ (32 * resta.length) := by ring
                  _ ≤ wb * 2 ^ (32 * resta.length) := Nat.mul_le_mul_right _ hlt
              omega
            · have hlt : wb < wa := by omega
              have h2 : wb * 2 ^ (32 * resta.length) + 2 ^ (32 * resta.length) ≤
                  wa * 2 ^ (32 * resta.length) := by
                calc wb * 2 ^ (32 * resta.length) + 2 ^ (32 * resta.length)
                    = (wb + 1) * 2 ^ (32 * resta.length) := by ring
                  _ ≤ wa * 2 ^ (32 * resta.length) := Nat.mul_le_mul_right _ hlt
              omega
          subst hww
          omega
      rcases hwords with ⟨hw, hrest⟩
      subst hw
      rw [ih hlen' (fun x hx => ha x (by simp [hx])) (fun x hx => hb x (by simp [hx])) hrest]

theorem cidrMask_length (ones W : Nat) : (cidrMask ones W).length = W := by
  induction W generalizing ones with
  | zero => rfl
  | succ W ih => simp [cidrMask, ih]

theorem maskWord_lt (ones : Nat) : maskWord ones < 2 ^ 32 := by
  unfold maskWord
  have h1 : min ones 32 ≤ 32 := Nat.min_le_right _ _
  have h2 : (2 : Nat) ^ min ones 32 ≥ 1 := Nat.one_le_two_pow
  calc (2 ^ min ones 32 - 1) * 2 ^ (32 - min ones 32)
      < 2 ^ min ones 32 * 2 ^ (32 - min ones 32) :=
        (Nat.mul_lt_mul_right (Nat.pos_pow_of_pos _ (by omega))).mpr (by omega)
    _ = 2 ^ 32 := by rw [← pow_add]; congr 1; omega

theorem cidrMask_words_lt (ones W : Nat) : ∀ w ∈ cidrMask ones W, w < 2 ^ 32 := by
  induction W generalizing ones with
  | zero => simp [cidrMask]
  | succ W ih =>
    intro w hw
    rcases hw with h | h
    · exact maskWord_lt _
    · exact ih _ _ (by assumption)

theorem wval_cidrMask {ones W : Nat} (h : ones ≤ 32 * W) :
    wval (cidrMask ones W) = 2 ^ (32 * W) - 2 ^ (32 * W - ones) := by
  induction W generalizing ones with
  | zero =>
    have : ones = 0 := by omega
    simp [this, cidrMask, wval]
  | succ W ih =>
    rw [show cidrMask ones (W + 1) = maskWord ones :: cidrMask (ones - 32) W from rfl,
      wval_cons, cidrMask_length]
    by_cases h32 : ones ≤ 32
    · have hms : ones - 32 = 0 := by omega
      have hz : wval (cidrMask 0 W) = 0 := by
        have := @ih 0 (by omega)
        simpa using this
      rw [hms, hz]
      unfold maskWord
      have hmin : min ones 32 = ones := by omega
      rw [hmin]
      have e1 : (2 ^ ones - 1) * 2 ^ (32 - ones) * 2 ^ (32 * W) =
          2 ^ ones * 2 ^ (32 - ones) * 2 ^ (32 * W) - 2 ^ (32 - ones) * 2 ^ (32 * W) := by
        rw [Nat.sub_mul, Nat.one_mul, Nat.sub_mul]
      rw [e1, ← pow_add, ← pow_add, ← pow_add]
      have e2 : ones + (32 - ones) + 32 * W = 32 * (W + 1) := by omega
      have e3 : 32 - ones + 32 * W = 32 * (W + 1) - ones := by omega
      rw [e2, e3, Nat.add_zero]
    · have hms : ones - 32 ≤ 32 * W := by omega
      rw [ih hms]
      unfold maskWord
      have hmin : min ones 32 = 32 := by omega
      rw [hmin]
      have e0 : (2 : Nat) ^ (32 - 32) = 1 := by norm_num
      rw [Nat.sub_self, pow_zero, Nat.mul_one]
      have h1 : (2 : Nat) ^ (32 * W) ≥ 2 ^ (32 * (W + 1) - ones) :=
        Nat.pow_le_pow_right (by omega) (by omega)
      have e2 : 32 * W - (ones - 32) = 32 * (W + 1) - ones := by omega
      have e3 : (2 ^ 32 - 1) * 2 ^ (32 * W) = 2 ^ (32 * (W + 1)) - 2 ^ (32 * W) := by
        rw [Nat.sub_mul, Nat.one_mul, ← pow_add]
        congr 2
        omega
      rw [e3, e2]
      have h4 : (2 : Nat) ^ (32 * W) ≥ 1 := Nat.one_le_two_pow
      have h5 : (2 : Nat) ^ (32 * (W + 1)) ≥ 2 ^ (32 * W) :=
        Nat.pow_le_pow_right (by omega) (by omega)
      omega

theorem shiftLeft_shiftRight_self (a s : Nat) : (a <<< s) >>> s = a := by
  rw [Nat.shiftLeft_eq, Nat.shiftRight_eq_div_pow,
    Nat.mul_div_cancel _ (Nat.pos_pow_of_pos _ (by omega))]

theorem and_mask_eq_shift {x s B : Nat} (hx : x < 2 ^ B) (hs : s ≤ B) :
    x &&& (2 ^ B - 2 ^ s) = (x >>> s) <<< s := by
  have hmask : (2 : Nat) ^ B - 2 ^ s = (2 ^ (B - s) - 1) <<< s := by
    rw [Nat.shiftLeft_eq, Nat.sub_mul, Nat.one_mul, ← pow_add]
    congr 2
    omega
  rw [hmask]
  apply Nat.eq_of_testBit_eq
  intro i
  rw [Nat.testBit_and, Nat.testBit_shiftLeft, Nat.testBit_shiftLeft]
  by_cases hi : s ≤ i
  · rw [Nat.testBit_shiftRight]
    simp only [ge_iff_le, hi, decide_True, Bool.true_and]
    rw [Nat.testBit_two_pow_sub_one]
    have harith : s + (i - s) = i := by omega
    rw [harith]
    by_cases hB : i < B
    · simp [show i - s < B - s by omega]
    · rw [Nat.testBit_lt_two_pow (Nat.lt_of_lt_of_le hx (Nat.pow_le_pow_right (by omega) (by omega)))]
      simp [show ¬ (i - s < B - s) by omega]
  · simp [show ¬ s ≤ i from hi]

theorem and_mask_iff_shift_eq {x a s B : Nat} (hx : x < 2 ^ B) (hs : s ≤ B)
    (hcanon : (a >>> s) <<< s = a) :
    x &&& (2 ^ B - 2 ^ s) = a ↔ x >>> s = a >>> s := by
  rw [and_mask_eq_shift hx hs]
  constructor
  · intro h
    rw [← h, shiftLeft_shiftRight_self]
  · intro h
    rw [h, hcanon]

theorem IsCanonical.addr_lt {W : Nat} {n : IPNetwork} (h : IsCanonical W n) :
    wval n.addr < 2 ^ (32 * W) := by
  have := wval_lt h.1.2
  rwa [h.1.1] at this

theorem IsCanonical.shift_shift {W : Nat} {n : IPNetwork} (h : IsCanonical W n) :
    (wval n.addr >>> (32 * W - n.prefixLen)) <<< (32 * W - n.prefixLen) = wval n.addr := by
  rw [Nat.shiftRight_eq_div_pow, Nat.shiftLeft_eq]
  exact Nat.div_mul_cancel (Nat.dvd_of_mod_eq_zero h.2.2.2)

theorem IsCanonical.netmask_val {W : Nat} {n : IPNetwork} (h : IsCanonical W n) :
    wval n.netmask = 2 ^ (32 * W) - 2 ^ (32 * W - n.prefixLen) := by
  rw [h.2.2.1]
  exact wval_cidrMask h.2.1

theorem list_len1 {α : Type} {l : List α} (h : l.length = 1) : ∃ a, l = [a] := by
  rcases l with _ | ⟨a, _ | ⟨b, t⟩⟩
  · simp at h
  · exact ⟨a, rfl⟩
  · simp at h

theorem list_len4 {α : Type} {l : List α} (h : l.length = 4) :
    ∃ a b c d, l = [a, b, c, d] := by
  rcases l with _ | ⟨a, _ | ⟨b, _ | ⟨c, _ | ⟨d, _ | ⟨e, t⟩⟩⟩⟩⟩ <;>
    first
      | (exact ⟨a, b, c, d, rfl⟩)
      | (exfalso; simp at h)

theorem zipWith_and_words_lt {a b : IPAddress} (hb : ∀ w ∈ b, w < 2 ^ 32) :
    ∀ w ∈ List.zipWith (fun x y => x &&& y) a b, w < 2 ^ 32 := by
  induction a generalizing b with
  | nil => simp
  | cons x xs ih =>
    cases b with
    | nil => simp
    | cons y ys =>
      intro w hw
      rcases hw with h | h
      · exact Nat.and_lt_two_pow _ (hb y (by simp))
      · exact ih (fun v hv => hb v (List.mem_cons_of_mem _ hv)) w (by assumption)

/-- Bridge for `IPNetwork.Contains` on canonical same-family data. -/
theorem containsA_iff {W : Nat} {n : IPNetwork} {x : IPAddress} (hW : W = 1 ∨ W = 4)
    (hn : IsCanonical W n) (hx : wfAddr W x) :
    n.containsA x = true ↔ specContains W n (wval x) := by
  have hxlt : wval x < 2 ^ (32 * W) := by
    have := wval_lt hx.2
    rwa [hx.1] at this
  have hmasklen : n.netmask.length = W := by rw [hn.2.2.1]; exact cidrMask_length _ _
  have hmaskwords : ∀ w ∈ n.netmask, w < 2 ^ 32 := by
    rw [hn.2.2.1]; exact cidrMask_words_lt _ _
  have hkey : (wval x &&& wval n.netmask = wval n.addr) ↔ specContains W n (wval x) := by
    rw [hn.netmask_val]
    exact and_mask_iff_shift_eq hxlt (Nat.sub_le _ _) hn.shift_shift
  rw [← hkey]
  have hzip : wval (List.zipWith (fun a b => a &&& b) x n.netmask) =
      wval x &&& wval n.netmask :=
    wval_zipWith_and (by rw [hx.1, hmasklen]) hx.2 hmaskwords
  have hzlen : (List.zipWith (fun a b => a &&& b) x n.netmask).length = W := by
    rw [List.length_zipWith, hx.1, hmasklen, Nat.min_self]
  have hzwords : ∀ w ∈ List.zipWith (fun a b => a &&& b) x n.netmask, w < 2 ^ 32 :=
    zipWith_and_words_lt hmaskwords
  have hlist : (List.zipWith (fun a b => a &&& b) x n.netmask = n.addr) ↔
      (wval x &&& wval n.netmask = wval n.addr) := by
    constructor
    · intro h; rw [← hzip, h]
    · intro h
      exact wval_inj (by rw [hzlen, hn.1.1]) hzwords hn.1.2 (by rw [hzip, h])
  rw [← hlist]
  rcases hW with hW1 | hW4
  · subst hW1
    obtain ⟨x0, hx0⟩ := list_len1 hx.1
    obtain ⟨a0, ha0⟩ := list_len1 hn.1.1
    obtain ⟨m0, hm0⟩ := list_len1 hmasklen
    obtain ⟨addr, netmask, plen⟩ := n
    simp only at ha0 hm0
    subst ha0; subst hm0; subst hx0
    simp [IPNetwork.containsA, List.getD]
  · subst hW4
    obtain ⟨x0, x1, x2, x3, hx0⟩ := list_len4 hx.1
    obtain ⟨a0, a1, a2, a3, ha0⟩ := list_len4 hn.1.1
    obtain ⟨m0, m1, m2, m3, hm0⟩ := list_len4 hmasklen
    obtain ⟨addr, netmask, plen⟩ := n
    simp only at ha0 hm0
    subst ha0; subst hm0; subst hx0
    simp [IPNetwork.containsA, List.getD]

/-- Bridge for `IPNetwork.Equal` on canonical same-family data. -/
theorem equal_iff {W : Nat} {n m : IPNetwork} (hn : IsCanonical W n)
    (hm : IsCanonical W m) : n.equal m = true ↔ n = m := by
  unfold IPNetwork.equal
  rw [decide_eq_true_iff]
  constructor
  · rintro ⟨ha, hp⟩
    obtain ⟨na, nm, np⟩ := n
    obtain ⟨ma, mm, mp⟩ := m
    simp only at ha hp
    subst ha; subst hp
    have h1 := hn.2.2.1
    have h2 := hm.2.2.1
    simp only at h1 h2
    rw [IPNetwork.mk.injEq]
    exact ⟨rfl, by rw [h1, h2], rfl⟩
  · rintro rfl
    exact ⟨rfl, rfl⟩

theorem diffBitInWord_none {a b : Nat} {pos : Nat} :
    diffBitInWord a b pos = none ↔ ∀ q, q ≤ pos → a.testBit q = b.testBit q := by
  induction pos with
  | zero =>
    unfold diffBitInWord
    by_cases h : (a >>> 0) &&& 1 ≠ (b >>> 0) &&& 1
    · rw [if_pos h]
      rw [shift_and_one_ne_iff] at h
      constructor
      · intro hc; cases hc
      · intro hq; exact absurd (hq 0 (Nat.le_refl 0)) h
    · rw [if_neg h]
      rw [shift_and_one_ne_iff, not_not] at h
      constructor
      · intro _ q hq
        have : q = 0 := by omega
        rw [this]; exact h
      · intro _; rfl
  | succ pos ih =>
    unfold diffBitInWord
    by_cases h : (a >>> (pos + 1)) &&& 1 ≠ (b >>> (pos + 1)) &&& 1
    · rw [if_pos h]
      rw [shift_and_one_ne_iff] at h
      constructor
      · intro hc; cases hc
      · intro hq; exact absurd (hq (pos + 1) (Nat.le_refl _)) h
    · rw [if_neg h]
      rw [shift_and_one_ne_iff, not_not] at h
      rw [ih]
      constructor
      · intro hall q hq
        rcases Nat.lt_or_ge q (pos + 1) with hlt | hge
        · exact hall q (by omega)
        · have : q = pos + 1 := by omega
          rw [this]; exact h
      · intro hall q hq
        exact hall q (by omega)

theorem diffBitInWord_some {a b : Nat} {pos p : Nat}
    (h : diffBitInWord a b pos = some p) :
    p ≤ pos ∧ a.testBit p ≠ b.testBit p ∧
      ∀ q, p < q → q ≤ pos → a.testBit q = b.testBit q := by
  induction pos with
  | zero =>
    unfold diffBitInWord at h
    by_cases hc : (a >>> 0) &&& 1 ≠ (b >>> 0) &&& 1
    · rw [if_pos hc] at h
      cases h
      rw [shift_and_one_ne_iff] at hc
      exact ⟨Nat.le_refl _, hc, fun q hq1 hq2 => by omega⟩
    · rw [if_neg hc] at h; cases h
  | succ pos ih =>
    unfold diffBitInWord at h
    by_cases hc : (a >>> (pos + 1)) &&& 1 ≠ (b >>> (pos + 1)) &&& 1
    · rw [if_pos hc] at h
      cases h
      rw [shift_and_one_ne_iff] at hc
      exact ⟨Nat.le_refl _, hc, fun q hq1 hq2 => by omega⟩
    · rw [if_neg hc] at h
      rw [shift_and_one_ne_iff, not_not] at hc
      obtain ⟨h1, h2, h3⟩ := ih h
      refine ⟨by omega, h2, ?_⟩
      intro q hq1 hq2
      rcases Nat.lt_or_ge q (pos + 1) with hlt | hge
      · exact h3 q hq1 (by omega)
      · have : q = pos + 1 := by omega
        rw [this]; exact hc

theorem lcbGo_cons_some {wa wb : Nat} {rest : List (Nat × Nat)} {flag : Bool}
    {p : Nat} (hd : diffBitInWord wa wb 31 = some p) :
    lcbGo ((wa, wb) :: rest) flag =
      if flag = true ∧ p = 31 then .error "no greatest common bit"
      else .ok ((p + 1) + BitsPerWord * rest.length) := by
  unfold lcbGo
  rw [hd]

theorem lcbGo_cons_none {wa wb : Nat} {rest : List (Nat × Nat)} {flag : Bool}
    (hd : diffBitInWord wa wb 31 = none) :
    lcbGo ((wa, wb) :: rest) flag = lcbGo rest false := by
  conv_lhs => unfold lcbGo
  rw [hd]

/-- The word loop of the address LCB succeeds (given agreement in the very first
bit when `flag` is set) and returns the bound below which the addresses may
disagree: all flattened bits at positions `≥ l` (within range) agree, and `l` is 0
or sits just above a disagreement. -/
theorem lcbGo_ok {a : IPAddress} : ∀ {b : IPAddress}, a.length = b.length →
    (∀ w ∈ a, w < 2 ^ 32) → (∀ w ∈ b, w < 2 ^ 32) → ∀ flag : Bool,
    (flag = true → a.length = 0 ∨
      (wval a).testBit (32 * a.length - 1) = (wval b).testBit (32 * a.length - 1)) →
    ∃ l, lcbGo (a.zip b) flag = .ok l ∧ l ≤ 32 * a.length ∧
      (∀ q, l ≤ q → q < 32 * a.length → (wval a).testBit q = (wval b).testBit q) ∧
      (l = 0 ∨ (wval a).testBit (l - 1) ≠ (wval b).testBit (l - 1)) := by
  induction a with
  | nil =>
    intro b hlen ha hb flag hflag
    have : b = [] := by cases b <;> simp_all
    subst this
    exact ⟨0, rfl, by simp, fun q h1 h2 => by simp at h2, Or.inl rfl⟩
  | cons wa ra ih =>
    intro b hlen ha hb flag hflag
    cases b with
    | nil => simp at hlen
    | cons wb rb =>
      have hlen' : ra.length = rb.length := by simpa using hlen
      have hra : ∀ w ∈ ra, w < 2 ^ 32 := fun x hx => ha x (by simp [hx])
      have hrb : ∀ w ∈ rb, w < 2 ^ 32 := fun x hx => hb x (by simp [hx])
      have hzip : (wa :: ra).zip (wb :: rb) = (wa, wb) :: ra.zip rb := rfl
      have hlenz : (ra.zip rb).length = ra.length := by
        rw [List.length_zip, hlen', Nat.min_self]
      have hlencons : (wa :: ra).length = ra.length + 1 := rfl
      have hhiA : ∀ q, 32 * ra.length ≤ q →
          (wval (wa :: ra)).testBit q = wa.testBit (q - 32 * ra.length) :=
        fun q hq => testBit_wval_cons_high hra hq
      have hhiB : ∀ q, 32 * ra.length ≤ q →
          (wval (wb :: rb)).testBit q = wb.testBit (q - 32 * ra.length) := by
        intro q hq
        have h1 : (wval (wb :: rb)).testBit q = wb.testBit (q - 32 * rb.length) :=
          @testBit_wval_cons_high wb rb q hrb (by omega)
        rw [h1, ← hlen']
      have hloA : ∀ q, q < 32 * ra.length →
          (wval (wa :: ra)).testBit q = (wval ra).testBit q :=
        fun q hq => testBit_wval_cons_low hq
      have hloB : ∀ q, q < 32 * ra.length →
          (wval (wb :: rb)).testBit q = (wval rb).testBit q := by
        intro q hq
        exact @testBit_wval_cons_low wb rb q (by omega)
      rw [hzip]
      cases hd : diffBitInWord wa wb 31 with
      | some p =>
        obtain ⟨hp31, hpdiff, hpagree⟩ := diffBitInWord_some hd
        have hnotflag : ¬ (flag = true ∧ p = 31) := by
          rintro ⟨hf, hp⟩
          rcases hflag hf with h0 | htop
          · simp at h0
          · subst hp
            rw [hlencons] at htop
            have e1 : 32 * (ra.length + 1) - 1 = 32 * ra.length + 31 := by omega
            rw [e1, hhiA _ (by omega), hhiB _ (by omega)] at htop
            have e2 : 32 * ra.length + 31 - 32 * ra.length = 31 := by omega
            rw [e2] at htop
            exact hpdiff htop
        rw [lcbGo_cons_some hd, if_neg hnotflag]
        refine ⟨p + 1 + BitsPerWord * (ra.zip rb).length, rfl, ?_, ?_, ?_⟩
        · rw [hlenz, hlencons]
          simp only [BitsPerWord]
          omega
        · intro q hq1 hq2
          rw [hlenz] at hq1
          rw [hlencons] at hq2
          simp only [BitsPerWord] at hq1
          have hq3 : 32 * ra.length ≤ q := by omega
          rw [hhiA _ hq3, hhiB _ hq3]
          apply hpagree
          · omega
          · omega
        · right
          rw [hlenz]
          simp only [BitsPerWord]
          have e1 : p + 1 + 32 * ra.length - 1 = 32 * ra.length + p := by omega
          rw [e1, hhiA _ (by omega), hhiB _ (by omega)]
          have e2 : 32 * ra.length + p - 32 * ra.length = p := by omega
          rw [e2]
          exact hpdiff
      | none =>
        have hagree_word : ∀ q, q ≤ 31 → wa.testBit q = wb.testBit q :=
          diffBitInWord_none.mp hd
        obtain ⟨l, hres, hle, hagree, hdiff⟩ :=
          ih hlen' hra hrb false (by intro h; cases h)
        rw [lcbGo_cons_none hd]
        refine ⟨l, hres, by rw [hlencons]; omega, ?_, ?_⟩
        · intro q hq1 hq2
          rw [hlencons] at hq2
          rcases Nat.lt_or_ge q (32 * ra.length) with hlt | hge
          · rw [hloA _ hlt, hloB _ hlt]
            exact hagree q hq1 hlt
          · rw [hhiA _ hge, hhiB _ hge]
            apply hagree_word
            omega
        · rcases hdiff with h0 | hd'
          · exact Or.inl h0
          · right
            have hl0 : 1 ≤ l := by
              by_contra hc
              have hl : l = 0 := by omega
              subst hl
              by_cases hrl : 0 < 32 * ra.length
              · exact absurd (hagree 0 (by omega) (by omega)) hd'
              · have hrl0 : ra.length = 0 := by omega
                have hrb0 : rb.length = 0 := by omega
                have hra' : ra = [] := List.length_eq_zero.mp hrl0
                have hrb' : rb = [] := List.length_eq_zero.mp hrb0
                subst hra'; subst hrb'
                simp [wval] at hd'
            have hlt : l - 1 < 32 * ra.length := by omega
            rw [hloA _ hlt, hloB _ hlt]
            exact hd'

/-- `IPAddress.LeastCommonBitPosition` succeeds on equal-length addresses that
agree in the leading bit. -/
theorem addrLCB_ok {a b : IPAddress} (hlen : a.length = b.length)
    (ha : ∀ w ∈ a, w < 2 ^ 32) (hb : ∀ w ∈ b, w < 2 ^ 32)
    (htop : a.length = 0 ∨
      (wval a).testBit (32 * a.length - 1) = (wval b).testBit (32 * a.length - 1)) :
    ∃ l, IPAddress.leastCommonBitPosition a b = .ok l ∧ l ≤ 32 * a.length ∧
      (∀ q, l ≤ q → q < 32 * a.length → (wval a).testBit q = (wval b).testBit q) ∧
      (l = 0 ∨ (wval a).testBit (l - 1) ≠ (wval b).testBit (l - 1)) := by
  obtain ⟨l, hres, h1, h2, h3⟩ := lcbGo_ok hlen ha hb true (fun _ => htop)
  refine ⟨l, ?_, h1, h2, h3⟩
  unfold IPAddress.leastCommonBitPosition
  rw [if_neg (by omega)]
  exact hres

/-- `IPNetwork.LeastCommonBitPosition` on canonical same-family networks that
agree in the leading bit: the result is `max maskPosition addressLCB` with the
address-level properties exposed. -/
theorem netLCB_ok {W : Nat} {n m : IPNetwork} (hn : IsCanonical W n)
    (hm : IsCanonical W m)
    (htop : W = 0 ∨ (wval n.addr).testBit (32 * W - 1) = (wval m.addr).testBit (32 * W - 1)) :
    ∃ la, n.leastCommonBitPosition m =
        .ok (max (32 * W - min n.prefixLen m.prefixLen) la) ∧ la ≤ 32 * W ∧
      (∀ q, la ≤ q → q < 32 * W → (wval n.addr).testBit q = (wval m.addr).testBit q) ∧
      (la = 0 ∨ (wval n.addr).testBit (la - 1) ≠ (wval m.addr).testBit (la - 1)) := by
  have hlen : n.addr.length = m.addr.length := by rw [hn.1.1, hm.1.1]
  have htop' : n.addr.length = 0 ∨
      (wval n.addr).testBit (32 * n.addr.length - 1) =
        (wval m.addr).testBit (32 * n.addr.length - 1) := by
    rw [hn.1.1]
    rcases htop with h | h
    · exact Or.inl h
    · exact Or.inr h
  obtain ⟨la, hres, h1, h2, h3⟩ := addrLCB_ok hlen hn.1.2 hm.1.2 htop'
  rw [hn.1.1] at h1 h2
  refine ⟨la, ?_, h1, h2, h3⟩
  unfold IPNetwork.leastCommonBitPosition
  rw [hres]
  simp only [hm.1.1, BitsPerWord]
  rw [Nat.mul_comm W 32]

/-! ## Structural lemmas for well-formed tries -/

theorem shift_agree_mono {x y s t : Nat} (h : x >>> s = y >>> s) (hst : s ≤ t) :
    x >>> t = y >>> t := by
  have e : t = s + (t - s) := by omega
  rw [e, Nat.shiftRight_add, Nat.shiftRight_add, h]

theorem testBit_of_shift_agree {x y s q : Nat} (h : x >>> s = y >>> s) (hq : s ≤ q) :
    x.testBit q = y.testBit q := by
  have e : q = s + (q - s) := by omega
  rw [e, ← Nat.testBit_shiftRight, ← Nat.testBit_shiftRight, h]

theorem shift_agree_of_testBit {x y s : Nat}
    (h : ∀ q, s ≤ q → x.testBit q = y.testBit q) : x >>> s = y >>> s := by
  apply Nat.eq_of_testBit_eq
  intro i
  rw [Nat.testBit_shiftRight, Nat.testBit_shiftRight]
  exact h (s + i) (by omega)

/-- Canonical networks with the same family, prefix length and prefix bits are
equal. -/
theorem canonical_eq_of_shift {W : Nat} {n m : IPNetwork} (hn : IsCanonical W n)
    (hm : IsCanonical W m) (hp : n.prefixLen = m.prefixLen)
    (hs : wval n.addr >>> (32 * W - n.prefixLen) =
      wval m.addr >>> (32 * W - m.prefixLen)) : n = m := by
  have hv : wval n.addr = wval m.addr := by
    rw [← hn.shift_shift, ← hm.shift_shift, ← hp, hs, hp]
  have haddr : n.addr = m.addr := wval_inj (by rw [hn.1.1, hm.1.1]) hn.1.2 hm.1.2 hv
  obtain ⟨na, nm, np⟩ := n
  obtain ⟨ma, mm, mp⟩ := m
  simp only at haddr hp
  subst haddr; subst hp
  have h1 := hn.2.2.1
  have h2 := hm.2.2.1
  simp only at h1 h2
  rw [IPNetwork.mk.injEq]
  exact ⟨rfl, by rw [h1, h2], rfl⟩

theorem WFNode.canonical {W : Nat} {p : PrefixNode} (h : WFNode W p) :
    IsCanonical W p.network := by
  cases h with
  | mk hcan hskip hok0 hok1 hwf0 hwf1 => exact hcan

theorem WFNode.skip_eq {W : Nat} {p : PrefixNode} (h : WFNode W p) :
    p.skipBits = p.network.prefixLen := by
  cases h with
  | mk hcan hskip hok0 hok1 hwf0 hwf1 => exact hskip

theorem WFNode.child0_wf {W : Nat} {p c : PrefixNode} (h : WFNode W p)
    (hc : p.child0 = some c) : WFNode W c := by
  cases h with
  | mk hcan hskip hok0 hok1 hwf0 hwf1 => exact hwf0 c hc

theorem WFNode.child1_wf {W : Nat} {p c : PrefixNode} (h : WFNode W p)
    (hc : p.child1 = some c) : WFNode W c := by
  cases h with
  | mk hcan hskip hok0 hok1 hwf0 hwf1 => exact hwf1 c hc

theorem WFNode.child0_ok {W : Nat} {p c : PrefixNode} (h : WFNode W p)
    (hc : p.child0 = some c) : childOk W p.network 0 c := by
  cases h with
  | mk hcan hskip hok0 hok1 hwf0 hwf1 => exact hok0 c hc

theorem WFNode.child1_ok {W : Nat} {p c : PrefixNode} (h : WFNode W p)
    (hc : p.child1 = some c) : childOk W p.network 1 c := by
  cases h with
  | mk hcan hskip hok0 hok1 hwf0 hwf1 => exact hok1 c hc

theorem leafNets_mk (c0 c1 : Option PrefixNode) (skip : Nat) (net : IPNetwork)
    (leaf : Bool) :
    leafNets (.mk c0 c1 skip net leaf) =
      (if leaf then [net] else []) ++
      (match c0 with | some c => leafNets c | none => []) ++
      (match c1 with | some c => leafNets c | none => []) := by
  conv_lhs => unfold leafNets

theorem mem_leafNets_iff {M : IPNetwork} {c0 c1 : Option PrefixNode} {skip : Nat}
    {net : IPNetwork} {leaf : Bool} :
    M ∈ leafNets (.mk c0 c1 skip net leaf) ↔
      (leaf = true ∧ M = net) ∨
      (∃ c, c0 = some c ∧ M ∈ leafNets c) ∨
      (∃ c, c1 = some c ∧ M ∈ leafNets c) := by
  rw [leafNets_mk, List.mem_append, List.mem_append]
  constructor
  · rintro ((h | h) | h)
    · cases leaf with
      | false => simp at h
      | true => simp at h; exact Or.inl ⟨rfl, h⟩
    · cases hc : c0 with
      | none => rw [hc] at h; simp at h
      | some c => rw [hc] at h; exact Or.inr (Or.inl ⟨c, rfl, h⟩)
    · cases hc : c1 with
      | none => rw [hc] at h; simp at h
      | some c => rw [hc] at h; exact Or.inr (Or.inr ⟨c, rfl, h⟩)
  · rintro (⟨hl, hm⟩ | ⟨c, hc, hm⟩ | ⟨c, hc, hm⟩)
    · subst hl; subst hm; exact Or.inl (Or.inl (by simp))
    · rw [hc]; exact Or.inl (Or.inr hm)
    · rw [hc]; exact Or.inr hm

/-- Every leaf network of a well-formed subtree is canonical, extends the
subtree root's prefix and agrees with it. -/
theorem leafNets_agree {W : Nat} {p : PrefixNode} (h : WFNode W p) :
    ∀ M ∈ leafNets p, IsCanonical W M ∧ p.network.prefixLen ≤ M.prefixLen ∧
      wval M.addr >>> (32 * W - p.network.prefixLen) =
        wval p.network.addr >>> (32 * W - p.network.prefixLen) := by
  induction h with
  | @mk c0 c1 skip net leaf hcan hskip hok0 hok1 hwf0 hwf1 ih0 ih1 =>
    intro M hM
    rw [mem_leafNets_iff] at hM
    rcases hM with ⟨hl, rfl⟩ | ⟨c, hc, hm⟩ | ⟨c, hc, hm⟩
    · exact ⟨hcan, Nat.le_refl _, rfl⟩
    · obtain ⟨hMc, hMp, hMa⟩ := ih0 c hc M hm
      obtain ⟨hcp, hca, _⟩ := hok0 c hc
      refine ⟨hMc, by simpa using Nat.le_trans (Nat.le_of_lt hcp) hMp, ?_⟩
      have h1 : wval M.addr >>> (32 * W - net.prefixLen) =
          wval c.network.addr >>> (32 * W - net.prefixLen) := by
        apply shift_agree_mono hMa
        have := (hwf0 c hc).canonical.2.1
        simp only [PrefixNode.network] at *
        omega
      simp only [PrefixNode.network] at *
      rw [h1, hca]
    · obtain ⟨hMc, hMp, hMa⟩ := ih1 c hc M hm
      obtain ⟨hcp, hca, _⟩ := hok1 c hc
      refine ⟨hMc, by simpa using Nat.le_trans (Nat.le_of_lt hcp) hMp, ?_⟩
      have h1 : wval M.addr >>> (32 * W - net.prefixLen) =
          wval c.network.addr >>> (32 * W - net.prefixLen) := by
        apply shift_agree_mono hMa
        have := (hwf1 c hc).canonical.2.1
        simp only [PrefixNode.network] at *
        omega
      simp only [PrefixNode.network] at *
      rw [h1, hca]

theorem containsAddress_mk (c0 c1 : Option PrefixNode) (skip : Nat)
    (net : IPNetwork) (leaf : Bool) (x : IPAddress) :
    PrefixNode.containsAddress (.mk c0 c1 skip net leaf) x =
      (if ¬ net.containsA x then false
       else if leaf then true
       else if (PrefixNode.mk c0 c1 skip net leaf).getTargetBitPos < 0 then false
       else
         match x.bit (PrefixNode.mk c0 c1 skip net leaf).getTargetBitPos.toNat with
         | none => false
         | some bit =>
           if bit = 0 then
             match c0 with
             | none => false
             | some c => c.containsAddress x
           else
             match c1 with
             | none => false
             | some c => c.containsAddress x) := by
  cases c0 <;> cases c1 <;> simp only [PrefixNode.containsAddress]

/-- Soundness of `containsAddress` on well-formed subtrees: a positive answer
exhibits a leaf network whose prefix the query shares. -/
theorem contains_sound {W : Nat} (hW : W = 1 ∨ W = 4) {x : IPAddress}
    (hx : wfAddr W x) {p : PrefixNode} (h : WFNode W p) :
    p.containsAddress x = true → ∃ M ∈ leafNets p, specContains W M (wval x) := by
  induction h with
  | @mk c0 c1 skip net leaf hcan hskip hok0 hok1 hwf0 hwf1 ih0 ih1 =>
    intro hres
    rw [containsAddress_mk] at hres
    by_cases hca : net.containsA x = true
    swap
    · rw [if_pos (by simpa using hca)] at hres
      cases hres
    rw [if_neg (by simp [hca])] at hres
    cases leaf with
    | true =>
      exact ⟨net, mem_leafNets_iff.mpr (Or.inl ⟨rfl, rfl⟩),
        (containsA_iff hW hcan hx).mp hca⟩
    | false =>
      rw [if_neg (by decide)] at hres
      by_cases htp : (PrefixNode.mk c0 c1 skip net false).getTargetBitPos < 0
      · rw [if_pos htp] at hres; cases hres
      rw [if_neg htp] at hres
      cases hbit : IPAddress.bit x
          (PrefixNode.mk c0 c1 skip net false).getTargetBitPos.toNat with
      | none =>
        simp only [hbit] at hres
        cases hres
      | some bit =>
        simp only [hbit] at hres
        by_cases hbz : bit = 0
        · rw [if_pos hbz] at hres
          cases c0 with
          | none => cases hres
          | some c =>
            obtain ⟨M, hM, hMs⟩ := ih0 c rfl hres
            exact ⟨M, mem_leafNets_iff.mpr (Or.inr (Or.inl ⟨c, rfl, hM⟩)), hMs⟩
        · rw [if_neg hbz] at hres
          cases c1 with
          | none => cases hres
          | some c =>
            obtain ⟨M, hM, hMs⟩ := ih1 c rfl hres
            exact ⟨M, mem_leafNets_iff.mpr (Or.inr (Or.inr ⟨c, rfl, hM⟩)), hMs⟩

/-- The target bit position of a well-formed node, as an integer. -/
theorem getTargetBitPos_eq {W : Nat} {c0 c1 : Option PrefixNode} {skip : Nat}
    {net : IPNetwork} {leaf : Bool} (hlen : net.addr.length = W)
    (hskip : skip = net.prefixLen) :
    (PrefixNode.mk c0 c1 skip net leaf).getTargetBitPos =
      ((32 * W : Nat) : Int) - (net.prefixLen : Int) - 1 := by
  simp only [PrefixNode.getTargetBitPos, PrefixNode.getTotalBits, PrefixNode.network,
    PrefixNode.skipBits, BitsPerWord, hlen, hskip]

/-- Completeness of `containsAddress` on well-formed subtrees: if the query
shares the prefix of some leaf network, the descent reaches that leaf. -/
theorem contains_complete {W : Nat} (hW : W = 1 ∨ W = 4) {x : IPAddress}
    (hx : wfAddr W x) {p : PrefixNode} (h : WFNode W p) :
    ∀ M, M ∈ leafNets p → wval x >>> (32 * W - M.prefixLen) =
      wval M.addr >>> (32 * W - M.prefixLen) → p.containsAddress x = true := by
  induction h with
  | @mk c0 c1 skip net leaf hcan hskip hok0 hok1 hwf0 hwf1 ih0 ih1 =>
    intro M hM hspec
    have hwf : WFNode W (.mk c0 c1 skip net leaf) :=
      .mk hcan hskip hok0 hok1 hwf0 hwf1
    obtain ⟨hMcan, hMple, hMsh⟩ := leafNets_agree hwf M hM
    simp only [PrefixNode.network] at hMple hMsh
    have hxM : ∀ q, 32 * W - M.prefixLen ≤ q →
        (wval x).testBit q = (wval M.addr).testBit q :=
      fun q hq => testBit_of_shift_agree hspec hq
    have hMle32 : M.prefixLen ≤ 32 * W := hMcan.2.1
    have hxp : wval x >>> (32 * W - net.prefixLen) =
        wval net.addr >>> (32 * W - net.prefixLen) := by
      have h1 : wval x >>> (32 * W - net.prefixLen) =
          wval M.addr >>> (32 * W - net.prefixLen) :=
        shift_agree_mono hspec (by omega)
      rw [h1, hMsh]
    have hca : net.containsA x = true := (containsA_iff hW hcan hx).mpr hxp
    rw [containsAddress_mk, if_neg (by simp [hca])]
    cases leaf with
    | true => simp
    | false =>
      rw [if_neg (by decide)]
      rcases mem_leafNets_iff.mp hM with ⟨hfalse, _⟩ | ⟨c, hc, hMc⟩ | ⟨c, hc, hMc⟩
      · cases hfalse
      · subst hc
        obtain ⟨hclt, hcsh, hcbit⟩ := hok0 c rfl
        have hcwf := hwf0 c rfl
        obtain ⟨_, hcMple, hcMsh⟩ := leafNets_agree hcwf M hMc
        have hclt32 : c.network.prefixLen ≤ 32 * W := hcwf.canonical.2.1
        have hnp : net.prefixLen < 32 * W := by omega
        rw [if_neg (show ¬ (PrefixNode.mk (some c) c1 skip net false).getTargetBitPos
          < 0 by rw [getTargetBitPos_eq hcan.1.1 hskip]; omega)]
        have htn : (PrefixNode.mk (some c) c1 skip net false).getTargetBitPos.toNat =
            32 * W - net.prefixLen - 1 := by
          rw [getTargetBitPos_eq hcan.1.1 hskip]; omega
        rw [htn, bit_eq_testBit hx.2 (by rw [hx.1]; omega)]
        have htb : (wval x).testBit (32 * W - net.prefixLen - 1) = false := by
          rw [hxM _ (by omega), testBit_of_shift_agree hcMsh (by omega)]
          simpa using hcbit
        rw [htb]
        simpa using ih0 c rfl M hMc hspec
      · subst hc
        obtain ⟨hclt, hcsh, hcbit⟩ := hok1 c rfl
        have hcwf := hwf1 c rfl
        obtain ⟨_, hcMple, hcMsh⟩ := leafNets_agree hcwf M hMc
        have hclt32 : c.network.prefixLen ≤ 32 * W := hcwf.canonical.2.1
        have hnp : net.prefixLen < 32 * W := by omega
        rw [if_neg (show ¬ (PrefixNode.mk c0 (some c) skip net false).getTargetBitPos
          < 0 by rw [getTargetBitPos_eq hcan.1.1 hskip]; omega)]
        have htn : (PrefixNode.mk c0 (some c) skip net false).getTargetBitPos.toNat =
            32 * W - net.prefixLen - 1 := by
          rw [getTargetBitPos_eq hcan.1.1 hskip]; omega
        rw [htn, bit_eq_testBit hx.2 (by rw [hx.1]; omega)]
        have htb : (wval x).testBit (32 * W - net.prefixLen - 1) = true := by
          rw [hxM _ (by omega), testBit_of_shift_agree hcMsh (by omega)]
          simpa using hcbit
        rw [htb]
        simpa using ih1 c rfl M hMc hspec

theorem testBit_ge_false {x B q : Nat} (h : x < 2 ^ B) (hq : B ≤ q) :
    x.testBit q = false :=
  Nat.testBit_lt_two_pow (lt_of_lt_of_le h (Nat.pow_le_pow_right (by omega) hq))

/-- Lift bounded bit agreement (below `B`) to agreement everywhere above `la`. -/
theorem testBit_agree_of_bounded {a b B la : Nat}
    (hag : ∀ q, la ≤ q → q < B → a.testBit q = b.testBit q)
    (ha : a < 2 ^ B) (hb : b < 2 ^ B) :
    ∀ q, la ≤ q → a.testBit q = b.testBit q := by
  intro q hq
  by_cases hqB : q < B
  · exact hag q hq hqB
  · rw [testBit_ge_false ha (by omega), testBit_ge_false hb (by omega)]

/-- The general form of `getTargetBitPos` on well-formed nodes. -/
theorem getTargetBitPos_of_wf {W : Nat} {p : PrefixNode}
    (hlen : p.network.addr.length = W) (hskip : p.skipBits = p.network.prefixLen) :
    p.getTargetBitPos = ((32 * W : Nat) : Int) - (p.network.prefixLen : Int) - 1 := by
  unfold PrefixNode.getTargetBitPos PrefixNode.getTotalBits
  rw [hlen, hskip]
  simp only [BitsPerWord]

/-- `Masked` of a canonical network is canonical, with the flattened value equal
to the prefix bits of the base address. -/
theorem masked_spec {W : Nat} {n : IPNetwork} (hn : IsCanonical W n) {ones : Nat}
    (hones : ones ≤ 32 * W) :
    IsCanonical W (n.masked ones) ∧
    wval (n.masked ones).addr =
      (wval n.addr >>> (32 * W - ones)) <<< (32 * W - ones) := by
  have hlen : n.addr.length = W := hn.1.1
  have hmlen : (cidrMask ones n.addr.length) = cidrMask ones W := by rw [hlen]
  have hv : wval (n.masked ones).addr =
      (wval n.addr >>> (32 * W - ones)) <<< (32 * W - ones) := by
    show wval (List.zipWith (fun a b => a &&& b) n.addr (cidrMask ones n.addr.length)) = _
    rw [hmlen, wval_zipWith_and (by rw [hlen, cidrMask_length]) hn.1.2
      (cidrMask_words_lt _ _), wval_cidrMask hones]
    exact and_mask_eq_shift hn.addr_lt (Nat.sub_le _ _)
  refine ⟨⟨⟨?_, ?_⟩, hones, ?_, ?_⟩, hv⟩
  · show (List.zipWith (fun a b => a &&& b) n.addr (cidrMask ones n.addr.length)).length = W
    rw [List.length_zipWith, cidrMask_length, hlen, Nat.min_self]
  · show ∀ w ∈ List.zipWith (fun a b => a &&& b) n.addr (cidrMask ones n.addr.length),
      w < 2 ^ 32
    rw [hmlen]
    exact zipWith_and_words_lt (cidrMask_words_lt _ _)
  · show cidrMask ones n.addr.length = cidrMask ((n.masked ones).prefixLen) W
    rw [hmlen]
    rfl
  · show wval (n.masked ones).addr % 2 ^ (32 * W - (n.masked ones).prefixLen) = 0
    have hplen : (n.masked ones).prefixLen = ones := rfl
    rw [hplen, hv, Nat.shiftLeft_eq]
    exact Nat.mul_mod_left _ _

/-- Masking a canonical network at its own prefix length is the identity. -/
theorem masked_self {W : Nat} {n : IPNetwork} (hn : IsCanonical W n) :
    n.masked n.prefixLen = n := by
  obtain ⟨hm, hv⟩ := masked_spec hn hn.2.1
  have hv' : wval (n.masked n.prefixLen).addr = wval n.addr := by
    rw [hv, hn.shift_shift]
  have haddr : (n.masked n.prefixLen).addr = n.addr :=
    wval_inj (by rw [hm.1.1, hn.1.1]) hm.1.2 hn.1.2 hv'
  have hnm : (n.masked n.prefixLen).netmask = n.netmask := by
    rw [hm.2.2.1, hn.2.2.1]
    rfl
  obtain ⟨ma, mm, mp⟩ := n
  rw [IPNetwork.mk.injEq]
  exact ⟨haddr, hnm, rfl⟩

/-- `newLeafNode` of a canonical network keeps the network intact. -/
theorem newLeafNode_eq {W : Nat} {n : IPNetwork} (hn : IsCanonical W n) :
    newLeafNode n = .mk none none n.prefixLen n true := by
  show PrefixNode.mk none none n.prefixLen (n.masked n.prefixLen) true =
    PrefixNode.mk none none n.prefixLen n true
  rw [masked_self hn]

theorem newLeafNode_wf {W : Nat} {n : IPNetwork} (hn : IsCanonical W n) :
    WFNode W (newLeafNode n) := by
  rw [newLeafNode_eq hn]
  exact .mk hn rfl (fun c hc => by cases hc) (fun c hc => by cases hc)
    (fun c hc => by cases hc) (fun c hc => by cases hc)

theorem leafNets_newLeafNode {W : Nat} {n : IPNetwork} (hn : IsCanonical W n) :
    leafNets (newLeafNode n) = [n] := by
  rw [newLeafNode_eq hn, leafNets_mk]
  simp

/-- Every leaf network below a child of slot `i` carries the slot's bit just
after the parent's prefix. -/
theorem leafNets_child_testBit {W : Nat} {net : IPNetwork} {i : Nat}
    {c : PrefixNode} (hok : childOk W net i c) (hwc : WFNode W c) {M : IPNetwork}
    (hM : M ∈ leafNets c) :
    (wval M.addr).testBit (32 * W - net.prefixLen - 1) = decide (i = 1) := by
  obtain ⟨hlt, hsh, hbit⟩ := hok
  obtain ⟨hMcan, hMple, hMsh⟩ := leafNets_agree hwc M hM
  have hc32 : c.network.prefixLen ≤ 32 * W := hwc.canonical.2.1
  rw [testBit_of_shift_agree hMsh (by omega), ← hbit]

theorem exists_some_iff {α : Type} {d : α} {P : α → Prop} :
    (∃ c, some d = some c ∧ P c) ↔ P d := by
  constructor
  · rintro ⟨c, hc, h⟩
    cases hc
    exact h
  · intro h
    exact ⟨d, rfl, h⟩

theorem exists_none_iff {α : Type} {P : α → Prop} :
    (∃ c, (none : Option α) = some c ∧ P c) ↔ False := by
  constructor
  · rintro ⟨c, hc, h⟩
    cases hc
  · intro h
    cases h

/-- A node can have its leaf flag changed without losing well-formedness. -/
theorem WFNode.relabel {W : Nat} {c0 c1 : Option PrefixNode} {skip : Nat}
    {pnet : IPNetwork} {leaf leaf' : Bool}
    (hp : WFNode W (.mk c0 c1 skip pnet leaf)) :
    WFNode W (.mk c0 c1 skip pnet leaf') := by
  cases hp with
  | mk a b h0 h1 w0 w1 => exact .mk a b h0 h1 w0 w1

/-- Replacing slot 0 with a well-formed, slot-correct child keeps
well-formedness. -/
theorem WFNode.update0 {W : Nat} {c0 c1 : Option PrefixNode} {skip : Nat}
    {pnet : IPNetwork} {leaf : Bool}
    (hp : WFNode W (.mk c0 c1 skip pnet leaf)) {c : PrefixNode}
    (hok : childOk W pnet 0 c) (hwc : WFNode W c) {leaf' : Bool} :
    WFNode W (.mk (some c) c1 skip pnet leaf') := by
  cases hp with
  | mk a b h0 h1 w0 w1 =>
    exact .mk a b (fun d hd => by cases hd; exact hok) h1
      (fun d hd => by cases hd; exact hwc) w1

theorem WFNode.update1 {W : Nat} {c0 c1 : Option PrefixNode} {skip : Nat}
    {pnet : IPNetwork} {leaf : Bool}
    (hp : WFNode W (.mk c0 c1 skip pnet leaf)) {c : PrefixNode}
    (hok : childOk W pnet 1 c) (hwc : WFNode W c) {leaf' : Bool} :
    WFNode W (.mk c0 (some c) skip pnet leaf') := by
  cases hp with
  | mk a b h0 h1 w0 w1 =>
    exact .mk a b h0 (fun d hd => by cases hd; exact hok)
      w0 (fun d hd => by cases hd; exact hwc)

/-- Build a well-formed node with a given slot-0 child directly from the
parts. -/
theorem WFNode.node0 {W : Nat} {c1 : Option PrefixNode} {skip : Nat}
    {pnet : IPNetwork} {leaf : Bool} (hcan : IsCanonical W pnet)
    (hskip : skip = pnet.prefixLen)
    (hok1 : ∀ c, c1 = some c → childOk W pnet 1 c)
    (hwf1 : ∀ c, c1 = some c → WFNode W c) {c : PrefixNode}
    (hok : childOk W pnet 0 c) (hwc : WFNode W c) :
    WFNode W (.mk (some c) c1 skip pnet leaf) :=
  .mk hcan hskip (fun d hd => by cases hd; exact hok) hok1
    (fun d hd => by cases hd; exact hwc) hwf1

theorem WFNode.node1 {W : Nat} {c0 : Option PrefixNode} {skip : Nat}
    {pnet : IPNetwork} {leaf : Bool} (hcan : IsCanonical W pnet)
    (hskip : skip = pnet.prefixLen)
    (hok0 : ∀ c, c0 = some c → childOk W pnet 0 c)
    (hwf0 : ∀ c, c0 = some c → WFNode W c) {c : PrefixNode}
    (hok : childOk W pnet 1 c) (hwc : WFNode W c) :
    WFNode W (.mk c0 (some c) skip pnet leaf) :=
  .mk hcan hskip hok0 (fun d hd => by cases hd; exact hok)
    hwf0 (fun d hd => by cases hd; exact hwc)

/-- Leaf-set tracking when slot 0 is updated. -/
theorem leafNets_update0 {cA cB c1 : Option PrefixNode} {skip : Nat}
    {pnet net : IPNetwork} {leaf : Bool}
    (h : ∀ M, (∃ c, cB = some c ∧ M ∈ leafNets c) ↔
      (∃ c, cA = some c ∧ M ∈ leafNets c) ∨ M = net) :
    ∀ M, M ∈ leafNets (.mk cB c1 skip pnet leaf) ↔
      M ∈ leafNets (.mk cA c1 skip pnet leaf) ∨ M = net := by
  intro M
  rw [mem_leafNets_iff, mem_leafNets_iff, h M]
  constructor
  · rintro (hl | (hA | hMn) | hB)
    · exact Or.inl (Or.inl hl)
    · exact Or.inl (Or.inr (Or.inl hA))
    · exact Or.inr hMn
    · exact Or.inl (Or.inr (Or.inr hB))
  · rintro ((hl | hA | hB) | hMn)
    · exact Or.inl hl
    · exact Or.inr (Or.inl (Or.inl hA))
    · exact Or.inr (Or.inr hB)
    · exact Or.inr (Or.inl (Or.inr hMn))

theorem leafNets_update1 {c0 cA cB : Option PrefixNode} {skip : Nat}
    {pnet net : IPNetwork} {leaf : Bool}
    (h : ∀ M, (∃ c, cB = some c ∧ M ∈ leafNets c) ↔
      (∃ c, cA = some c ∧ M ∈ leafNets c) ∨ M = net) :
    ∀ M, M ∈ leafNets (.mk c0 cB skip pnet leaf) ↔
      M ∈ leafNets (.mk c0 cA skip pnet leaf) ∨ M = net := by
  intro M
  rw [mem_leafNets_iff, mem_leafNets_iff, h M]
  constructor
  · rintro (hl | h0 | hA | hMn)
    · exact Or.inl (Or.inl hl)
    · exact Or.inl (Or.inr (Or.inl h0))
    · exact Or.inl (Or.inr (Or.inr hA))
    · exact Or.inr hMn
  · rintro ((hl | h0 | hA) | hMn)
    · exact Or.inl hl
    · exact Or.inr (Or.inl h0)
    · exact Or.inr (Or.inr (Or.inl hA))
    · exact Or.inr (Or.inr (Or.inr hMn))

/-- A network whose bit after the node's prefix is 0 can only be a leaf network
of slot 0. -/
theorem mem_leafNets_slot0 {W : Nat} {c0 c1 : Option PrefixNode} {skip : Nat}
    {pnet : IPNetwork} {leaf : Bool}
    (hok1 : ∀ c, c1 = some c → childOk W pnet 1 c)
    (hwf1 : ∀ c, c1 = some c → WFNode W c)
    {net : IPNetwork} (hplen : pnet.prefixLen < net.prefixLen)
    (htbx : (wval net.addr).testBit (32 * W - pnet.prefixLen - 1) = false) :
    net ∈ leafNets (.mk c0 c1 skip pnet leaf) ↔
      (∃ c, c0 = some c ∧ net ∈ leafNets c) := by
  rw [mem_leafNets_iff]
  constructor
  · rintro (⟨_, rfl⟩ | h | ⟨c, hc, hM⟩)
    · omega
    · exact h
    · exfalso
      have := leafNets_child_testBit (hok1 c hc) (hwf1 c hc) hM
      rw [htbx] at this
      simp at this
  · intro h
    exact Or.inr (Or.inl h)

theorem mem_leafNets_slot1 {W : Nat} {c0 c1 : Option PrefixNode} {skip : Nat}
    {pnet : IPNetwork} {leaf : Bool}
    (hok0 : ∀ c, c0 = some c → childOk W pnet 0 c)
    (hwf0 : ∀ c, c0 = some c → WFNode W c)
    {net : IPNetwork} (hplen : pnet.prefixLen < net.prefixLen)
    (htbx : (wval net.addr).testBit (32 * W - pnet.prefixLen - 1) = true) :
    net ∈ leafNets (.mk c0 c1 skip pnet leaf) ↔
      (∃ c, c1 = some c ∧ net ∈ leafNets c) := by
  rw [mem_leafNets_iff]
  constructor
  · rintro (⟨_, rfl⟩ | ⟨c, hc, hM⟩ | h)
    · omega
    · exfalso
      have := leafNets_child_testBit (hok0 c hc) (hwf0 c hc) hM
      rw [htbx] at this
      simp at this
    · exact h
  · intro h
    exact Or.inr (Or.inr h)

theorem setChild0_eq (c0 c1 : Option PrefixNode) (s : Nat) (n : IPNetwork)
    (l : Bool) (c : Option PrefixNode) :
    (PrefixNode.mk c0 c1 s n l).setChild 0 c = .mk c c1 s n l := rfl

theorem setChild1_eq (c0 c1 : Option PrefixNode) (s : Nat) (n : IPNetwork)
    (l : Bool) (c : Option PrefixNode) :
    (PrefixNode.mk c0 c1 s n l).setChild 1 c = .mk c0 c s n l := rfl

theorem child0_eq (p : PrefixNode) : p.child 0 = p.child0 := rfl

theorem child1_eq (p : PrefixNode) : p.child 1 = p.child1 := rfl

theorem network_mk (c0 c1 : Option PrefixNode) (s : Nat) (n : IPNetwork)
    (l : Bool) : (PrefixNode.mk c0 c1 s n l).network = n := rfl

theorem skipBits_mk (c0 c1 : Option PrefixNode) (s : Nat) (n : IPNetwork)
    (l : Bool) : (PrefixNode.mk c0 c1 s n l).skipBits = s := rfl

theorem isLeaf_mk (c0 c1 : Option PrefixNode) (s : Nat) (n : IPNetwork)
    (l : Bool) : (PrefixNode.mk c0 c1 s n l).isLeaf = l := rfl

theorem child0_mk (c0 c1 : Option PrefixNode) (s : Nat) (n : IPNetwork)
    (l : Bool) : (PrefixNode.mk c0 c1 s n l).child0 = c0 := rfl

theorem child1_mk (c0 c1 : Option PrefixNode) (s : Nat) (n : IPNetwork)
    (l : Bool) : (PrefixNode.mk c0 c1 s n l).child1 = c1 := rfl

theorem childOk_congr {W : Nat} {net : IPNetwork} {i : Nat} {c c' : PrefixNode}
    (h : c'.network = c.network) (hok : childOk W net i c) : childOk W net i c' := by
  unfold childOk at *
  rw [h]
  exact hok

/-- `prefixNode.insertNetwork` on a well-formed subtree with enough fuel: it
succeeds, preserves well-formedness, the node's own network and skip bits,
adds exactly the inserted network to the leaf set, and reports
`sizeIncreased = false` exactly when the network was already a leaf. -/
theorem insertNetwork_spec {W : Nat} {net : IPNetwork} (hnet : IsCanonical W net) :
    ∀ (fuel : Nat) (p : PrefixNode), WFNode W p →
    p.network.prefixLen ≤ net.prefixLen →
    wval net.addr >>> (32 * W - p.network.prefixLen) =
      wval p.network.addr >>> (32 * W - p.network.prefixLen) →
    32 * W + 1 ≤ fuel + p.network.prefixLen →
    ∃ p' inc, insertNetwork fuel p net = Except.ok (p', inc) ∧ WFNode W p' ∧
      p'.network = p.network ∧ p'.skipBits = p.skipBits ∧
      (∀ M, M ∈ leafNets p' ↔ M ∈ leafNets p ∨ M = net) ∧
      (inc = false ↔ net ∈ leafNets p) := by
  intro fuel
  induction fuel with
  | zero =>
    intro p hp hple hsh hfuel
    exfalso
    have := hp.canonical.2.1
    omega
  | succ fuel ih =>
    intro p hp hple hsh hfuel
    obtain ⟨c0, c1, skip, pnet, leaf⟩ := p
    obtain ⟨hcanP, hskipP, hok0, hok1, hwf0, hwf1⟩ := hp
    simp only [network_mk, skipBits_mk] at hple hsh hfuel
    simp only [insertNetwork, network_mk, isLeaf_mk]
    by_cases hEq : pnet.equal net = true
    · -- the node's network is exactly the inserted network
      have hnp : pnet = net := (equal_iff hcanP hnet).mp hEq
      subst hnp
      rw [if_pos hEq]
      cases leaf with
      | true =>
        rw [if_pos rfl]
        refine ⟨_, _, rfl, .mk hcanP hskipP hok0 hok1 hwf0 hwf1, rfl, rfl, ?_, ?_⟩
        · intro M
          constructor
          · exact fun h => Or.inl h
          · rintro (h | rfl)
            · exact h
            · exact mem_leafNets_iff.mpr (Or.inl ⟨rfl, rfl⟩)
        · constructor
          · intro _
            exact mem_leafNets_iff.mpr (Or.inl ⟨rfl, rfl⟩)
          · intro _
            rfl
      | false =>
        rw [if_neg (by decide)]
        simp only [PrefixNode.setLeaf]
        refine ⟨_, _, rfl, WFNode.relabel (show WFNode W (.mk c0 c1 skip pnet false)
          from .mk hcanP hskipP hok0 hok1 hwf0 hwf1), rfl, rfl, ?_, ?_⟩
        · intro M
          rw [mem_leafNets_iff, mem_leafNets_iff]
          constructor
          · rintro (⟨_, rfl⟩ | h | h)
            · exact Or.inr rfl
            · exact Or.inl (Or.inr (Or.inl h))
            · exact Or.inl (Or.inr (Or.inr h))
          · rintro ((⟨hl, _⟩ | h | h) | rfl)
            · cases hl
            · exact Or.inr (Or.inl h)
            · exact Or.inr (Or.inr h)
            · exact Or.inl ⟨rfl, rfl⟩
        · constructor
          · intro h
            cases h
          · intro hmem
            exfalso
            rcases mem_leafNets_iff.mp hmem with ⟨hl, _⟩ | ⟨c, hc, hM⟩ | ⟨c, hc, hM⟩
            · cases hl
            · have h1 := (hok0 c hc).1
              have h2 := (leafNets_agree (hwf0 c hc) _ hM).2.1
              omega
            · have h1 := (hok1 c hc).1
              have h2 := (leafNets_agree (hwf1 c hc) _ hM).2.1
              omega
    · -- descend or split below this node
      rw [if_neg hEq]
      have hstrict : pnet.prefixLen < net.prefixLen := by
        rcases Nat.eq_or_lt_of_le hple with heq | h
        · exfalso
          apply hEq
          rw [equal_iff hcanP hnet]
          refine canonical_eq_of_shift hcanP hnet heq ?_
          rw [← heq]
          exact hsh.symm
        · exact h
      have hnp32 : pnet.prefixLen < 32 * W := by
        have := hnet.2.1
        omega
      cases htbx : (wval net.addr).testBit (32 * W - pnet.prefixLen - 1) with
      | false =>
        have hgb : (PrefixNode.mk c0 c1 skip pnet leaf).getBitFromAddress net.addr =
            some 0 := by
          unfold PrefixNode.getBitFromAddress
          rw [getTargetBitPos_eq hcanP.1.1 hskipP, if_neg (by omega)]
          have ht : (((32 * W : Nat) : Int) - (pnet.prefixLen : Int) - 1).toNat =
              32 * W - pnet.prefixLen - 1 := by omega
          rw [ht, bit_eq_testBit hnet.1.2 (by rw [hnet.1.1]; omega), htbx]
          rfl
        simp only [hgb, child0_eq, child0_mk]
        cases c0 with
        | none =>
          rw [setChild0_eq]
          refine ⟨_, _, rfl, ?_, rfl, rfl, ?_, ?_⟩
          · refine WFNode.node0 hcanP hskipP hok1 hwf1 ?_ (newLeafNode_wf hnet)
            rw [newLeafNode_eq hnet]
            exact ⟨hstrict, hsh, by (simp only [network_mk]; rw [htbx]; rfl)⟩
          · refine leafNets_update0 (fun M => ?_)
            rw [exists_some_iff, exists_none_iff, leafNets_newLeafNode hnet,
              List.mem_singleton]
            tauto
          · rw [mem_leafNets_slot0 hok1 hwf1 hstrict htbx, exists_none_iff]
            simp
        | some child =>
          obtain ⟨hclt, hcsh, hcbit⟩ := hok0 child rfl
          have hcwf := hwf0 child rfl
          have hccan : IsCanonical W child.network := hcwf.canonical
          have hc32 : child.network.prefixLen ≤ 32 * W := hccan.2.1
          have hagr : ∀ q, 32 * W - pnet.prefixLen - 1 ≤ q →
              (wval net.addr).testBit q = (wval child.network.addr).testBit q := by
            intro q hq
            by_cases hq2 : 32 * W - pnet.prefixLen ≤ q
            · rw [testBit_of_shift_agree hsh hq2, ← testBit_of_shift_agree hcsh hq2]
            · have hqe : q = 32 * W - pnet.prefixLen - 1 := by omega
              subst hqe
              rw [htbx, hcbit]
              rfl
          obtain ⟨la, hlcb, hla32, hlaag, hladif⟩ := netLCB_ok hnet hccan
            (Or.inr (hagr _ (by omega)))
          have hla_le : la ≤ 32 * W - pnet.prefixLen - 1 := by
            rcases hladif with h0 | hdif
            · omega
            · by_contra hgt
              exact hdif (hagr (la - 1) (by omega))
          set L := max (32 * W - min net.prefixLen child.network.prefixLen) la
            with hL
          have hLle : L ≤ 32 * W - pnet.prefixLen - 1 := by omega
          have hL32 : L ≤ 32 * W := by omega
          have hLge : 32 * W - net.prefixLen ≤ L := by omega
          have hctbp : child.getTargetBitPos =
              ((32 * W : Nat) : Int) - (child.network.prefixLen : Int) - 1 :=
            getTargetBitPos_of_wf hccan.1.1 hcwf.skip_eq
          simp only [hlcb]
          by_cases hdesc : L ≤ 32 * W - child.network.prefixLen
          · -- the inserted network descends into the existing child
            rw [if_pos (show ((L : Nat) : Int) - 1 ≤ child.getTargetBitPos by
              rw [hctbp]; omega)]
            have hcple : child.network.prefixLen ≤ net.prefixLen := by omega
            have hshc : wval net.addr >>> (32 * W - child.network.prefixLen) =
                wval child.network.addr >>> (32 * W - child.network.prefixLen) := by
              apply shift_agree_of_testBit
              refine testBit_agree_of_bounded ?_ hnet.addr_lt hccan.addr_lt
              intro q hq hqB
              exact hlaag q (by omega) hqB
            obtain ⟨c', inc, hrec, hwf', hnet', hskip', hiff', hinc'⟩ :=
              ih child hcwf hcple hshc (by omega)
            simp only [hrec]
            rw [setChild0_eq]
            refine ⟨_, _, rfl, ?_, rfl, rfl, ?_, ?_⟩
            · exact WFNode.node0 hcanP hskipP hok1 hwf1
                (childOk_congr hnet' ⟨hclt, hcsh, hcbit⟩) hwf'
            · refine leafNets_update0 (fun M => ?_)
              rw [exists_some_iff, exists_some_iff]
              exact hiff' M
            · rw [hinc', mem_leafNets_slot0 hok1 hwf1 hstrict htbx, exists_some_iff]
          · -- split the edge with a fresh path node
            rw [if_neg (show ¬ ((L : Nat) : Int) - 1 ≤ child.getTargetBitPos by
              rw [hctbp]; omega)]
            rw [show (PrefixNode.mk (some child) c1 skip pnet leaf).getTotalBits =
              32 * W by simp [PrefixNode.getTotalBits, PrefixNode.network,
                BitsPerWord, hcanP.1.1]]
            set s := 32 * W - L with hsdef
            have hs1 : pnet.prefixLen < s := by omega
            have hs2 : s ≤ net.prefixLen := by omega
            have hs3 : s < child.network.prefixLen := by omega
            have hs32 : s ≤ 32 * W := by omega
            obtain ⟨hmcan, hmv⟩ := masked_spec hnet hs32
            have hmplen : (net.masked s).prefixLen = s := rfl
            have hmlen : (net.masked s).addr.length = W := hmcan.1.1
            have hmsh : wval (net.masked s).addr >>> (32 * W - s) =
                wval net.addr >>> (32 * W - s) := by
              rw [hmv, shiftLeft_shiftRight_self]
            have hnc_sh : wval net.addr >>> (32 * W - s) =
                wval child.network.addr >>> (32 * W - s) := by
              apply shift_agree_of_testBit
              refine testBit_agree_of_bounded ?_ hnet.addr_lt hccan.addr_lt
              intro q hq hqB
              exact hlaag q (by omega) hqB
            have hpn : newPathNode net s =
                PrefixNode.mk none none s (net.masked s) false := rfl
            have hptbp : (newPathNode net s).getTargetBitPos =
                ((32 * W : Nat) : Int) - (s : Int) - 1 := by
              rw [hpn, getTargetBitPos_eq hmlen hmplen.symm, hmplen]
            have hqnet_sh : wval (net.masked s).addr >>> (32 * W - pnet.prefixLen) =
                wval pnet.addr >>> (32 * W - pnet.prefixLen) :=
              (shift_agree_mono hmsh (by omega)).trans hsh
            have hqnet_tb : (wval (net.masked s).addr).testBit
                (32 * W - pnet.prefixLen - 1) = false := by
              rw [testBit_of_shift_agree hmsh (by omega), htbx]
            cases hptb : (wval child.network.addr).testBit (32 * W - s - 1) with
            | false =>
              have hpgb : (newPathNode net s).getBitFromAddress child.network.addr =
                  some 0 := by
                unfold PrefixNode.getBitFromAddress
                rw [hptbp, if_neg (by omega)]
                have ht : (((32 * W : Nat) : Int) - (s : Int) - 1).toNat =
                    32 * W - s - 1 := by omega
                rw [ht, bit_eq_testBit hccan.1.2 (by rw [hccan.1.1]; omega), hptb]
                rfl
              simp only [hpgb]
              rw [hpn, setChild0_eq]
              have hokq : childOk W (net.masked s) 0 child := by
                refine ⟨?_, ?_, ?_⟩
                · rw [hmplen]
                  exact hs3
                · rw [hmplen]
                  exact hnc_sh.symm.trans hmsh.symm
                · rw [hmplen, hptb]
                  rfl
              have hqwf : WFNode W (.mk (some child) none s (net.masked s) false) :=
                .mk hmcan hmplen.symm (fun c hc => by cases hc; exact hokq)
                  (fun c hc => by cases hc) (fun c hc => by cases hc; exact hcwf)
                  (fun c hc => by cases hc)
              have hql : leafNets (.mk (some child) none s (net.masked s) false) =
                  leafNets child := by
                rw [leafNets_mk]
                simp
              obtain ⟨q', inc, hrec, hqwf', hqnet', hqskip', hqiff, hqinc⟩ :=
                ih (.mk (some child) none s (net.masked s) false) hqwf
                  (by simp only [network_mk]; rw [hmplen]; exact hs2)
                  (by simp only [network_mk]; rw [hmplen]
                      exact hmsh.symm)
                  (by simp only [network_mk]; rw [hmplen]; omega)
              simp only [network_mk, skipBits_mk] at hqnet' hqskip'
              simp only [hrec]
              rw [setChild0_eq]
              refine ⟨_, _, rfl, ?_, rfl, rfl, ?_, ?_⟩
              · refine WFNode.node0 hcanP hskipP hok1 hwf1 ?_ hqwf'
                refine ⟨?_, ?_, ?_⟩
                · rw [hqnet', hmplen]
                  exact hs1
                · rw [hqnet']
                  exact hqnet_sh
                · rw [hqnet', hqnet_tb]
                  rfl
              · refine leafNets_update0 (fun M => ?_)
                rw [exists_some_iff, exists_some_iff, hqiff M, hql]
              · rw [hqinc, hql, mem_leafNets_slot0 hok1 hwf1 hstrict htbx,
                  exists_some_iff]
            | true =>
              have hpgb : (newPathNode net s).getBitFromAddress child.network.addr =
                  some 1 := by
                unfold PrefixNode.getBitFromAddress
                rw [hptbp, if_neg (by omega)]
                have ht : (((32 * W : Nat) : Int) - (s : Int) - 1).toNat =
                    32 * W - s - 1 := by omega
                rw [ht, bit_eq_testBit hccan.1.2 (by rw [hccan.1.1]; omega), hptb]
                rfl
              simp only [hpgb]
              rw [hpn, setChild1_eq]
              have hokq : childOk W (net.masked s) 1 child := by
                refine ⟨?_, ?_, ?_⟩
                · rw [hmplen]
                  exact hs3
                · rw [hmplen]
                  exact hnc_sh.symm.trans hmsh.symm
                · rw [hmplen, hptb]
                  rfl
              have hqwf : WFNode W (.mk none (some child) s (net.masked s) false) :=
                .mk hmcan hmplen.symm (fun c hc => by cases hc)
                  (fun c hc => by cases hc; exact hokq) (fun c hc => by cases hc)
                  (fun c hc => by cases hc; exact hcwf)
              have hql : leafNets (.mk none (some child) s (net.masked s) false) =
                  leafNets child := by
                rw [leafNets_mk]
                simp
              obtain ⟨q', inc, hrec, hqwf', hqnet', hqskip', hqiff, hqinc⟩ :=
                ih (.mk none (some child) s (net.masked s) false) hqwf
                  (by simp only [network_mk]; rw [hmplen]; exact hs2)
                  (by simp only [network_mk]; rw [hmplen]
                      exact hmsh.symm)
                  (by simp only [network_mk]; rw [hmplen]; omega)
              simp only [network_mk, skipBits_mk] at hqnet' hqskip'
              simp only [hrec]
              rw [setChild0_eq]
              refine ⟨_, _, rfl, ?_, rfl, rfl, ?_, ?_⟩
              · refine WFNode.node0 hcanP hskipP hok1 hwf1 ?_ hqwf'
                refine ⟨?_, ?_, ?_⟩
                · rw [hqnet', hmplen]
                  exact hs1
                · rw [hqnet']
                  exact hqnet_sh
                · rw [hqnet', hqnet_tb]
                  rfl
              · refine leafNets_update0 (fun M => ?_)
                rw [exists_some_iff, exists_some_iff, hqiff M, hql]
              · rw [hqinc, hql, mem_leafNets_slot0 hok1 hwf1 hstrict htbx,
                  exists_some_iff]
      | true =>
        have hgb : (PrefixNode.mk c0 c1 skip pnet leaf).getBitFromAddress net.addr =
            some 1 := by
          unfold PrefixNode.getBitFromAddress
          rw [getTargetBitPos_eq hcanP.1.1 hskipP, if_neg (by omega)]
          have ht : (((32 * W : Nat) : Int) - (pnet.prefixLen : Int) - 1).toNat =
              32 * W - pnet.prefixLen - 1 := by omega
          rw [ht, bit_eq_testBit hnet.1.2 (by rw [hnet.1.1]; omega), htbx]
          rfl
        simp only [hgb, child1_eq, child1_mk]
        cases c1 with
        | none =>
          rw [setChild1_eq]
          refine ⟨_, _, rfl, ?_, rfl, rfl, ?_, ?_⟩
          · refine WFNode.node1 hcanP hskipP hok0 hwf0 ?_ (newLeafNode_wf hnet)
            rw [newLeafNode_eq hnet]
            exact ⟨hstrict, hsh, by (simp only [network_mk]; rw [htbx]; rfl)⟩
          · refine leafNets_update1 (fun M => ?_)
            rw [exists_some_iff, exists_none_iff, leafNets_newLeafNode hnet,
              List.mem_singleton]
            tauto
          · rw [mem_leafNets_slot1 hok0 hwf0 hstrict htbx, exists_none_iff]
            simp
        | some child =>
          obtain ⟨hclt, hcsh, hcbit⟩ := hok1 child rfl
          have hcwf := hwf1 child rfl
          have hccan : IsCanonical W child.network := hcwf.canonical
          have hc32 : child.network.prefixLen ≤ 32 * W := hccan.2.1
          have hagr : ∀ q, 32 * W - pnet.prefixLen - 1 ≤ q →
              (wval net.addr).testBit q = (wval child.network.addr).testBit q := by
            intro q hq
            by_cases hq2 : 32 * W - pnet.prefixLen ≤ q
            · rw [testBit_of_shift_agree hsh hq2, ← testBit_of_shift_agree hcsh hq2]
            · have hqe : q = 32 * W - pnet.prefixLen - 1 := by omega
              subst hqe
              rw [htbx, hcbit]
              rfl
          obtain ⟨la, hlcb, hla32, hlaag, hladif⟩ := netLCB_ok hnet hccan
            (Or.inr (hagr _ (by omega)))
          have hla_le : la ≤ 32 * W - pnet.prefixLen - 1 := by
            rcases hladif with h0 | hdif
            · omega
            · by_contra hgt
              exact hdif (hagr (la - 1) (by omega))
          set L := max (32 * W - min net.prefixLen child.network.prefixLen) la
            with hL
          have hLle : L ≤ 32 * W - pnet.prefixLen - 1 := by omega
          have hL32 : L ≤ 32 * W := by omega
          have hLge : 32 * W - net.prefixLen ≤ L := by omega
          have hctbp : child.getTargetBitPos =
              ((32 * W : Nat) : Int) - (child.network.prefixLen : Int) - 1 :=
            getTargetBitPos_of_wf hccan.1.1 hcwf.skip_eq
          simp only [hlcb]
          by_cases hdesc : L ≤ 32 * W - child.network.prefixLen
          · rw [if_pos (show ((L : Nat) : Int) - 1 ≤ child.getTargetBitPos by
              rw [hctbp]; omega)]
            have hcple : child.network.prefixLen ≤ net.prefixLen := by omega
            have hshc : wval net.addr >>> (32 * W - child.network.prefixLen) =
                wval child.network.addr >>> (32 * W - child.network.prefixLen) := by
              apply shift_agree_of_testBit
              refine testBit_agree_of_bounded ?_ hnet.addr_lt hccan.addr_lt
              intro q hq hqB
              exact hlaag q (by omega) hqB
            obtain ⟨c', inc, hrec, hwf', hnet', hskip', hiff', hinc'⟩ :=
              ih child hcwf hcple hshc (by omega)
            simp only [hrec]
            rw [setChild1_eq]
            refine ⟨_, _, rfl, ?_, rfl, rfl, ?_, ?_⟩
            · exact WFNode.node1 hcanP hskipP hok0 hwf0
                (childOk_congr hnet' ⟨hclt, hcsh, hcbit⟩) hwf'
            · refine leafNets_update1 (fun M => ?_)
              rw [exists_some_iff, exists_some_iff]
              exact hiff' M
            · rw [hinc', mem_leafNets_slot1 hok0 hwf0 hstrict htbx, exists_some_iff]
          · rw [if_neg (show ¬ ((L : Nat) : Int) - 1 ≤ child.getTargetBitPos by
              rw [hctbp]; omega)]
            rw [show (PrefixNode.mk c0 (some child) skip pnet leaf).getTotalBits =
              32 * W by simp [PrefixNode.getTotalBits, PrefixNode.network,
                BitsPerWord, hcanP.1.1]]
            set s := 32 * W - L with hsdef
            have hs1 : pnet.prefixLen < s := by omega
            have hs2 : s ≤ net.prefixLen := by omega
            have hs3 : s < child.network.prefixLen := by omega
            have hs32 : s ≤ 32 * W := by omega
            obtain ⟨hmcan, hmv⟩ := masked_spec hnet hs32
            have hmplen : (net.masked s).prefixLen = s := rfl
            have hmlen : (net.masked s).addr.length = W := hmcan.1.1
            have hmsh : wval (net.masked s).addr >>> (32 * W - s) =
                wval net.addr >>> (32 * W - s) := by
              rw [hmv, shiftLeft_shiftRight_self]
            have hnc_sh : wval net.addr >>> (32 * W - s) =
                wval child.network.addr >>> (32 * W - s) := by
              apply shift_agree_of_testBit
              refine testBit_agree_of_bounded ?_ hnet.addr_lt hccan.addr_lt
              intro q hq hqB
              exact hlaag q (by omega) hqB
            have hpn : newPathNode net s =
                PrefixNode.mk none none s (net.masked s) false := rfl
            have hptbp : (newPathNode net s).getTargetBitPos =
                ((32 * W : Nat) : Int) - (s : Int) - 1 := by
              rw [hpn, getTargetBitPos_eq hmlen hmplen.symm, hmplen]
            have hqnet_sh : wval (net.masked s).addr >>> (32 * W - pnet.prefixLen) =
                wval pnet.addr >>> (32 * W - pnet.prefixLen) :=
              (shift_agree_mono hmsh (by omega)).trans hsh
            have hqnet_tb : (wval (net.masked s).addr).testBit
                (32 * W - pnet.prefixLen - 1) = true := by
              rw [testBit_of_shift_agree hmsh (by omega), htbx]
            cases hptb : (wval child.network.addr).testBit (32 * W - s - 1) with
            | false =>
              have hpgb : (newPathNode net s).getBitFromAddress child.network.addr =
                  some 0 := by
                unfold PrefixNode.getBitFromAddress
                rw [hptbp, if_neg (by omega)]
                have ht : (((32 * W : Nat) : Int) - (s : Int) - 1).toNat =
                    32 * W - s - 1 := by omega
                rw [ht, bit_eq_testBit hccan.1.2 (by rw [hccan.1.1]; omega), hptb]
                rfl
              simp only [hpgb]
              rw [hpn, setChild0_eq]
              have hokq : childOk W (net.masked s) 0 child := by
                refine ⟨?_, ?_, ?_⟩
                · rw [hmplen]
                  exact hs3
                · rw [hmplen]
                  exact hnc_sh.symm.trans hmsh.symm
                · rw [hmplen, hptb]
                  rfl
              have hqwf : WFNode W (.mk (some child) none s (net.masked s) false) :=
                .mk hmcan hmplen.symm (fun c hc => by cases hc; exact hokq)
                  (fun c hc => by cases hc) (fun c hc => by cases hc; exact hcwf)
                  (fun c hc => by cases hc)
              have hql : leafNets (.mk (some child) none s (net.masked s) false) =
                  leafNets child := by
                rw [leafNets_mk]
                simp
              obtain ⟨q', inc, hrec, hqwf', hqnet', hqskip', hqiff, hqinc⟩ :=
                ih (.mk (some child) none s (net.masked s) false) hqwf
                  (by simp only [network_mk]; rw [hmplen]; exact hs2)
                  (by simp only [network_mk]; rw [hmplen]
                      exact hmsh.symm)
                  (by simp only [network_mk]; rw [hmplen]; omega)
              simp only [network_mk, skipBits_mk] at hqnet' hqskip'
              simp only [hrec]
              rw [setChild1_eq]
              refine ⟨_, _, rfl, ?_, rfl, rfl, ?_, ?_⟩
              · refine WFNode.node1 hcanP hskipP hok0 hwf0 ?_ hqwf'
                refine ⟨?_, ?_, ?_⟩
                · rw [hqnet', hmplen]
                  exact hs1
                · rw [hqnet']
                  exact hqnet_sh
                · rw [hqnet', hqnet_tb]
                  rfl
              · refine leafNets_update1 (fun M => ?_)
                rw [exists_some_iff, exists_some_iff, hqiff M, hql]
              · rw [hqinc, hql, mem_leafNets_slot1 hok0 hwf0 hstrict htbx,
                  exists_some_iff]
            | true =>
              have hpgb : (newPathNode net s).getBitFromAddress child.network.addr =
                  some 1 := by
                unfold PrefixNode.getBitFromAddress
                rw [hptbp, if_neg (by omega)]
                have ht : (((32 * W : Nat) : Int) - (s : Int) - 1).toNat =
                    32 * W - s - 1 := by omega
                rw [ht, bit_eq_testBit hccan.1.2 (by rw [hccan.1.1]; omega), hptb]
                rfl
              simp only [hpgb]
              rw [hpn, setChild1_eq]
              have hokq : childOk W (net.masked s) 1 child := by
                refine ⟨?_, ?_, ?_⟩
                · rw [hmplen]
                  exact hs3
                · rw [hmplen]
                  exact hnc_sh.symm.trans hmsh.symm
                · rw [hmplen, hptb]
                  rfl
              have hqwf : WFNode W (.mk none (some child) s (net.masked s) false) :=
                .mk hmcan hmplen.symm (fun c hc => by cases hc)
                  (fun c hc => by cases hc; exact hokq) (fun c hc => by cases hc)
                  (fun c hc => by cases hc; exact hcwf)
              have hql : leafNets (.mk none (some child) s (net.masked s) false) =
                  leafNets child := by
                rw [leafNets_mk]
                simp
              obtain ⟨q', inc, hrec, hqwf', hqnet', hqskip', hqiff, hqinc⟩ :=
                ih (.mk none (some child) s (net.masked s) false) hqwf
                  (by simp only [network_mk]; rw [hmplen]; exact hs2)
                  (by simp only [network_mk]; rw [hmplen]
                      exact hmsh.symm)
                  (by simp only [network_mk]; rw [hmplen]; omega)
              simp only [network_mk, skipBits_mk] at hqnet' hqskip'
              simp only [hrec]
              rw [setChild1_eq]
              refine ⟨_, _, rfl, ?_, rfl, rfl, ?_, ?_⟩
              · refine WFNode.node1 hcanP hskipP hok0 hwf0 ?_ hqwf'
                refine ⟨?_, ?_, ?_⟩
                · rw [hqnet', hmplen]
                  exact hs1
                · rw [hqnet']
                  exact hqnet_sh
                · rw [hqnet', hqnet_tb]
                  rfl
              · refine leafNets_update1 (fun M => ?_)
                rw [exists_some_iff, exists_some_iff, hqiff M, hql]
              · rw [hqinc, hql, mem_leafNets_slot1 hok0 hwf0 hstrict htbx,
                  exists_some_iff]

theorem removeNetwork_mk (c0 c1 : Option PrefixNode) (skip : Nat)
    (pnet : IPNetwork) (leaf : Bool) (network : IPNetwork) (isRoot : Bool) :
    removeNetwork (.mk c0 c1 skip pnet leaf) network isRoot =
      (if leaf ∧ pnet.equal network then
        if isRoot then .node (.mk c0 c1 skip pnet false)
        else
          match c0, c1 with
          | none, none => .detached
          | some c, none => .collapsed c
          | none, some c => .collapsed c
          | some _, some _ => .node (.mk c0 c1 skip pnet false)
      else if (PrefixNode.mk c0 c1 skip pnet leaf).getTargetBitPos < 0 then
        .node (.mk c0 c1 skip pnet leaf)
      else
        match (PrefixNode.mk c0 c1 skip pnet leaf).getBitFromAddress
            network.addr with
        | none => .err "bit position not valid"
        | some bit =>
          if bit = 0 then
            match c0 with
            | none => .node (.mk c0 c1 skip pnet leaf)
            | some child =>
              match removeNetwork child network false with
              | .err e => .err e
              | .node c => .node (.mk (some c) c1 skip pnet leaf)
              | .detached => .node (.mk none c1 skip pnet leaf)
              | .collapsed c =>
                if ¬ leaf ∧ (PrefixNode.mk c0 c1 skip pnet leaf).getChildCount
                    ≤ 1 ∧ ¬ isRoot then
                  .collapsed c
                else .node (.mk (some c) c1 skip pnet leaf)
          else
            match c1 with
            | none => .node (.mk c0 c1 skip pnet leaf)
            | some child =>
              match removeNetwork child network false with
              | .err e => .err e
              | .node c => .node (.mk c0 (some c) skip pnet leaf)
              | .detached => .node (.mk c0 none skip pnet leaf)
              | .collapsed c =>
                if ¬ leaf ∧ (PrefixNode.mk c0 c1 skip pnet leaf).getChildCount
                    ≤ 1 ∧ ¬ isRoot then
                  .collapsed c
                else .node (.mk c0 (some c) skip pnet leaf)) := by
  cases c0 <;> cases c1 <;> simp only [removeNetwork]

/-- `prefixNode.removeNetwork` plus the `compressPath` walk on a well-formed
subtree: it never errors; a kept node is well-formed with the same network and
skip bits and its leaf set loses exactly the removed network; a detached node
was the removed leaf itself; a collapsed child is well-formed, strictly extends
and agrees with the node's prefix, and carries the node's leaf set minus the
removed network. -/
theorem removeNetwork_spec {W : Nat} {net : IPNetwork} (hnet : IsCanonical W net) :
    ∀ {p : PrefixNode}, WFNode W p → ∀ isRoot,
    (∃ r, removeNetwork p net isRoot = .node r ∧ WFNode W r ∧
        r.network = p.network ∧ r.skipBits = p.skipBits ∧
        (∀ M, M ∈ leafNets r ↔ M ∈ leafNets p ∧ M ≠ net)) ∨
    (isRoot = false ∧ removeNetwork p net isRoot = .detached ∧
        (∀ M, M ∈ leafNets p ↔ M = net)) ∨
    (∃ c, isRoot = false ∧ removeNetwork p net isRoot = .collapsed c ∧
        WFNode W c ∧ p.network.prefixLen < c.network.prefixLen ∧
        wval c.network.addr >>> (32 * W - p.network.prefixLen) =
          wval p.network.addr >>> (32 * W - p.network.prefixLen) ∧
        (∀ M, M ∈ leafNets c ↔ M ∈ leafNets p ∧ M ≠ net)) := by
  intro p hp
  induction hp with
  | @mk c0 c1 skip pnet leaf hcanP hskipP hok0 hok1 hwf0 hwf1 ih0 ih1 =>
    intro isRoot
    rw [removeNetwork_mk]
    simp only [network_mk, skipBits_mk]
    by_cases hEq : leaf = true ∧ pnet.equal net = true
    · -- this node is the removed leaf
      have hpe : pnet = net := (equal_iff hcanP hnet).mp hEq.2
      obtain ⟨hleaf, -⟩ := hEq
      subst hleaf
      have hne0 : ∀ c, c0 = some c → ∀ M ∈ leafNets c, M ≠ net := by
        intro c hc M hM heq
        have h1 := (hok0 c hc).1
        have h2 := (leafNets_agree (hwf0 c hc) M hM).2.1
        rw [heq, ← hpe] at h2
        omega
      have hne1 : ∀ c, c1 = some c → ∀ M ∈ leafNets c, M ≠ net := by
        intro c hc M hM heq
        have h1 := (hok1 c hc).1
        have h2 := (leafNets_agree (hwf1 c hc) M hM).2.1
        rw [heq, ← hpe] at h2
        omega
      have hiff : ∀ M, M ∈ leafNets (.mk c0 c1 skip pnet false) ↔
          M ∈ leafNets (.mk c0 c1 skip pnet true) ∧ M ≠ net := by
        intro M
        rw [mem_leafNets_iff, mem_leafNets_iff]
        constructor
        · rintro (⟨hf, _⟩ | ⟨c, hc, hM⟩ | ⟨c, hc, hM⟩)
          · cases hf
          · exact ⟨Or.inr (Or.inl ⟨c, hc, hM⟩), hne0 c hc M hM⟩
          · exact ⟨Or.inr (Or.inr ⟨c, hc, hM⟩), hne1 c hc M hM⟩
        · rintro ⟨(⟨_, rfl⟩ | h | h), hne⟩
          · exact absurd hpe hne
          · exact Or.inr (Or.inl h)
          · exact Or.inr (Or.inr h)
      rw [if_pos ⟨rfl, (equal_iff hcanP hnet).mpr hpe⟩]
      cases isRoot with
      | true =>
        rw [if_pos rfl]
        exact Or.inl ⟨_, rfl, WFNode.relabel (show WFNode W
          (.mk c0 c1 skip pnet true) from .mk hcanP hskipP hok0 hok1 hwf0 hwf1),
          rfl, rfl, hiff⟩
      | false =>
        rw [if_neg (by decide)]
        cases c0 with
        | none =>
          cases c1 with
          | none =>
            refine Or.inr (Or.inl ⟨rfl, rfl, ?_⟩)
            intro M
            rw [mem_leafNets_iff]
            constructor
            · rintro (⟨_, rfl⟩ | ⟨c, hc, _⟩ | ⟨c, hc, _⟩)
              · exact hpe
              · cases hc
              · cases hc
            · rintro rfl
              exact Or.inl ⟨rfl, hpe.symm⟩
          | some c =>
            refine Or.inr (Or.inr ⟨c, rfl, rfl, hwf1 c rfl, (hok1 c rfl).1,
              (hok1 c rfl).2.1, ?_⟩)
            intro M
            rw [mem_leafNets_iff]
            constructor
            · intro hM
              exact ⟨Or.inr (Or.inr ⟨c, rfl, hM⟩), hne1 c rfl M hM⟩
            · rintro ⟨(⟨_, rfl⟩ | ⟨d, hd, _⟩ | ⟨d, hd, hM⟩), hne⟩
              · exact absurd hpe hne
              · cases hd
              · cases hd
                exact hM
        | some c =>
          cases c1 with
          | none =>
            refine Or.inr (Or.inr ⟨c, rfl, rfl, hwf0 c rfl, (hok0 c rfl).1,
              (hok0 c rfl).2.1, ?_⟩)
            intro M
            rw [mem_leafNets_iff]
            constructor
            · intro hM
              exact ⟨Or.inr (Or.inl ⟨c, rfl, hM⟩), hne0 c rfl M hM⟩
            · rintro ⟨(⟨_, rfl⟩ | ⟨d, hd, hM⟩ | ⟨d, hd, _⟩), hne⟩
              · exact absurd hpe hne
              · cases hd
                exact hM
              · cases hd
          | some d =>
            exact Or.inl ⟨_, rfl, WFNode.relabel (show WFNode W
              (.mk (some c) (some d) skip pnet true) from
              .mk hcanP hskipP hok0 hok1 hwf0 hwf1), rfl, rfl, hiff⟩
    · -- not the removed leaf: walk down (or stop)
      rw [if_neg hEq]
      have hnetne : ¬ (leaf = true ∧ pnet = net) := fun h =>
        hEq ⟨h.1, (equal_iff hcanP hnet).mpr h.2⟩
      by_cases hplt : pnet.prefixLen < 32 * W
      · rw [if_neg (show ¬ (PrefixNode.mk c0 c1 skip pnet leaf).getTargetBitPos
          < 0 by rw [getTargetBitPos_eq hcanP.1.1 hskipP]; omega)]
        cases htbx : (wval net.addr).testBit (32 * W - pnet.prefixLen - 1) with
        | false =>
          have hgb : (PrefixNode.mk c0 c1 skip pnet leaf).getBitFromAddress
              net.addr = some 0 := by
            unfold PrefixNode.getBitFromAddress
            rw [getTargetBitPos_eq hcanP.1.1 hskipP, if_neg (by omega)]
            have ht : (((32 * W : Nat) : Int) - (pnet.prefixLen : Int) - 1).toNat =
                32 * W - pnet.prefixLen - 1 := by omega
            rw [ht, bit_eq_testBit hnet.1.2 (by rw [hnet.1.1]; omega), htbx]
            rfl
          simp only [hgb]
          rw [if_pos trivial]
          have hne1 : ∀ c, c1 = some c → ∀ M ∈ leafNets c, M ≠ net := by
            intro c hc M hM heq
            have h := leafNets_child_testBit (hok1 c hc) (hwf1 c hc) hM
            rw [heq, htbx] at h
            simp at h
          cases c0 with
          | none =>
            have hnin : net ∉ leafNets (.mk none c1 skip pnet leaf) := by
              intro hmem
              rcases mem_leafNets_iff.mp hmem with ⟨hl, heq⟩ | ⟨c, hc, _⟩ |
                ⟨c, hc, hM⟩
              · exact hnetne ⟨hl, heq.symm⟩
              · cases hc
              · exact hne1 c hc net hM rfl
            refine Or.inl ⟨_, rfl, .mk hcanP hskipP hok0 hok1 hwf0 hwf1,
              rfl, rfl, fun M => ?_⟩
            constructor
            · intro h
              exact ⟨h, fun heq => hnin (heq ▸ h)⟩
            · exact fun h => h.1
          | some child =>
            have hclt := (hok0 child rfl).1
            have hcsh := (hok0 child rfl).2.1
            have hcbit := (hok0 child rfl).2.2
            have hcwf := hwf0 child rfl
            have hc32 : child.network.prefixLen ≤ 32 * W := hcwf.canonical.2.1
            rcases ih0 child rfl false with
              ⟨r, hres, hrwf, hrnet, hrskip, hriff⟩ |
              ⟨-, hres, hdiff⟩ |
              ⟨cc, -, hres, hcwf2, hcplen, hcsh2, hciff⟩
            · -- child subtree rewritten in place
              simp only [hres]
              refine Or.inl ⟨_, rfl, WFNode.node0 hcanP hskipP hok1 hwf1
                (childOk_congr hrnet ⟨hclt, hcsh, hcbit⟩) hrwf, rfl, rfl,
                fun M => ?_⟩
              rw [mem_leafNets_iff, mem_leafNets_iff]
              constructor
              · rintro (⟨hl, rfl⟩ | ⟨c, hc, hM⟩ | ⟨c, hc, hM⟩)
                · exact ⟨Or.inl ⟨hl, rfl⟩, fun heq => hnetne ⟨hl, heq⟩⟩
                · cases hc
                  obtain ⟨hMc, hMne⟩ := (hriff M).mp hM
                  exact ⟨Or.inr (Or.inl ⟨child, rfl, hMc⟩), hMne⟩
                · exact ⟨Or.inr (Or.inr ⟨c, hc, hM⟩), hne1 c hc M hM⟩
              · rintro ⟨(⟨hl, rfl⟩ | ⟨c, hc, hM⟩ | h), hne⟩
                · exact Or.inl ⟨hl, rfl⟩
                · cases hc
                  exact Or.inr (Or.inl ⟨r, rfl, (hriff M).mpr ⟨hM, hne⟩⟩)
                · exact Or.inr (Or.inr h)
            · -- the removed leaf below had no children: slot emptied
              simp only [hres]
              refine Or.inl ⟨_, rfl, .mk hcanP hskipP (fun c hc => by cases hc)
                hok1 (fun c hc => by cases hc) hwf1, rfl, rfl, fun M => ?_⟩
              rw [mem_leafNets_iff, mem_leafNets_iff]
              constructor
              · rintro (⟨hl, rfl⟩ | ⟨c, hc, hM⟩ | ⟨c, hc, hM⟩)
                · exact ⟨Or.inl ⟨hl, rfl⟩, fun heq => hnetne ⟨hl, heq⟩⟩
                · cases hc
                · exact ⟨Or.inr (Or.inr ⟨c, hc, hM⟩), hne1 c hc M hM⟩
              · rintro ⟨(⟨hl, rfl⟩ | ⟨c, hc, hM⟩ | h), hne⟩
                · exact Or.inl ⟨hl, rfl⟩
                · cases hc
                  exact absurd ((hdiff M).mp hM) hne
                · exact Or.inr (Or.inr h)
            · -- the lone grandchild is climbing
              simp only [hres]
              have hccplen : pnet.prefixLen < cc.network.prefixLen := by omega
              have hccsh : wval cc.network.addr >>> (32 * W - pnet.prefixLen) =
                  wval pnet.addr >>> (32 * W - pnet.prefixLen) :=
                (shift_agree_mono hcsh2 (by omega)).trans hcsh
              have hcctb : (wval cc.network.addr).testBit
                  (32 * W - pnet.prefixLen - 1) = decide (0 = 1) := by
                rw [testBit_of_shift_agree hcsh2 (by omega), hcbit]
              by_cases hprop : ¬ leaf = true ∧
                  (PrefixNode.mk (some child) c1 skip pnet leaf).getChildCount ≤ 1 ∧
                  ¬ isRoot = true
              · rw [if_pos hprop]
                obtain ⟨hlf, hcnt, hrt⟩ := hprop
                have hleaf : leaf = false := by
                  cases leaf
                  · rfl
                  · exact absurd rfl hlf
                have hc1 : c1 = none := by
                  cases hcc1 : c1 with
                  | none => rfl
                  | some d =>
                    exfalso
                    rw [hcc1] at hcnt
                    simp [PrefixNode.getChildCount, PrefixNode.child0,
                      PrefixNode.child1] at hcnt
                have hroot : isRoot = false := by
                  cases isRoot
                  · rfl
                  · exact absurd rfl hrt
                subst hleaf
                subst hc1
                refine Or.inr (Or.inr ⟨cc, hroot, rfl, hcwf2,
                  hccplen, hccsh, fun M => ?_⟩)
                have hpl : leafNets (PrefixNode.mk (some child) none skip pnet
                    false) = leafNets child := by
                  rw [leafNets_mk]
                  simp
                rw [hpl]
                exact hciff M
              · rw [if_neg hprop]
                refine Or.inl ⟨_, rfl, WFNode.node0 hcanP hskipP hok1 hwf1
                  ⟨hccplen, hccsh, hcctb⟩ hcwf2, rfl, rfl, fun M => ?_⟩
                rw [mem_leafNets_iff, mem_leafNets_iff]
                constructor
                · rintro (⟨hl, rfl⟩ | ⟨c, hc, hM⟩ | ⟨c, hc, hM⟩)
                  · exact ⟨Or.inl ⟨hl, rfl⟩, fun heq => hnetne ⟨hl, heq⟩⟩
                  · cases hc
                    obtain ⟨hMc, hMne⟩ := (hciff M).mp hM
                    exact ⟨Or.inr (Or.inl ⟨child, rfl, hMc⟩), hMne⟩
                  · exact ⟨Or.inr (Or.inr ⟨c, hc, hM⟩), hne1 c hc M hM⟩
                · rintro ⟨(⟨hl, rfl⟩ | ⟨c, hc, hM⟩ | h), hne⟩
                  · exact Or.inl ⟨hl, rfl⟩
                  · cases hc
                    exact Or.inr (Or.inl ⟨cc, rfl, (hciff M).mpr ⟨hM, hne⟩⟩)
                  · exact Or.inr (Or.inr h)
        | true =>
          have hgb : (PrefixNode.mk c0 c1 skip pnet leaf).getBitFromAddress
              net.addr = some 1 := by
            unfold PrefixNode.getBitFromAddress
            rw [getTargetBitPos_eq hcanP.1.1 hskipP, if_neg (by omega)]
            have ht : (((32 * W : Nat) : Int) - (pnet.prefixLen : Int) - 1).toNat =
                32 * W - pnet.prefixLen - 1 := by omega
            rw [ht, bit_eq_testBit hnet.1.2 (by rw [hnet.1.1]; omega), htbx]
            rfl
          simp only [hgb]
          rw [if_neg (by decide)]
          have hne0 : ∀ c, c0 = some c → ∀ M ∈ leafNets c, M ≠ net := by
            intro c hc M hM heq
            have h := leafNets_child_testBit (hok0 c hc) (hwf0 c hc) hM
            rw [heq, htbx] at h
            simp at h
          cases c1 with
          | none =>
            have hnin : net ∉ leafNets (.mk c0 none skip pnet leaf) := by
              intro hmem
              rcases mem_leafNets_iff.mp hmem with ⟨hl, heq⟩ | ⟨c, hc, hM⟩ |
                ⟨c, hc, _⟩
              · exact hnetne ⟨hl, heq.symm⟩
              · exact hne0 c hc net hM rfl
              · cases hc
            refine Or.inl ⟨_, rfl, .mk hcanP hskipP hok0 hok1 hwf0 hwf1,
              rfl, rfl, fun M => ?_⟩
            constructor
            · intro h
              exact ⟨h, fun heq => hnin (heq ▸ h)⟩
            · exact fun h => h.1
          | some child =>
            have hclt := (hok1 child rfl).1
            have hcsh := (hok1 child rfl).2.1
            have hcbit := (hok1 child rfl).2.2
            have hcwf := hwf1 child rfl
            have hc32 : child.network.prefixLen ≤ 32 * W := hcwf.canonical.2.1
            rcases ih1 child rfl false with
              ⟨r, hres, hrwf, hrnet, hrskip, hriff⟩ |
              ⟨-, hres, hdiff⟩ |
              ⟨cc, -, hres, hcwf2, hcplen, hcsh2, hciff⟩
            · simp only [hres]
              refine Or.inl ⟨_, rfl, WFNode.node1 hcanP hskipP hok0 hwf0
                (childOk_congr hrnet ⟨hclt, hcsh, hcbit⟩) hrwf, rfl, rfl,
                fun M => ?_⟩
              rw [mem_leafNets_iff, mem_leafNets_iff]
              constructor
              · rintro (⟨hl, rfl⟩ | ⟨c, hc, hM⟩ | ⟨c, hc, hM⟩)
                · exact ⟨Or.inl ⟨hl, rfl⟩, fun heq => hnetne ⟨hl, heq⟩⟩
                · exact ⟨Or.inr (Or.inl ⟨c, hc, hM⟩), hne0 c hc M hM⟩
                · cases hc
                  obtain ⟨hMc, hMne⟩ := (hriff M).mp hM
                  exact ⟨Or.inr (Or.inr ⟨child, rfl, hMc⟩), hMne⟩
              · rintro ⟨(⟨hl, rfl⟩ | h | ⟨c, hc, hM⟩), hne⟩
                · exact Or.inl ⟨hl, rfl⟩
                · exact Or.inr (Or.inl h)
                · cases hc
                  exact Or.inr (Or.inr ⟨r, rfl, (hriff M).mpr ⟨hM, hne⟩⟩)
            · simp only [hres]
              refine Or.inl ⟨_, rfl, .mk hcanP hskipP hok0
                (fun c hc => by cases hc) hwf0 (fun c hc => by cases hc),
                rfl, rfl, fun M => ?_⟩
              rw [mem_leafNets_iff, mem_leafNets_iff]
              constructor
              · rintro (⟨hl, rfl⟩ | ⟨c, hc, hM⟩ | ⟨c, hc, hM⟩)
                · exact ⟨Or.inl ⟨hl, rfl⟩, fun heq => hnetne ⟨hl, heq⟩⟩
                · exact ⟨Or.inr (Or.inl ⟨c, hc, hM⟩), hne0 c hc M hM⟩
                · cases hc
              · rintro ⟨(⟨hl, rfl⟩ | h | ⟨c, hc, hM⟩), hne⟩
                · exact Or.inl ⟨hl, rfl⟩
                · exact Or.inr (Or.inl h)
                · cases hc
                  exact absurd ((hdiff M).mp hM) hne
            · simp only [hres]
              have hccplen : pnet.prefixLen < cc.network.prefixLen := by omega
              have hccsh : wval cc.network.addr >>> (32 * W - pnet.prefixLen) =
                  wval pnet.addr >>> (32 * W - pnet.prefixLen) :=
                (shift_agree_mono hcsh2 (by omega)).trans hcsh
              have hcctb : (wval cc.network.addr).testBit
                  (32 * W - pnet.prefixLen - 1) = decide (1 = 1) := by
                rw [testBit_of_shift_agree hcsh2 (by omega), hcbit]
              by_cases hprop : ¬ leaf = true ∧
                  (PrefixNode.mk c0 (some child) skip pnet leaf).getChildCount ≤ 1 ∧
                  ¬ isRoot = true
              · rw [if_pos hprop]
                obtain ⟨hlf, hcnt, hrt⟩ := hprop
                have hleaf : leaf = false := by
                  cases leaf
                  · rfl
                  · exact absurd rfl hlf
                have hc0 : c0 = none := by
                  cases hcc0 : c0 with
                  | none => rfl
                  | some d =>
                    exfalso
                    rw [hcc0] at hcnt
                    simp [PrefixNode.getChildCount, PrefixNode.child0,
                      PrefixNode.child1] at hcnt
                have hroot : isRoot = false := by
                  cases isRoot
                  · rfl
                  · exact absurd rfl hrt
                subst hleaf
                subst hc0
                refine Or.inr (Or.inr ⟨cc, hroot, rfl, hcwf2,
                  hccplen, hccsh, fun M => ?_⟩)
                have hpl : leafNets (PrefixNode.mk none (some child) skip pnet
                    false) = leafNets child := by
                  rw [leafNets_mk]
                  simp
                rw [hpl]
                exact hciff M
              · rw [if_neg hprop]
                refine Or.inl ⟨_, rfl, WFNode.node1 hcanP hskipP hok0 hwf0
                  ⟨hccplen, hccsh, hcctb⟩ hcwf2, rfl, rfl, fun M => ?_⟩
                rw [mem_leafNets_iff, mem_leafNets_iff]
                constructor
                · rintro (⟨hl, rfl⟩ | ⟨c, hc, hM⟩ | ⟨c, hc, hM⟩)
                  · exact ⟨Or.inl ⟨hl, rfl⟩, fun heq => hnetne ⟨hl, heq⟩⟩
                  · exact ⟨Or.inr (Or.inl ⟨c, hc, hM⟩), hne0 c hc M hM⟩
                  · cases hc
                    obtain ⟨hMc, hMne⟩ := (hciff M).mp hM
                    exact ⟨Or.inr (Or.inr ⟨child, rfl, hMc⟩), hMne⟩
                · rintro ⟨(⟨hl, rfl⟩ | h | ⟨c, hc, hM⟩), hne⟩
                  · exact Or.inl ⟨hl, rfl⟩
                  · exact Or.inr (Or.inl h)
                  · cases hc
                    exact Or.inr (Or.inr ⟨cc, rfl, (hciff M).mpr ⟨hM, hne⟩⟩)
      · -- the node's prefix already spans the whole address: nothing below
        have hpe32 : pnet.prefixLen = 32 * W := by
          have := hcanP.2.1
          omega
        rw [if_pos (by rw [getTargetBitPos_eq hcanP.1.1 hskipP]; omega)]
        have hc0 : c0 = none := by
          cases hcc : c0 with
          | none => rfl
          | some c =>
            exfalso
            have h1 := (hok0 c hcc).1
            have h2 := (hwf0 c hcc).canonical.2.1
            omega
        have hc1 : c1 = none := by
          cases hcc : c1 with
          | none => rfl
          | some c =>
            exfalso
            have h1 := (hok1 c hcc).1
            have h2 := (hwf1 c hcc).canonical.2.1
            omega
        subst hc0
        subst hc1
        have hnin : net ∉ leafNets (.mk none none skip pnet leaf) := by
          intro hmem
          rcases mem_leafNets_iff.mp hmem with ⟨hl, heq⟩ | ⟨c, hc, _⟩ | ⟨c, hc, _⟩
          · exact hnetne ⟨hl, heq.symm⟩
          · cases hc
          · cases hc
        refine Or.inl ⟨_, rfl, .mk hcanP hskipP hok0 hok1 hwf0 hwf1,
          rfl, rfl, fun M => ?_⟩
        constructor
        · intro h
          exact ⟨h, fun heq => hnin (heq ▸ h)⟩
        · exact fun h => h.1

theorem shiftRight_all {x B : Nat} (h : x < 2 ^ B) : x >>> B = 0 := by
  rw [Nat.shiftRight_eq_div_pow]
  exact Nat.div_eq_of_lt h

/-- `containsAddress` on a well-formed subtree answers exactly whether some leaf
network's prefix is shared by the query. -/
theorem containsAddress_iff_leafNets {W : Nat} (hW : W = 1 ∨ W = 4)
    {x : IPAddress} (hx : wfAddr W x) {p : PrefixNode} (hp : WFNode W p) :
    p.containsAddress x = true ↔ ∃ M ∈ leafNets p, specContains W M (wval x) := by
  constructor
  · exact contains_sound hW hx hp
  · rintro ⟨M, hM, hs⟩
    exact contains_complete hW hx hp M hM hs

theorem new_wf : WFTrie IPTrie.new := by
  constructor
  · exact ⟨.mk ⟨⟨rfl, by decide⟩, by decide, by decide, by decide⟩ rfl
      (fun c hc => by cases hc) (fun c hc => by cases hc)
      (fun c hc => by cases hc) (fun c hc => by cases hc), rfl⟩
  · exact ⟨.mk ⟨⟨rfl, by decide⟩, by decide, by decide, by decide⟩ rfl
      (fun c hc => by cases hc) (fun c hc => by cases hc)
      (fun c hc => by cases hc) (fun c hc => by cases hc), rfl⟩

theorem leafNets_new4 : leafNets IPTrie.new.ipv4Root = [] := rfl

theorem leafNets_new6 : leafNets IPTrie.new.ipv6Root = [] := rfl

/-- `IPTrie.Insert` on a well-formed trie: well-formedness is preserved and the
family root's leaf set gains exactly the inserted network. -/
theorem insertNet_spec {t : IPTrie} {n : IPNetwork} (ht : WFTrie t)
    (hn : goodNet n) :
    WFTrie (t.insertNet n) ∧
    (∀ M, M ∈ leafNets (t.insertNet n).ipv4Root ↔
      M ∈ leafNets t.ipv4Root ∨ (n.addr.length = 1 ∧ M = n)) ∧
    (∀ M, M ∈ leafNets (t.insertNet n).ipv6Root ↔
      M ∈ leafNets t.ipv6Root ∨ (n.addr.length = 4 ∧ M = n)) := by
  obtain ⟨hlen, hcan0⟩ := hn
  rcases hlen with h1 | h4
  · have hcan : IsCanonical 1 n := h1 ▸ hcan0
    have hroot := ht.1
    have hplen0 : t.ipv4Root.network.prefixLen = 0 := by
      rw [← hroot.1.skip_eq]
      exact hroot.2
    obtain ⟨r, inc, hres, hrwf, hrnet, hrskip, hriff, hrinc⟩ :=
      insertNetwork_spec hcan (insertFuel n) t.ipv4Root hroot.1
        (by rw [hplen0]; exact Nat.zero_le _)
        (by rw [hplen0, Nat.sub_zero, shiftRight_all hcan.addr_lt,
          shiftRight_all hroot.1.canonical.addr_lt])
        (by simp only [insertFuel, BitsPerWord, h1, hplen0]; omega)
    unfold IPTrie.insertNet IPTrie.insertNetRes
    rw [if_pos h1]
    have hne14 : ¬ n.addr.length = 4 := by rw [h1]; decide
    cases inc with
    | true =>
      simp only [hres]
      refine ⟨⟨⟨hrwf, by rw [hrskip]; exact hroot.2⟩, ht.2⟩, fun M => ?_,
        fun M => ?_⟩
      · rw [hriff M]
        constructor
        · rintro (h | rfl)
          · exact Or.inl h
          · exact Or.inr ⟨h1, rfl⟩
        · rintro (h | ⟨_, rfl⟩)
          · exact Or.inl h
          · exact Or.inr rfl
      · constructor
        · exact fun h => Or.inl h
        · rintro (h | ⟨hl4, _⟩)
          · exact h
          · exact absurd hl4 hne14
    | false =>
      simp only [hres]
      have hmem : n ∈ leafNets t.ipv4Root := hrinc.mp rfl
      refine ⟨ht, fun M => ?_, fun M => ?_⟩
      · constructor
        · exact fun h => Or.inl h
        · rintro (h | ⟨_, rfl⟩)
          · exact h
          · exact hmem
      · constructor
        · exact fun h => Or.inl h
        · rintro (h | ⟨hl4, _⟩)
          · exact h
          · exact absurd hl4 hne14
  · have hcan : IsCanonical 4 n := h4 ▸ hcan0
    have hroot := ht.2
    have hplen0 : t.ipv6Root.network.prefixLen = 0 := by
      rw [← hroot.1.skip_eq]
      exact hroot.2
    obtain ⟨r, inc, hres, hrwf, hrnet, hrskip, hriff, hrinc⟩ :=
      insertNetwork_spec hcan (insertFuel n) t.ipv6Root hroot.1
        (by rw [hplen0]; exact Nat.zero_le _)
        (by rw [hplen0, Nat.sub_zero, shiftRight_all hcan.addr_lt,
          shiftRight_all hroot.1.canonical.addr_lt])
        (by simp only [insertFuel, BitsPerWord, h4, hplen0]; omega)
    unfold IPTrie.insertNet IPTrie.insertNetRes
    have hne41 : ¬ n.addr.length = 1 := by rw [h4]; decide
    rw [if_neg hne41]
    cases inc with
    | true =>
      simp only [hres]
      refine ⟨⟨ht.1, ⟨hrwf, by rw [hrskip]; exact hroot.2⟩⟩, fun M => ?_,
        fun M => ?_⟩
      · constructor
        · exact fun h => Or.inl h
        · rintro (h | ⟨hl1, _⟩)
          · exact h
          · exact absurd hl1 hne41
      · rw [hriff M]
        constructor
        · rintro (h | rfl)
          · exact Or.inl h
          · exact Or.inr ⟨h4, rfl⟩
        · rintro (h | ⟨_, rfl⟩)
          · exact Or.inl h
          · exact Or.inr rfl
    | false =>
      simp only [hres]
      have hmem : n ∈ leafNets t.ipv6Root := hrinc.mp rfl
      refine ⟨ht, fun M => ?_, fun M => ?_⟩
      · constructor
        · exact fun h => Or.inl h
        · rintro (h | ⟨hl1, _⟩)
          · exact h
          · exact absurd hl1 hne41
      · constructor
        · exact fun h => Or.inl h
        · rintro (h | ⟨_, rfl⟩)
          · exact h
          · exact hmem

/-- `IPTrie.Remove` on a well-formed trie: well-formedness is preserved and the
family root's leaf set loses exactly the removed network. -/
theorem removeNet_spec {t : IPTrie} {n : IPNetwork} (ht : WFTrie t)
    (hn : goodNet n) :
    WFTrie (t.removeNet n) ∧
    (∀ M, M ∈ leafNets (t.removeNet n).ipv4Root ↔
      M ∈ leafNets t.ipv4Root ∧ ¬ (n.addr.length = 1 ∧ M = n)) ∧
    (∀ M, M ∈ leafNets (t.removeNet n).ipv6Root ↔
      M ∈ leafNets t.ipv6Root ∧ ¬ (n.addr.length = 4 ∧ M = n)) := by
  obtain ⟨hlen, hcan0⟩ := hn
  rcases hlen with h1 | h4
  · have hcan : IsCanonical 1 n := h1 ▸ hcan0
    have hroot := ht.1
    rcases removeNetwork_spec hcan hroot.1 true with
      ⟨r, hres, hrwf, hrnet, hrskip, hriff⟩ | ⟨hfalse, _⟩ | ⟨c, hfalse, _⟩
    · unfold IPTrie.removeNet IPTrie.removeNetRes
      rw [if_pos h1]
      simp only [hres]
      have hne14 : ¬ n.addr.length = 4 := by rw [h1]; decide
      refine ⟨⟨⟨hrwf, by rw [hrskip]; exact hroot.2⟩, ht.2⟩, fun M => ?_,
        fun M => ?_⟩
      · rw [hriff M]
        constructor
        · rintro ⟨h, hne⟩
          exact ⟨h, fun hc => hne hc.2⟩
        · rintro ⟨h, hne⟩
          exact ⟨h, fun hc => hne ⟨h1, hc⟩⟩
      · constructor
        · exact fun h => ⟨h, fun hc => absurd hc.1 hne14⟩
        · exact fun h => h.1
    · cases hfalse
    · cases hfalse
  · have hcan : IsCanonical 4 n := h4 ▸ hcan0
    have hroot := ht.2
    rcases removeNetwork_spec hcan hroot.1 true with
      ⟨r, hres, hrwf, hrnet, hrskip, hriff⟩ | ⟨hfalse, _⟩ | ⟨c, hfalse, _⟩
    · unfold IPTrie.removeNet IPTrie.removeNetRes
      have hne41 : ¬ n.addr.length = 1 := by rw [h4]; decide
      rw [if_neg hne41]
      simp only [hres]
      refine ⟨⟨ht.1, ⟨hrwf, by rw [hrskip]; exact hroot.2⟩⟩, fun M => ?_,
        fun M => ?_⟩
      · constructor
        · exact fun h => ⟨h, fun hc => absurd hc.1 hne41⟩
        · exact fun h => h.1
      · rw [hriff M]
        constructor
        · rintro ⟨h, hne⟩
          exact ⟨h, fun hc => hne hc.2⟩
        · rintro ⟨h, hne⟩
          exact ⟨h, fun hc => hne ⟨h4, hc⟩⟩
    · cases hfalse
    · cases hfalse

/-- Every trie reachable from `NewIPTrie` by inserts and removes of
well-formed networks is well-formed. -/
theorem reachable_wf {t : IPTrie} (h : ReachableTrie t) : WFTrie t := by
  induction h with
  | init => exact new_wf
  | insert _ hn ih => exact (insertNet_spec ih hn).1
  | remove _ hn ih => exact (removeNet_spec ih hn).1

/-- A sequence of inserts from a well-formed trie: the family leaf sets gain
exactly the inserted networks of that family. -/
theorem insertAll_spec : ∀ (nets : List IPNetwork), (∀ n ∈ nets, goodNet n) →
    ∀ t, WFTrie t →
    WFTrie (t.insertAll nets) ∧
    (∀ M, M ∈ leafNets (t.insertAll nets).ipv4Root ↔
      M ∈ leafNets t.ipv4Root ∨ (M ∈ nets ∧ M.addr.length = 1)) ∧
    (∀ M, M ∈ leafNets (t.insertAll nets).ipv6Root ↔
      M ∈ leafNets t.ipv6Root ∨ (M ∈ nets ∧ M.addr.length = 4)) := by
  intro nets
  induction nets with
  | nil =>
    intro _ t ht
    exact ⟨ht, fun M => by simp [IPTrie.insertAll], fun M => by
      simp [IPTrie.insertAll]⟩
  | cons n ns ih =>
    intro hg t ht
    have h1 := insertNet_spec ht (hg n (by simp))
    have h2 := ih (fun m hm => hg m (by simp [hm])) (t.insertNet n) h1.1
    have hstep : t.insertAll (n :: ns) = (t.insertNet n).insertAll ns := rfl
    rw [hstep]
    refine ⟨h2.1, fun M => ?_, fun M => ?_⟩
    · rw [h2.2.1 M, h1.2.1 M]
      constructor
      · rintro ((h | ⟨hlen, rfl⟩) | ⟨hm, hlen⟩)
        · exact Or.inl h
        · exact Or.inr ⟨List.mem_cons_self _ _, hlen⟩
        · exact Or.inr ⟨List.mem_cons_of_mem _ hm, hlen⟩
      · rintro (h | ⟨hm, hlen⟩)
        · exact Or.inl (Or.inl h)
        · rcases List.mem_cons.mp hm with rfl | hm2
          · exact Or.inl (Or.inr ⟨hlen, rfl⟩)
          · exact Or.inr ⟨hm2, hlen⟩
    · rw [h2.2.2 M, h1.2.2 M]
      constructor
      · rintro ((h | ⟨hlen, rfl⟩) | ⟨hm, hlen⟩)
        · exact Or.inl h
        · exact Or.inr ⟨List.mem_cons_self _ _, hlen⟩
        · exact Or.inr ⟨List.mem_cons_of_mem _ hm, hlen⟩
      · rintro (h | ⟨hm, hlen⟩)
        · exact Or.inl (Or.inl h)
        · rcases List.mem_cons.mp hm with rfl | hm2
          · exact Or.inl (Or.inr ⟨hlen, rfl⟩)
          · exact Or.inr ⟨hm2, hlen⟩

/-- C4: for a trie built from `NewIPTrie` by any sequence of `Insert` calls of
well-formed indicators, `Contains` answers true exactly for the addresses
covered by an inserted indicator of the same family — in particular every
inserted address or CIDR base address and every address covered by an inserted
CIDR is contained, and the descent succeeds exactly when it reaches a leaf
whose network contains the query. -/
theorem iptrie_insertAll_contains (nets : List IPNetwork)
    (hnets : ∀ n ∈ nets, goodNet n) (x : IPAddress)
    (hxlen : x.length = 1 ∨ x.length = 4) (hxw : ∀ w ∈ x, w < 2 ^ 32) :
    (IPTrie.new.insertAll nets).containsAddr x = true ↔
      ∃ n ∈ nets, n.addr.length = x.length ∧ specContains x.length n (wval x) := by
  obtain ⟨hwf, hiff4, hiff6⟩ := insertAll_spec nets hnets IPTrie.new new_wf
  unfold IPTrie.containsAddr
  rcases hxlen with h1 | h4
  · rw [if_pos h1,
      containsAddress_iff_leafNets (Or.inl rfl) ⟨h1, hxw⟩ hwf.1.1, h1]
    constructor
    · rintro ⟨M, hM, hs⟩
      rw [hiff4 M, leafNets_new4] at hM
      rcases hM with hemp | ⟨hm, hlen⟩
      · exact absurd hemp (List.not_mem_nil M)
      · exact ⟨M, hm, hlen, hs⟩
    · rintro ⟨n, hn, hlen, hs⟩
      refine ⟨n, ?_, hs⟩
      rw [hiff4 n, leafNets_new4]
      exact Or.inr ⟨hn, hlen⟩
  · rw [if_neg (show ¬ x.length = 1 by rw [h4]; decide),
      containsAddress_iff_leafNets (Or.inr rfl) ⟨h4, hxw⟩ hwf.2.1, h4]
    constructor
    · rintro ⟨M, hM, hs⟩
      rw [hiff6 M, leafNets_new6] at hM
      rcases hM with hemp | ⟨hm, hlen⟩
      · exact absurd hemp (List.not_mem_nil M)
      · exact ⟨M, hm, hlen, hs⟩
    · rintro ⟨n, hn, hlen, hs⟩
      refine ⟨n, ?_, hs⟩
      rw [hiff6 n, leafNets_new6]
      exact Or.inr ⟨hn, hlen⟩

/-- Witness for C4 at a concrete input: inserting 10.0.0.0/8 into a fresh trie
makes the covered address 10.0.0.1 contained. -/
theorem iptrie_insertAll_contains_witness :
    (IPTrie.new.insertAll
      [{ addr := [167772160], netmask := [4278190080], prefixLen := 8 }]).containsAddr
      [167772161] = true :=
  (iptrie_insertAll_contains
    [{ addr := [167772160], netmask := [4278190080], prefixLen := 8 }]
    (by
      intro m hm
      rw [List.mem_singleton] at hm
      subst hm
      exact ⟨Or.inl rfl, ⟨⟨rfl, by decide⟩, by decide, by decide, by decide⟩⟩)
    [167772161] (Or.inl rfl) (by decide)).mpr
    ⟨{ addr := [167772160], netmask := [4278190080], prefixLen := 8 },
      List.mem_cons_self _ _, rfl, rfl⟩

/-- C9: on any reachable trie in which the address of the well-formed
indicator `n` is not yet contained, `Insert(n)` followed by `Remove(n)` leaves
`Contains` false for `n`'s address, for both address families. -/
theorem iptrie_insert_remove_not_contains {t : IPTrie} (ht : ReachableTrie t)
    {n : IPNetwork} (hn : goodNet n)
    (hpre : t.containsAddr n.addr = false) :
    ((t.insertNet n).removeNet n).containsAddr n.addr = false := by
  have hwf := reachable_wf ht
  obtain ⟨hwfi, hins4, hins6⟩ := insertNet_spec hwf hn
  obtain ⟨hwfr, hrem4, hrem6⟩ := removeNet_spec hwfi hn
  obtain ⟨hlen, hcan0⟩ := hn
  cases hb : ((t.insertNet n).removeNet n).containsAddr n.addr with
  | false => rfl
  | true =>
    exfalso
    rcases hlen with h1 | h4
    · have hcan : IsCanonical 1 n := h1 ▸ hcan0
      unfold IPTrie.containsAddr at hb hpre
      rw [if_pos h1] at hb hpre
      obtain ⟨M, hM, hs⟩ := contains_sound (Or.inl rfl) hcan.1 hwfr.1.1 hb
      rw [hrem4 M] at hM
      obtain ⟨hM1, hMne⟩ := hM
      rw [hins4 M] at hM1
      rcases hM1 with hMt | ⟨_, he⟩
      · have hc := contains_complete (Or.inl rfl) hcan.1 hwf.1.1 M hMt hs
        rw [hpre] at hc
        cases hc
      · exact hMne ⟨h1, he⟩
    · have hcan : IsCanonical 4 n := h4 ▸ hcan0
      unfold IPTrie.containsAddr at hb hpre
      rw [if_neg (show ¬ n.addr.length = 1 by rw [h4]; decide)] at hb hpre
      obtain ⟨M, hM, hs⟩ := contains_sound (Or.inr rfl) hcan.1 hwfr.2.1 hb
      rw [hrem6 M] at hM
      obtain ⟨hM1, hMne⟩ := hM
      rw [hins6 M] at hM1
      rcases hM1 with hMt | ⟨_, he⟩
      · have hc := contains_complete (Or.inr rfl) hcan.1 hwf.2.1 M hMt hs
        rw [hpre] at hc
        cases hc
      · exact hMne ⟨h4, he⟩

/-- Witness for C9 at a concrete input: insert then remove 10.0.0.1/32 on the
fresh trie; the address is no longer contained. -/
theorem iptrie_insert_remove_not_contains_witness :
    ((IPTrie.new.insertNet
      { addr := [167772161], netmask := [4294967295], prefixLen := 32 }).removeNet
      { addr := [167772161], netmask := [4294967295], prefixLen := 32 }).containsAddr
      [167772161] = false :=
  iptrie_insert_remove_not_contains ReachableTrie.init
    ⟨Or.inl rfl, ⟨⟨rfl, by decide⟩, by decide, by decide, by decide⟩⟩
    (by decide)
